import Mathlib

/-!
Verification development for the `piano_keyboard` crate.

Shallow embedding of `src/lib.rs` (builder, validation, layout assembler),
`src/base.rs` (white-key width solver) and `src/top.rs` (black-key sub-width
solver).  Machine integers (`u8`, `u16`, `u32`, `u64`) are embedded as `Nat`;
all arithmetic in the embedded code paths stays far below the respective
bounds, and Rust subtraction that could underflow is mirrored by truncated
`Nat` subtraction with the relevant non-underflow facts carried as hypotheses
where a theorem depends on them.  Rust panics and failed assertions are
modelled as explicit error outcomes of the embedded functions.

The accessor methods `Base::get_elements`, `Base::is_perfect`,
`Base::get_black_key_min_width`, `Base::get_cde_pars`, `Base::get_fgab_pars`,
`Base::get_cde_gap` and `Base::get_fgab_gap` are called from `lib.rs` and
`top.rs` but are not present in `src/base.rs` (which exposes `result()`
returning the perfect flag and the element list).  Those missing accessors are
modelled from the spec; each such definition carries a doc comment starting
with `Modelled from the spec:`.
-/

namespace PK

/-- White/black classification of a MIDI key number by `key mod 12`
(`KeyboardBuilder::is_white` in `src/lib.rs`).  The Rust `match` has an
unreachable fallback (values `mod 12` are always in `0..12`); classes
`1,3,6,8,10` and the unreachable arm map to `false`. -/
def isWhite (key : Nat) : Bool :=
  match key % 12 with
  | 0 | 2 | 4 | 5 | 7 | 9 | 11 => true
  | _ => false

/-- The builder configuration, `KeyboardBuilder` in `src/lib.rs`.  The physical
proportion constants are fields fixed by `new()`; the crate offers no setter
for them. -/
structure KeyboardBuilder where
  left_white_key : Nat
  right_white_key : Nat
  width : Nat
  dot_ratio_1024 : Nat
  white_key_wide_width_10um : Nat
  white_key_small_width_fb_10um : Nat
  white_key_small_width_ga_10um : Nat
  black_key_width_10um : Nat
  black_key_height_10um : Nat
  need_black_gap : Bool
  white_key_height_10um : Nat
  white_key_wide_height_10um : Nat
deriving DecidableEq, Repr

/-- `KeyboardBuilder::new` in `src/lib.rs`. -/
def KeyboardBuilder.new : KeyboardBuilder where
  left_white_key := 21
  right_white_key := 108
  width := 640
  dot_ratio_1024 := 1024
  white_key_wide_width_10um := 2215
  white_key_small_width_fb_10um := 1283
  white_key_small_width_ga_10um := 1308
  black_key_width_10um := 1100
  black_key_height_10um := 8000
  need_black_gap := true
  white_key_height_10um := 12627
  white_key_wide_height_10um := 4500

/-- `KeyboardBuilder::standard_piano`.  The source's `assert_eq!` on the span
holds for every arm (checked by the table itself). -/
def KeyboardBuilder.standard_piano (kb : KeyboardBuilder) (nr_of_keys : Nat) :
    Except String KeyboardBuilder :=
  match nr_of_keys with
  | 88 => .ok { kb with left_white_key := 21, right_white_key := 108 }
  | 76 => .ok { kb with left_white_key := 21, right_white_key := 108 - 12 }
  | 73 => .ok { kb with left_white_key := 21 + 3, right_white_key := 108 - 12 }
  | 64 => .ok { kb with left_white_key := 21 + 12, right_white_key := 108 - 12 }
  | 61 => .ok { kb with left_white_key := 21 + 12 + 3, right_white_key := 108 - 12 }
  | 49 => .ok { kb with left_white_key := 21 + 12 + 3, right_white_key := 108 - 24 }
  | 37 => .ok { kb with left_white_key := 21 + 24 + 3, right_white_key := 108 - 24 }
  | 25 => .ok { kb with left_white_key := 21 + 24 + 3, right_white_key := 108 - 36 }
  | _ => .error "size not a recognized standard size"

/-- `KeyboardBuilder::set_most_left_right_white_keys`.  The `u8` arguments are
embedded as `Nat`; callers of the theorems restrict them to `≤ 255`.  The Rust
`right - left` is evaluated only under `left ≤ right`, so truncated `Nat`
subtraction agrees with it. -/
def KeyboardBuilder.set_most_left_right_white_keys (kb : KeyboardBuilder)
    (left_white_key right_white_key : Nat) : Except String KeyboardBuilder :=
  if left_white_key > right_white_key then
    .error "left white key right from right white key "
  else if left_white_key > 127 then
    .error "left white key is out of range"
  else if right_white_key > 127 then
    .error "right white key is out of range"
  else if right_white_key - left_white_key < 11 then
    .error "Keyboard must be at least one octave"
  else if !isWhite left_white_key then
    .error "left white key is not a white key"
  else if !isWhite right_white_key then
    .error "right white key is not a white key"
  else
    .ok { kb with left_white_key := left_white_key, right_white_key := right_white_key }

/-- `KeyboardBuilder::set_width`. -/
def KeyboardBuilder.set_width (kb : KeyboardBuilder) (width : Nat) :
    Except String KeyboardBuilder :=
  if width > 65535 - 127 then
    .error "Requested width too big"
  else
    .ok { kb with width := width }

/-- `KeyboardBuilder::white_black_gap_present`. -/
def KeyboardBuilder.white_black_gap_present (kb : KeyboardBuilder) (gap_present : Bool) :
    KeyboardBuilder :=
  { kb with need_black_gap := gap_present }

/-- Whether a builder call reported a configuration error. -/
def isErr (r : Except String KeyboardBuilder) : Bool :=
  match r with
  | .error _ => true
  | .ok _ => false

/-- A key-range/width triple accepted by the two validating setters. -/
def validConfig (l r w : Nat) : Bool :=
  l ≤ r && l ≤ 127 && r ≤ 127 && 11 ≤ r - l && isWhite l && isWhite r &&
    w ≤ 65535 - 127

/-! ## The `Base` width solver (`src/base.rs`) -/

/-- `Element` in `src/base.rs`. -/
inductive Element where
  | IdenticalWhite (key : Nat)
  | IdenticalGap
  | GapBC
  | GapEF
  | KeyD (key : Nat)
  | KeyCDE (key : Nat)
  | KeyFGAB (key : Nat)
  | OutterGap
  | EnlargedOutterLeftKey (key : Nat)
  | EnlargedOutterRightKey (key : Nat)
deriving DecidableEq, Repr

/-- `ResultElement` in `src/base.rs`. -/
inductive ResultElement where
  | Key (width key : Nat)
  | Gap (width : Nat)
deriving DecidableEq, Repr

/-- The counters accumulated by the per-key loop in `Base::calculate`
(`nr_of_*` fields and their `possible_*` helper flags). -/
structure CountAcc where
  nr_of_full_octaves : Nat := 0
  nr_of_c : Nat := 0
  nr_of_d : Nat := 0
  nr_of_e : Nat := 0
  nr_of_cde : Nat := 0
  nr_of_f : Nat := 0
  nr_of_g : Nat := 0
  nr_of_a : Nat := 0
  nr_of_b : Nat := 0
  nr_of_fgab : Nat := 0
  nr_of_bc_gaps : Nat := 0
  nr_of_ef_gaps : Nat := 0
  possible_full_octave : Bool := false
  possible_cde : Bool := false
  possible_fgab : Bool := false
  possible_bc_gap : Bool := false
  possible_ef_gap : Bool := false
deriving DecidableEq, Repr

/-- One step of the counting loop in `Base::calculate` (the `match key % 12`
in lines 135-180 of `src/base.rs`). -/
def countStep (a : CountAcc) (key : Nat) : CountAcc :=
  match key % 12 with
  | 0 => { a with nr_of_c := a.nr_of_c + 1
                  possible_cde := true
                  possible_full_octave := true
                  nr_of_bc_gaps :=
                    if a.possible_bc_gap then a.nr_of_bc_gaps + 1 else a.nr_of_bc_gaps }
  | 2 => { a with nr_of_d := a.nr_of_d + 1 }
  | 4 => { a with nr_of_e := a.nr_of_e + 1
                  possible_ef_gap := true
                  nr_of_cde :=
                    if a.possible_cde then a.nr_of_cde + 1 else a.nr_of_cde }
  | 5 => { a with nr_of_f := a.nr_of_f + 1
                  possible_fgab := true
                  nr_of_ef_gaps :=
                    if a.possible_ef_gap then a.nr_of_ef_gaps + 1 else a.nr_of_ef_gaps }
  | 7 => { a with nr_of_g := a.nr_of_g + 1 }
  | 9 => { a with nr_of_a := a.nr_of_a + 1 }
  | 11 => { a with nr_of_b := a.nr_of_b + 1
                   possible_bc_gap := true
                   nr_of_fgab :=
                     if a.possible_fgab then a.nr_of_fgab + 1 else a.nr_of_fgab
                   nr_of_full_octaves :=
                     if a.possible_full_octave then a.nr_of_full_octaves + 1
                     else a.nr_of_full_octaves }
  | _ => a

/-- The full counter pass over the key range `l..=r`. -/
def countersOf (l r : Nat) : CountAcc :=
  (List.range' l (r + 1 - l)).foldl countStep {}

/-- The mutable state of `Base` (`src/base.rs`), as threaded through
`find_solution`. -/
structure BaseState where
  width : Nat
  nr_of_white_keys : Nat
  elements : List Element
  key_gap_min : Nat
  kw_width_min : Nat
  identical_key : Nat
  identical_gap : Nat
  gap_bc : Nat
  gap_ef : Nat
  outter_gaps : Nat
  outter_left_key : Nat
  outter_right_key : Nat
  width_d : Nat
  width_cde : Nat
  width_fgab : Nat
  nr_of_full_octaves : Nat
  nr_of_c : Nat
  nr_of_d : Nat
  nr_of_e : Nat
  nr_of_cde : Nat
  nr_of_f : Nat
  nr_of_g : Nat
  nr_of_a : Nat
  nr_of_b : Nat
  nr_of_fgab : Nat
  nr_of_bc_gaps : Nat
  nr_of_ef_gaps : Nat
  outter_gaps_enlarged : Bool
  bc_gaps_enlarged : Bool
  ef_gaps_enlarged : Bool
  d_key_enlarged : Bool
  alternating_d_key_enlarged : Bool
  end_keys_enlarged : Bool
  cde_keys_enlarged : Bool
  fgab_keys_enlarged : Bool
deriving DecidableEq, Repr

/-- Width of one element under the current state, exactly the mapping in
`Base::current_width`. -/
def elemWidth (s : BaseState) (e : Element) : Nat :=
  match e with
  | .IdenticalWhite _ => s.identical_key
  | .IdenticalGap => s.identical_gap
  | .GapBC => s.gap_bc
  | .GapEF => s.gap_ef
  | .KeyD _ => s.width_d
  | .KeyCDE _ => s.width_cde
  | .KeyFGAB _ => s.width_fgab
  | .OutterGap => s.outter_gaps
  | .EnlargedOutterLeftKey _ => s.outter_left_key
  | .EnlargedOutterRightKey _ => s.outter_right_key

/-- The accumulated width of all elements (`Base::current_width` before its
defensive check). -/
def currentWidthTotal (s : BaseState) : Nat :=
  (s.elements.map (elemWidth s)).sum

/-- The derived key-gap measure `key_gap_10um` of `Base::calculate` /
`KeyboardBuilder::build2d`. -/
def keyGap10um (kb : KeyboardBuilder) : Nat :=
  kb.white_key_height_10um - kb.black_key_height_10um - kb.white_key_wide_height_10um

/-- `keyboard_width_10um` of `Base::calculate` / `KeyboardBuilder::build2d`
for `n` white keys. -/
def keyboardWidth10um (kb : KeyboardBuilder) (n : Nat) : Nat :=
  (kb.white_key_wide_width_10um + keyGap10um kb) * n + keyGap10um kb

/-- The white keys of the configured range, in order. -/
def whiteKeys (kb : KeyboardBuilder) : List Nat :=
  (List.range' kb.left_white_key (kb.right_white_key + 1 - kb.left_white_key)).filter
    (fun k => isWhite k)

/-- The floored key gap of the seeding step (line 101 of `src/base.rs`). -/
def gminOf (kb : KeyboardBuilder) (n : Nat) : Nat :=
  keyGap10um kb * kb.width / keyboardWidth10um kb n

/-- The floored white-key width before the one-pixel adjustment
(line 102 of `src/base.rs`). -/
def kw0Of (kb : KeyboardBuilder) (n : Nat) : Nat :=
  kb.white_key_wide_width_10um * kb.width / keyboardWidth10um kb n

/-- The white-key width after the conditional increment
(lines 105-107 of `src/base.rs`). -/
def kwminOf (kb : KeyboardBuilder) (n : Nat) : Nat :=
  if n * (kw0Of kb n + 1) + (n + 1) * gminOf kb n ≤ kb.width then kw0Of kb n + 1
  else kw0Of kb n

/-- The first half of `Base::calculate` (lines 83-180 of `src/base.rs`): the
seeded state before `find_solution` runs.  The element list is built by the
source's single loop pushing `IdenticalWhite key` and `IdenticalGap` for every
white key after an initial `IdenticalGap`; the `flatMap` below produces the
identical list. -/
def basePre (kb : KeyboardBuilder) : BaseState :=
  let whites := whiteKeys kb
  let n := whites.length
  let c := countersOf kb.left_white_key kb.right_white_key
  { width := kb.width
    nr_of_white_keys := n
    elements := Element.IdenticalGap ::
      whites.flatMap (fun k => [Element.IdenticalWhite k, Element.IdenticalGap])
    key_gap_min := gminOf kb n
    kw_width_min := kwminOf kb n
    identical_key := kwminOf kb n
    identical_gap := gminOf kb n
    gap_bc := 0
    gap_ef := 0
    outter_gaps := 0
    outter_left_key := 0
    outter_right_key := 0
    width_d := 0
    width_cde := 0
    width_fgab := 0
    nr_of_full_octaves := c.nr_of_full_octaves
    nr_of_c := c.nr_of_c
    nr_of_d := c.nr_of_d
    nr_of_e := c.nr_of_e
    nr_of_cde := c.nr_of_cde
    nr_of_f := c.nr_of_f
    nr_of_g := c.nr_of_g
    nr_of_a := c.nr_of_a
    nr_of_b := c.nr_of_b
    nr_of_fgab := c.nr_of_fgab
    nr_of_bc_gaps := c.nr_of_bc_gaps
    nr_of_ef_gaps := c.nr_of_ef_gaps
    outter_gaps_enlarged := false
    bc_gaps_enlarged := false
    ef_gaps_enlarged := false
    d_key_enlarged := false
    alternating_d_key_enlarged := false
    end_keys_enlarged := false
    cde_keys_enlarged := false
    fgab_keys_enlarged := false }

/-! ### The delta-resolution tiers of `Base::find_solution`

The element list always has the shape `Gap (Key Gap)*` (one leading gap, then
a key/gap pair per white key).  The Rust tier loops iterate over indices and
mutate the vector in place; every loop writes only positions it will not read
again (key conversions write the position just read, the B-C and E-F gap
loops write the gap one slot before the key just read, and gap and key slots
alternate strictly), so each loop is equivalent to the pure pass over the
original list given below.  The recursions walk the list in the same
two-slot rhythm as the source loops:

* loops over `1..len-1` (F,G,A,B and C,D,E enlargement) touch every key slot
  and leave the final gap alone: `mapKeyGap` on the list after the leading
  gap;
* loops over `3..len-1` (B-C gap, E-F gap, D, alternating D) skip the first
  key: passes on the list after the leading gap and the first key, processed
  as (gap, key) chunks with the trailing gap left alone. -/

/-- Apply `f` to every key slot of a `(Key Gap)*` chunk list, leaving the
trailing element (if the list has odd length) untouched. -/
def mapKeyGap (f : Element → Element) : List Element → List Element
  | k :: g :: t => f k :: g :: mapKeyGap f t
  | rest => rest

/-- Apply `f` to every key slot of a `(Gap Key)*` chunk list (used by the
index-3-based loops), leaving the trailing gap untouched. -/
def mapGapKey (f : Element → Element) : List Element → List Element
  | g :: k :: t => g :: f k :: mapGapKey f t
  | rest => rest

/-- Rewrite each gap slot of a `(Gap Key)*` chunk list as a function of the
key that follows it, leaving the trailing gap untouched (used by the B-C and
E-F gap loops, which write `elements[i-1]` based on `elements[i]`). -/
def mapGapByKey (f : Element → Element → Element) : List Element → List Element
  | g :: k :: t => f g k :: k :: mapGapByKey f t
  | rest => rest

/-- Key conversion of the F,G,A,B enlargement tier (lines 259-276). -/
def convFgab (e : Element) : Element :=
  match e with
  | .IdenticalWhite key =>
      if key % 12 = 5 ∨ key % 12 = 7 ∨ key % 12 = 9 ∨ key % 12 = 11 then
        .KeyFGAB key
      else e
  | _ => e

/-- Key conversion of the C,D,E enlargement tier (lines 279-296). -/
def convCde (e : Element) : Element :=
  match e with
  | .IdenticalWhite key =>
      if key % 12 = 0 ∨ key % 12 = 2 ∨ key % 12 = 4 then .KeyCDE key else e
  | _ => e

/-- Gap rewrite of the B-C gap tier (lines 299-314): the gap before an
`IdenticalWhite` C key becomes `GapBC`. -/
def convGapBC (g k : Element) : Element :=
  match k with
  | .IdenticalWhite key => if key % 12 = 0 then .GapBC else g
  | _ => g

/-- Gap rewrite of the E-F gap tier (lines 317-333): the gap before an
`IdenticalWhite` or `KeyFGAB` F key becomes `GapEF`. -/
def convGapEF (g k : Element) : Element :=
  match k with
  | .IdenticalWhite key => if key % 12 = 5 then .GapEF else g
  | .KeyFGAB key => if key % 12 = 5 then .GapEF else g
  | _ => g

/-- Key conversion of the D enlargement tier (lines 336-357). -/
def convD (e : Element) : Element :=
  match e with
  | .IdenticalWhite key => if key % 12 = 2 then .KeyD key else e
  | .KeyCDE key => if key % 12 = 2 then .KeyD key else e
  | _ => e

/-- Whether the alternating-D loop treats this element as a D key
(the `IdenticalWhite | KeyCDE` match in lines 423-435). -/
def dMatch (e : Element) : Option Nat :=
  match e with
  | .IdenticalWhite key => if key % 12 = 2 then some key else none
  | .KeyCDE key => if key % 12 = 2 then some key else none
  | _ => none

/-- The alternating-D pass (lines 419-445) over a `(Gap Key)*` chunk list:
the `enlarge` flag toggles at every matching D key and the key is converted
exactly when the toggled flag is true. -/
def altDGo (enlarge : Bool) : List Element → List Element
  | g :: k :: t =>
      match dMatch k with
      | some key =>
          let e := !enlarge
          g :: (if e then Element.KeyD key else k) :: altDGo e t
      | none => g :: k :: altDGo enlarge t
  | rest => rest

/-- State update of the F,G,A,B tier.  The source assigns `width_fgab` inside
the loop, i.e. only when at least one key matches; assigning it
unconditionally is observationally equal because `width_fgab` is read only
through `KeyFGAB` elements, which exist exactly when a key matched. -/
def applyFgab (s : BaseState) : BaseState :=
  { s with fgab_keys_enlarged := true
           width_fgab := s.identical_key + 1
           elements :=
             match s.elements with
             | g0 :: body => g0 :: mapKeyGap convFgab body
             | [] => [] }

/-- State update of the C,D,E tier (same remark on `width_cde` as for
`applyFgab`). -/
def applyCde (s : BaseState) : BaseState :=
  { s with cde_keys_enlarged := true
           width_cde := s.identical_key + 1
           elements :=
             match s.elements with
             | g0 :: body => g0 :: mapKeyGap convCde body
             | [] => [] }

/-- State update of the B-C gap tier (same remark on `gap_bc`). -/
def applyBc (s : BaseState) : BaseState :=
  { s with bc_gaps_enlarged := true
           gap_bc := s.identical_gap + 1
           elements :=
             match s.elements with
             | g0 :: k1 :: rest => g0 :: k1 :: mapGapByKey convGapBC rest
             | short => short }

/-- State update of the E-F gap tier (same remark on `gap_ef`). -/
def applyEf (s : BaseState) : BaseState :=
  { s with ef_gaps_enlarged := true
           gap_ef := s.identical_gap + 1
           elements :=
             match s.elements with
             | g0 :: k1 :: rest => g0 :: k1 :: mapGapByKey convGapEF rest
             | short => short }

/-- State update of the D tier; `width_d` is assigned after the loop in the
source, from `width_cde` if the C,D,E tier already fired. -/
def applyD (s : BaseState) : BaseState :=
  { s with d_key_enlarged := true
           width_d := (if s.cde_keys_enlarged then s.width_cde else s.identical_key) + 1
           elements :=
             match s.elements with
             | g0 :: k1 :: rest => g0 :: k1 :: mapGapKey convD rest
             | short => short }

/-- State update of the outer-gap tier (lines 360-370): the leftmost gap is
always enlarged, the rightmost one only for even delta. -/
def applyOuterGaps (s : BaseState) (delta : Nat) : BaseState :=
  { s with outter_gaps_enlarged := true
           outter_gaps := s.identical_gap + 1
           elements :=
             let es := s.elements.set 0 Element.OutterGap
             if delta % 2 = 0 then es.set (es.length - 1) Element.OutterGap else es }

/-- The `match` on `elements[1]` of the end-key tier (lines 376-394),
returning the converted element and the new `outter_left_key`, or `none` for
the source's defensive `Should not happen` arm. -/
def endLeftConv (s : BaseState) (e : Element) : Option (Element × Nat) :=
  match e with
  | .IdenticalWhite key => some (.EnlargedOutterLeftKey key, s.identical_key + 1)
  | .KeyCDE key => some (.EnlargedOutterLeftKey key, s.width_cde + 1)
  | .KeyFGAB key => some (.EnlargedOutterLeftKey key, s.width_fgab + 1)
  | .EnlargedOutterLeftKey key => some (.EnlargedOutterLeftKey key, s.outter_left_key + 1)
  | _ => none

/-- The `match` on `elements[len-2]` of the end-key tier (lines 395-414). -/
def endRightConv (s : BaseState) (e : Element) : Option (Element × Nat) :=
  match e with
  | .IdenticalWhite key => some (.EnlargedOutterRightKey key, s.identical_key + 1)
  | .KeyCDE key => some (.EnlargedOutterRightKey key, s.width_cde + 1)
  | .KeyFGAB key => some (.EnlargedOutterRightKey key, s.width_fgab + 1)
  | .EnlargedOutterRightKey key => some (.EnlargedOutterRightKey key, s.outter_right_key + 1)
  | _ => none

/-- State update of the end-key tier (lines 373-416); `none` models the
defensive source arms that abort. -/
def applyEndKeys (s : BaseState) : Option BaseState :=
  match s.elements.get? 1 with
  | none => none
  | some e1 =>
    match endLeftConv s e1 with
    | none => none
    | some (e1', wl) =>
      match (s.elements.set 1 e1').get? ((s.elements.set 1 e1').length - 2) with
      | none => none
      | some e2 =>
        match endRightConv { s with outter_left_key := wl } e2 with
        | none => none
        | some (e2', wr) =>
            some { s with end_keys_enlarged := true
                          outter_left_key := wl
                          outter_right_key := wr
                          elements := (s.elements.set 1 e1').set
                            ((s.elements.set 1 e1').length - 2) e2' }

/-- State update of the alternating-D tier (lines 419-445); the starting
phase is `enlarge = (delta == nr_of_d / 2)` as in the source. -/
def applyAltD (s : BaseState) (delta : Nat) : BaseState :=
  { s with alternating_d_key_enlarged := true
           width_d := (if s.cde_keys_enlarged then s.width_cde else s.identical_key) + 1
           elements :=
             match s.elements with
             | g0 :: k1 :: rest =>
                 g0 :: k1 :: altDGo (decide (delta = s.nr_of_d / 2)) rest
             | short => short }

/-- The uniform gap bump `identical_gap += 1` (lines 228, 243). -/
def bumpGap (s : BaseState) : BaseState :=
  { s with identical_gap := s.identical_gap + 1 }

/-- The uniform key bump `identical_key += 1` (lines 234, 253). -/
def bumpKey (s : BaseState) : BaseState :=
  { s with identical_key := s.identical_key + 1 }

/-- Which heuristic tier fired in one pass of the `find_solution` loop. -/
inductive Tier where
  | gapAll
  | keyAll
  | gapAllRem
  | keyAllRem
  | fgab
  | cde
  | bc
  | ef
  | dkey
  | outerGap
  | endKeys
  | altD
  | noop
deriving DecidableEq, Repr

/-- Result of one pass of the `find_solution` loop body. -/
inductive StepRes where
  | done (s : BaseState)
  | stalled (s : BaseState)
  | overwide (s : BaseState)
  | panicked (s : BaseState)
  | next (s : BaseState) (delta : Nat) (t : Tier)
deriving DecidableEq, Repr

/-- One iteration of the loop in `Base::find_solution` (lines 210-447).
`overwide` models the defensive abort inside `current_width` (width sum
exceeds the target), `stalled` the endless-loop abort (delta unchanged since
the previous iteration), `panicked` the defensive arms of the end-key tier.
A pass in which no branch applies leaves the state unchanged (`Tier.noop`),
exactly as the source loop, whose next iteration then hits the stall check.
In the two `rem %` branches the source divides by `nr_of_cde` / `nr_of_fgab`;
`Nat.mod` is total where the Rust `%` would abort on zero, which makes no
difference on the states reachable from a validated configuration (there the
branches require `delta ≥ nr_of_white_keys`, which never holds, see the
delta bound of the seeding step). -/
def stepB (last : Nat) (s : BaseState) : StepRes :=
  if s.width < currentWidthTotal s then .overwide s
  else if s.width - currentWidthTotal s = 0 then .done s
  else if s.width - currentWidthTotal s = last then .stalled s
  else if s.width - currentWidthTotal s = s.nr_of_white_keys + 1 then
    .next (bumpGap s) (s.width - currentWidthTotal s) .gapAll
  else if s.width - currentWidthTotal s = s.nr_of_white_keys then
    .next (bumpKey s) (s.width - currentWidthTotal s) .keyAll
  else if s.nr_of_white_keys + 1 ≤ s.width - currentWidthTotal s ∧
      ((s.width - currentWidthTotal s - s.nr_of_white_keys - 1) % s.nr_of_cde ≤ 4 ∨
       (s.width - currentWidthTotal s - s.nr_of_white_keys - 1) % s.nr_of_fgab ≤ 4) then
    .next (bumpGap s) (s.width - currentWidthTotal s) .gapAllRem
  else if s.nr_of_white_keys ≤ s.width - currentWidthTotal s ∧
      ((s.width - currentWidthTotal s - s.nr_of_white_keys) % s.nr_of_cde ≤ 4 ∨
       (s.width - currentWidthTotal s - s.nr_of_white_keys) % s.nr_of_fgab ≤ 4) then
    .next (bumpKey s) (s.width - currentWidthTotal s) .keyAllRem
  else if s.nr_of_f + s.nr_of_g + s.nr_of_a + s.nr_of_b ≤ s.width - currentWidthTotal s ∧
      s.fgab_keys_enlarged = false then
    .next (applyFgab s) (s.width - currentWidthTotal s) .fgab
  else if s.nr_of_c + s.nr_of_d + s.nr_of_e ≤ s.width - currentWidthTotal s ∧
      s.cde_keys_enlarged = false then
    .next (applyCde s) (s.width - currentWidthTotal s) .cde
  else if s.nr_of_bc_gaps ≤ s.width - currentWidthTotal s ∧
      s.bc_gaps_enlarged = false then
    .next (applyBc s) (s.width - currentWidthTotal s) .bc
  else if s.nr_of_ef_gaps ≤ s.width - currentWidthTotal s ∧
      s.ef_gaps_enlarged = false then
    .next (applyEf s) (s.width - currentWidthTotal s) .ef
  else if s.nr_of_d ≤ s.width - currentWidthTotal s ∧ s.d_key_enlarged = false ∧
      s.alternating_d_key_enlarged = false then
    .next (applyD s) (s.width - currentWidthTotal s) .dkey
  else if s.width - currentWidthTotal s ≤ 4 ∧ s.outter_gaps_enlarged = false then
    .next (applyOuterGaps s (s.width - currentWidthTotal s))
      (s.width - currentWidthTotal s) .outerGap
  else if s.width - currentWidthTotal s = 2 ∧ s.end_keys_enlarged = false then
    match applyEndKeys s with
    | some s' => .next s' (s.width - currentWidthTotal s) .endKeys
    | none => .panicked s
  else if s.nr_of_d / 2 ≤ s.width - currentWidthTotal s ∧ s.d_key_enlarged = false ∧
      s.alternating_d_key_enlarged = false then
    .next (applyAltD s (s.width - currentWidthTotal s))
      (s.width - currentWidthTotal s) .altD
  else
    .next s (s.width - currentWidthTotal s) .noop

/-- Outcome of running `find_solution` with bounded fuel, together with the
trace of fired tiers. -/
inductive SolveOut where
  | ok (s : BaseState) (tr : List Tier)
  | stalled (s : BaseState) (tr : List Tier)
  | overwide (s : BaseState) (tr : List Tier)
  | panicked (s : BaseState) (tr : List Tier)
  | fuelOut (tr : List Tier)
deriving DecidableEq, Repr

/-- Prepend a tier to the trace of an outcome. -/
def SolveOut.cons (t : Tier) : SolveOut → SolveOut
  | .ok s tr => .ok s (t :: tr)
  | .stalled s tr => .stalled s (t :: tr)
  | .overwide s tr => .overwide s (t :: tr)
  | .panicked s tr => .panicked s (t :: tr)
  | .fuelOut tr => .fuelOut (t :: tr)

/-- `Base::find_solution`, fuel-bounded.  The source initialises `last_delta`
to `0`; after a pass the current delta becomes the next `last_delta`
(line 224). -/
def solveLoop : Nat → Nat → BaseState → SolveOut
  | 0, _, _ => .fuelOut []
  | fuel + 1, last, s =>
      match stepB last s with
      | .done s' => .ok s' []
      | .stalled s' => .stalled s' []
      | .overwide s' => .overwide s' []
      | .panicked s' => .panicked s' []
      | .next s' d t => (solveLoop fuel d s').cons t

/-- The perfect flag computed by `Base::result` (lines 464-465). -/
def resultPerfect (s : BaseState) : Bool :=
  !s.d_key_enlarged && !s.alternating_d_key_enlarged && !s.end_keys_enlarged &&
    !s.cde_keys_enlarged && !s.fgab_keys_enlarged

/-- The element mapping of `Base::result` (lines 449-463). -/
def resultElement (s : BaseState) (e : Element) : ResultElement :=
  match e with
  | .IdenticalWhite key => .Key s.identical_key key
  | .IdenticalGap => .Gap s.identical_gap
  | .GapBC => .Gap s.gap_bc
  | .GapEF => .Gap s.gap_ef
  | .KeyD key => .Key s.width_d key
  | .KeyCDE key => .Key s.width_cde key
  | .KeyFGAB key => .Key s.width_fgab key
  | .OutterGap => .Gap s.outter_gaps
  | .EnlargedOutterLeftKey key => .Key s.outter_left_key key
  | .EnlargedOutterRightKey key => .Key s.outter_right_key key

/-- `Base::result`: the perfect flag and the result element list. -/
def result (s : BaseState) : Bool × List ResultElement :=
  (resultPerfect s, s.elements.map (resultElement s))

/-- Width carried by one result element. -/
def resultWidth (e : ResultElement) : Nat :=
  match e with
  | .Key w _ => w
  | .Gap w => w

/-- Sum of the widths of the produced `WidthUnit` sequence. -/
def resultWidthSum (s : BaseState) : Nat :=
  ((result s).2.map resultWidth).sum

/-- The two `assert!`s after the seeding step of `Base::calculate`
(lines 115-116 of `src/base.rs`): `min_width <= width` and
`max_width >= width`. -/
def basePreAssertsOk (s : BaseState) : Bool :=
  decide (s.nr_of_white_keys * s.kw_width_min +
      (s.nr_of_white_keys + 1) * s.key_gap_min ≤ s.width) &&
  decide (s.width ≤ s.nr_of_white_keys * (s.kw_width_min + 1) +
      (s.nr_of_white_keys + 1) * s.key_gap_min)

/-! ## The `Top` sub-width solver (`src/top.rs`)

`Top::calculate(kb, base)` reads `base` only through the accessors
`get_black_key_min_width`, `get_cde_pars`, `get_fgab_pars`, `get_cde_gap` and
`get_fgab_gap`, which are absent from `src/base.rs`; they are modelled from
the spec below. -/

/-- Modelled from the spec: `Base::get_black_key_min_width` is missing from
`src/base.rs`.  §4.1 derives per-pixel ideal widths by scaling the
micrometer constants to the requested pixel width and flooring; the black-key
"minimal estimate" (`keyMinEstimate` of §4.2) is the same scaling applied to
`black_key_width_10um`. -/
def getBlackKeyMinWidth (kb : KeyboardBuilder) (s : BaseState) : Nat :=
  kb.black_key_width_10um * kb.width / keyboardWidth10um kb s.nr_of_white_keys

/-- Class-level width of a C or E key in the final solution. -/
def cdeClassWidth (s : BaseState) : Nat :=
  if s.cde_keys_enlarged then s.width_cde else s.identical_key

/-- Modelled from the spec: `Base::get_cde_pars` is missing from
`src/base.rs`.  §4.2 feeds the sub-width solver "the aggregate width assigned
by WidthSolver to one full C-D-E span"; the five entries are the class-level
widths of C, the C-D gap, D, the D-E gap and E (interior C-D and D-E gaps are
never specialised by any tier, so they are `identical_gap`; per-instance
enlargements are handled by the `corr` term of `get_top_for`). -/
def getCdePars (s : BaseState) : List Nat :=
  [cdeClassWidth s, s.identical_gap,
   (if s.d_key_enlarged then s.width_d else cdeClassWidth s), s.identical_gap,
   cdeClassWidth s]

/-- Class-level width of an F, G, A or B key in the final solution. -/
def fgabClassWidth (s : BaseState) : Nat :=
  if s.fgab_keys_enlarged then s.width_fgab else s.identical_key

/-- Modelled from the spec: `Base::get_fgab_pars` is missing from
`src/base.rs`.  The seven entries are the class-level widths of F, G, A, B
and the three interior gaps of one F-G-A-B span. -/
def getFgabPars (s : BaseState) : List Nat :=
  [fgabClassWidth s, s.identical_gap, fgabClassWidth s, s.identical_gap,
   fgabClassWidth s, s.identical_gap, fgabClassWidth s]

/-- Modelled from the spec: `Base::get_cde_gap` is missing from
`src/base.rs`; §4.2 calls it "the per-group gap width in effect", the uniform
inter-key gap. -/
def getCdeGap (s : BaseState) : Nat :=
  s.identical_gap

/-- Modelled from the spec: `Base::get_fgab_gap` is missing from
`src/base.rs`. -/
def getFgabGap (s : BaseState) : Nat :=
  s.identical_gap

/-- `TopResultElement` in `src/top.rs`. -/
inductive TopResultElement where
  | WhiteGapBlack (w g blk : Nat)
  | BlindWhiteGapBlack (blind w g blk : Nat)
  | BlindWhite (g w : Nat)
deriving DecidableEq, Repr

/-- The `Top` struct of `src/top.rs`. -/
structure Top where
  kb_width_min : Nat
  cde_pars : List Nat
  fgab_pars : List Nat
  cde_gap : Nat
  fgab_gap : Nat
  cde_width : Nat
  fgab_width : Nat
  cde_key_width : Nat
  cde_black_key_width : Nat
  d_left_blind_width : Nat
  e_left_blind_width : Nat
  black_fs_as_width : Nat
  black_gs_width : Nat
  ga_white_width : Nat
  fb_white_width : Nat
  g_left_blind_width : Nat
  a_left_blind_width : Nat
  b_left_blind_width : Nat
deriving DecidableEq, Repr

/-- The CDE black-key width selection of `Top::calculate` (lines 59-64 of
`src/top.rs`): the remainder `match` with its unreachable fallback arm is the
final `else` (a remainder mod 3 is always `0`, `1` or `2`). -/
def cdeBlackOf (cde_width kb_width_min cde_gap : Nat) : Nat :=
  if (cde_width - 2 * kb_width_min - 4 * cde_gap) % 3 = 0 then kb_width_min
  else if (cde_width - 2 * kb_width_min - 4 * cde_gap) % 3 = 1 then kb_width_min + 2
  else kb_width_min + 1

/-- The G-sharp width selection of `Top::calculate` (lines 74-79): the
four-case parity `match`. -/
def blackGsOf (fgab_width black : Nat) : Nat :=
  match decide (fgab_width % 2 = 0), decide (black % 2 = 0) with
  | true, true => black
  | true, false => black + 1
  | false, true => black + 1
  | false, false => black

/-- The residual-adjustment table for the G/A and F/B pair widths
(lines 90-100).  The source `match` arms cover remainders `0..=3`; the
fallback arm (source: defensive abort) is unreachable because the remainder
of the two floored proportional splits is at most 1, and is mapped to the
identity here. -/
def gaFbAdjust (rem : Nat) (gaw fbw : Nat) : Nat × Nat :=
  match rem, decide (fbw % 2 = 0) with
  | 0, true => (gaw, fbw)
  | 1, true => (gaw + 1, fbw)
  | 2, true => (gaw + 2, fbw)
  | 3, true => (gaw + 1, fbw + 2)
  | 0, false => (gaw + 1, fbw - 1)
  | 1, false => (gaw, fbw + 1)
  | 2, false => (gaw + 1, fbw + 1)
  | 3, false => (gaw + 2, fbw + 1)
  | _, _ => (gaw, fbw)

/-- `Top::calculate` (lines 38-115 of `src/top.rs`).  The source
`assert!(fgab_white_width % 2 == 0)` is not enforced here; its condition is
exposed as `topFgabEvenOk` below. -/
def Top.calculate (kb : KeyboardBuilder) (s : BaseState) : Top :=
  let kb_width_min := getBlackKeyMinWidth kb s
  let cde_pars := getCdePars s
  let cde_width := cde_pars.sum
  let fgab_pars := getFgabPars s
  let fgab_width := fgab_pars.sum
  let cde_gap := if kb.need_black_gap then getCdeGap s else 0
  let fgab_gap := if kb.need_black_gap then getFgabGap s else 0
  let cde_black_key_width := cdeBlackOf cde_width kb_width_min cde_gap
  let cde_key_width := (cde_width - 2 * cde_black_key_width - 4 * cde_gap) / 3
  let black_fs_as_width := cde_black_key_width
  let black_gs_width := blackGsOf fgab_width cde_black_key_width
  let fgab_white_width :=
    fgab_width - 2 * black_fs_as_width - black_gs_width - 6 * fgab_gap
  let ga0 := fgab_white_width * kb.white_key_small_width_ga_10um /
    (kb.white_key_small_width_ga_10um + kb.white_key_small_width_fb_10um)
  let fb0 := fgab_white_width * kb.white_key_small_width_fb_10um /
    (kb.white_key_small_width_ga_10um + kb.white_key_small_width_fb_10um)
  let gafb := gaFbAdjust (fgab_white_width - (ga0 + fb0)) ga0 fb0
  let ga_white_width := gafb.1
  let fb_white_width := gafb.2
  { kb_width_min := kb_width_min
    cde_pars := cde_pars
    fgab_pars := fgab_pars
    cde_gap := cde_gap
    fgab_gap := fgab_gap
    cde_width := cde_width
    fgab_width := fgab_width
    cde_key_width := cde_key_width
    cde_black_key_width := cde_black_key_width
    d_left_blind_width :=
      cde_key_width + 2 * cde_gap + cde_black_key_width - (cde_pars.take 2).sum
    e_left_blind_width :=
      2 * cde_key_width + 4 * cde_gap + 2 * cde_black_key_width - (cde_pars.take 4).sum
    black_fs_as_width := black_fs_as_width
    black_gs_width := black_gs_width
    ga_white_width := ga_white_width
    fb_white_width := fb_white_width
    g_left_blind_width :=
      fb_white_width / 2 + 2 * fgab_gap + black_fs_as_width - (fgab_pars.take 2).sum
    a_left_blind_width :=
      fb_white_width / 2 + 4 * fgab_gap + black_fs_as_width + ga_white_width / 2 +
        black_gs_width - (fgab_pars.take 4).sum
    b_left_blind_width :=
      fb_white_width / 2 + 6 * fgab_gap + 2 * black_fs_as_width + ga_white_width +
        black_gs_width - (fgab_pars.take 6).sum }

/-- The condition of the `assert!` in line 82 of `src/top.rs`: the remaining
F,G,A,B white budget must be even. -/
def topFgabEvenOk (t : Top) : Bool :=
  decide ((t.fgab_width - 2 * t.black_fs_as_width - t.black_gs_width -
    6 * t.fgab_gap) % 2 = 0)

/-- `Top::is_perfect` (lines 116-118 of `src/top.rs`). -/
def Top.is_perfect (t : Top) : Bool :=
  t.black_fs_as_width == t.black_gs_width

/-- `Top::get_top_for` (lines 119-147 of `src/top.rs`).  `none` models the
two defensive abort arms (a non-white key class, or a `Gap` argument). -/
def Top.get_top_for (t : Top) (el : ResultElement) : Option TopResultElement :=
  match el with
  | .Key width key =>
      match key % 12 with
      | 0 => some (.WhiteGapBlack (t.cde_key_width + (width - t.cde_pars.getD 0 0))
          t.cde_gap t.cde_black_key_width)
      | 2 => some (.BlindWhiteGapBlack t.d_left_blind_width
          (t.cde_key_width + (width - t.cde_pars.getD 2 0)) t.cde_gap
          t.cde_black_key_width)
      | 4 => some (.BlindWhite t.e_left_blind_width
          (t.cde_key_width + (width - t.cde_pars.getD 4 0)))
      | 5 => some (.WhiteGapBlack (t.fb_white_width / 2 + (width - t.fgab_pars.getD 0 0))
          t.fgab_gap t.black_fs_as_width)
      | 7 => some (.BlindWhiteGapBlack t.g_left_blind_width
          (t.ga_white_width / 2 + (width - t.fgab_pars.getD 2 0)) t.cde_gap
          t.black_gs_width)
      | 9 => some (.BlindWhiteGapBlack t.a_left_blind_width
          (t.ga_white_width / 2 + (width - t.fgab_pars.getD 4 0)) t.cde_gap
          t.black_fs_as_width)
      | 11 => some (.BlindWhite t.b_left_blind_width
          (t.fb_white_width / 2 + (width - t.fgab_pars.getD 6 0)))
      | _ => none
  | .Gap _ => none

/-! ## The layout assembler (`KeyboardBuilder::build2d` in `src/lib.rs`) -/

/-- `Rectangle` in `src/lib.rs`. -/
structure Rectangle where
  x : Nat
  y : Nat
  width : Nat
  height : Nat
deriving DecidableEq, Repr

/-- `Element` in `src/lib.rs` (named `Element2d` here to keep it apart from
the solver's internal `Element`). -/
inductive Element2d where
  | WhiteKey (wide small : Rectangle) (blind : Option Rectangle)
  | BlackKey (r : Rectangle)
deriving DecidableEq, Repr

/-- `Keyboard2d` in `src/lib.rs`. -/
structure Keyboard2d where
  left_white_key : Nat
  right_white_key : Nat
  width : Nat
  height : Nat
  perfect : Bool
  elements : List Element2d
deriving DecidableEq, Repr

/-- `Keyboard2d::is_perfect`. -/
def Keyboard2d.is_perfect (k : Keyboard2d) : Bool :=
  k.perfect

/-- The geometric context of the element loop in `build2d`: the rounded key
gap, the white/black gap, the black-key height and the wide-part height. -/
structure AsmCtx where
  top : Top
  key_gap : Nat
  black_gap : Nat
  black_key_height : Nat
  white_key_wide_height : Nat
  n : Nat
deriving Repr

/-- The `WhiteKey` element pushed for one key unit (lines 294-379 of
`src/lib.rs`), given the loop index `i` and the running x cursor. -/
def whiteElemFor (c : AsmCtx) (i wx width : Nat) (tr : TopResultElement) : Element2d :=
  let wide : Rectangle :=
    ⟨wx, c.black_gap + c.black_key_height + c.key_gap, width, c.white_key_wide_height⟩
  match tr with
  | .WhiteGapBlack w _ _ =>
      .WhiteKey wide ⟨wx, c.key_gap, w, c.black_gap + c.black_key_height⟩
        (if i = c.n - 1 then
          some ⟨wx + w, c.key_gap, width - w, c.black_gap + c.black_key_height⟩
        else none)
  | .BlindWhiteGapBlack blind w g _ =>
      .WhiteKey wide ⟨wx + blind, c.key_gap, w, c.black_gap + c.black_key_height⟩
        (if i = 1 then some ⟨wx, c.key_gap, blind, c.black_gap + c.black_key_height⟩
         else if i = c.n - 1 then
          some ⟨wx + w + g, c.key_gap, width - w - g, c.black_gap + c.black_key_height⟩
         else none)
  | .BlindWhite g w =>
      .WhiteKey wide ⟨wx + g, c.key_gap, w, c.black_gap + c.black_key_height⟩
        (if i = 1 then some ⟨wx, c.key_gap, g, c.black_gap + c.black_key_height⟩
         else none)

/-- The `BlackKey` elements pushed for one key unit (lines 380-402): one for
a breakdown that carries a black key, provided the unit is not the last key,
none otherwise. -/
def blackElemsFor (c : AsmCtx) (i wx : Nat) (tr : TopResultElement) : List Element2d :=
  if i < c.n - 1 then
    match tr with
    | .WhiteGapBlack w g blk =>
        [.BlackKey ⟨wx + w + g, c.key_gap, blk, c.black_key_height⟩]
    | .BlindWhiteGapBlack blind w g blk =>
        [.BlackKey ⟨wx + blind + w + g, c.key_gap, blk, c.black_key_height⟩]
    | .BlindWhite _ _ => []
  else []

/-- The element loop of `build2d` (lines 290-409): walks the result elements
with the enumeration index and the x cursor; `none` propagates the defensive
aborts of `get_top_for`. -/
def assembleGo (c : AsmCtx) : Nat → Nat → List ResultElement → Option (List Element2d)
  | _, _, [] => some []
  | i, wx, .Gap gap :: rest => assembleGo c (i + 1) (wx + gap) rest
  | i, wx, .Key width key :: rest =>
      match c.top.get_top_for (.Key width key) with
      | none => none
      | some tr =>
          match assembleGo c (i + 1) (wx + width) rest with
          | none => none
          | some tail =>
              some (whiteElemFor c i wx width tr :: (blackElemsFor c i wx tr ++ tail))

/-- The rounded inter-key gap of `build2d` (line 268 of `src/lib.rs`). -/
def keyGapPx (kb : KeyboardBuilder) (n : Nat) : Nat :=
  (kb.width * keyGap10um kb + keyboardWidth10um kb n / 2) / keyboardWidth10um kb n

/-- `black_gap` of `build2d` (line 270). -/
def blackGapPx (kb : KeyboardBuilder) (n : Nat) : Nat :=
  if kb.need_black_gap then keyGapPx kb n else 0

/-- `white_key_wide_width` of `build2d` (lines 272-274). -/
def whiteKeyWideWidthPx (kb : KeyboardBuilder) (n : Nat) : Nat :=
  (kb.width - keyGapPx kb n * (n + 1)) / n

/-- `black_key_height` of `build2d` (lines 276-280). -/
def blackKeyHeightPx (kb : KeyboardBuilder) (n : Nat) : Nat :=
  (whiteKeyWideWidthPx kb n * kb.black_key_height_10um * 1024 +
    kb.white_key_wide_width_10um / 2) / kb.white_key_wide_width_10um /
    kb.dot_ratio_1024

/-- `white_key_wide_height` of `build2d` (lines 281-284). -/
def whiteKeyWideHeightPx (kb : KeyboardBuilder) (n : Nat) : Nat :=
  (whiteKeyWideWidthPx kb n * kb.white_key_wide_height_10um +
    kb.white_key_wide_width_10um / 2) / kb.white_key_wide_width_10um

/-- `height` of `build2d` (line 286). -/
def heightPx (kb : KeyboardBuilder) (n : Nat) : Nat :=
  2 * keyGapPx kb n + blackGapPx kb n + blackKeyHeightPx kb n +
    whiteKeyWideHeightPx kb n

/-- The assembly context of the element loop of `build2d` for the solved
base state. -/
def asmCtxOf (kb : KeyboardBuilder) (s : BaseState) : AsmCtx :=
  { top := Top.calculate kb s
    key_gap := keyGapPx kb s.nr_of_white_keys
    black_gap := blackGapPx kb s.nr_of_white_keys
    black_key_height := blackKeyHeightPx kb s.nr_of_white_keys
    white_key_wide_height := whiteKeyWideHeightPx kb s.nr_of_white_keys
    n := (result s).2.length - 1 }

/-- The geometric scalar computations of `build2d` (lines 255-287 of
`src/lib.rs`, factored into the `*Px` definitions above) followed by the
element loop, given the solved base state. -/
def build2dFrom (kb : KeyboardBuilder) (s : BaseState) : Option Keyboard2d :=
  match assembleGo (asmCtxOf kb s) 0 0 (result s).2 with
  | none => none
  | some elements =>
      some { left_white_key := kb.left_white_key
             right_white_key := kb.right_white_key
             width := kb.width
             height := heightPx kb s.nr_of_white_keys
             perfect := (result s).1 && (Top.calculate kb s).is_perfect
             elements := elements }

/-- The full `build2d` pipeline with fuel-bounded solving: `Base::calculate`
(seeding plus `find_solution`), then `Top::calculate`, then assembly.
`none` covers solver aborts and fuel exhaustion. -/
def build2d (kb : KeyboardBuilder) (fuel : Nat) : Option Keyboard2d :=
  match solveLoop fuel 0 (basePre kb) with
  | .ok s _ => build2dFrom kb s
  | _ => none

/-- A builder with the given key range and width (what
`set_most_left_right_white_keys` followed by `set_width` produce on success). -/
def kbOf (l r w : Nat) : KeyboardBuilder :=
  { KeyboardBuilder.new with left_white_key := l, right_white_key := r, width := w }

/-! ### Outcome projections used by the theorem statements -/

/-- Whether the solver run ended in the endless-loop abort of
`find_solution` (the `SolverInvariantError` stall). -/
def isStalled (o : SolveOut) : Bool :=
  match o with
  | .stalled _ _ => true
  | _ => false

/-- Whether the solver run ended in the defensive abort of
`Base::current_width` (accumulated width above the target). -/
def isOverwide (o : SolveOut) : Bool :=
  match o with
  | .overwide _ _ => true
  | _ => false

/-- The final state of a successful run, with a fallback for the other
outcomes. -/
def SolveOut.stateD (o : SolveOut) (d : BaseState) : BaseState :=
  match o with
  | .ok s _ => s
  | _ => d

/-- The tier trace of a successful run, with a fallback. -/
def SolveOut.traceD (o : SolveOut) (d : List Tier) : List Tier :=
  match o with
  | .ok _ tr => tr
  | _ => d

/-- The perfect flag and tier trace of a successful run. -/
def SolveOut.perfectTrace (o : SolveOut) : Option (Bool × List Tier) :=
  match o with
  | .ok s tr => some (resultPerfect s, tr)
  | _ => none

/-- The element list of a successful `build2d`, `[]` otherwise. -/
def pipelineElems (l r w fuel : Nat) : List Element2d :=
  match build2d (kbOf l r w) fuel with
  | some k => k.elements
  | none => []

/-- An empty keyboard, used as fallback when projecting `build2d` results. -/
def emptyKeyboard : Keyboard2d :=
  { left_white_key := 0, right_white_key := 0, width := 0, height := 0
    perfect := false, elements := [] }

/-- Whether a 2d element is a white key. -/
def isWhiteK (e : Element2d) : Bool :=
  match e with
  | .WhiteKey _ _ _ => true
  | .BlackKey _ => false

/-- Whether a 2d element is a black key. -/
def isBlackK (e : Element2d) : Bool :=
  match e with
  | .BlackKey _ => true
  | .WhiteKey _ _ _ => false

/-- The adjacency content of claim C4 on an assembled element list: every
white key that still has a later white key (i.e. is not the last key unit)
is immediately followed by a black key. -/
def claimC4AdjacencyHolds (out : List Element2d) : Bool :=
  (List.range out.length).all fun i =>
    !(isWhiteK (out.getD i (.BlackKey ⟨0, 0, 0, 0⟩)) &&
        (out.drop (i + 1)).any isWhiteK) ||
      isBlackK (out.getD (i + 1) (.BlackKey ⟨0, 0, 0, 0⟩))

/-- The blind offset `get_top_for` reports before the visible sub-width of a
white key class (`0` for classes without one). -/
def classBlind (t : Top) (key : Nat) : Nat :=
  match key % 12 with
  | 2 => t.d_left_blind_width
  | 7 => t.g_left_blind_width
  | 9 => t.a_left_blind_width
  | _ => 0

/-- The visible sub-width `get_top_for` reports for a white key class with an
adjacent black key, including the per-instance `corr` term. -/
def classVis (t : Top) (width key : Nat) : Nat :=
  match key % 12 with
  | 0 => t.cde_key_width + (width - t.cde_pars.getD 0 0)
  | 2 => t.cde_key_width + (width - t.cde_pars.getD 2 0)
  | 5 => t.fb_white_width / 2 + (width - t.fgab_pars.getD 0 0)
  | 7 => t.ga_white_width / 2 + (width - t.fgab_pars.getD 2 0)
  | 9 => t.ga_white_width / 2 + (width - t.fgab_pars.getD 4 0)
  | _ => 0

/-- The white-to-black gap `get_top_for` reports for a class with an adjacent
black key (G and A use `cde_gap` in the source). -/
def classGapW (t : Top) (key : Nat) : Nat :=
  match key % 12 with
  | 0 => t.cde_gap
  | 2 => t.cde_gap
  | 5 => t.fgab_gap
  | 7 => t.cde_gap
  | 9 => t.cde_gap
  | _ => 0

/-- The black-key width `get_top_for` reports for a class with an adjacent
black key. -/
def classBlackW (t : Top) (key : Nat) : Nat :=
  match key % 12 with
  | 0 => t.cde_black_key_width
  | 2 => t.cde_black_key_width
  | 5 => t.black_fs_as_width
  | 7 => t.black_gs_width
  | 9 => t.black_fs_as_width
  | _ => 0

/-- A concrete assembly context used by witnesses: the solved two-octave
C3..B4 keyboard at width 1000. -/
def witnessCtx : AsmCtx :=
  asmCtxOf (kbOf 48 71 1000)
    ((solveLoop 100 0 (basePre (kbOf 48 71 1000))).stateD (basePre (kbOf 48 71 1000)))


/-! ### Structural predicates for the solver-loop invariant -/

/-- Whether an element occupies a key slot of the element list. -/
def isKeyE (e : Element) : Bool :=
  match e with
  | .IdenticalWhite _ => true
  | .KeyD _ => true
  | .KeyCDE _ => true
  | .KeyFGAB _ => true
  | .EnlargedOutterLeftKey _ => true
  | .EnlargedOutterRightKey _ => true
  | _ => false

/-- Whether an element occupies a gap slot of the element list. -/
def isGapE (e : Element) : Bool :=
  match e with
  | .IdenticalGap => true
  | .GapBC => true
  | .GapEF => true
  | .OutterGap => true
  | _ => false

/-- The key number carried by a key element. -/
def keyNum (e : Element) : Option Nat :=
  match e with
  | .IdenticalWhite k => some k
  | .KeyD k => some k
  | .KeyCDE k => some k
  | .KeyFGAB k => some k
  | .EnlargedOutterLeftKey k => some k
  | .EnlargedOutterRightKey k => some k
  | _ => none

/-- Gaps that can sit directly before a C-class key. -/
def okBeforeC (g : Element) : Bool :=
  match g with
  | .IdenticalGap => true
  | .GapBC => true
  | _ => false

/-- Gaps that can sit directly before an F-class key. -/
def okBeforeF (g : Element) : Bool :=
  match g with
  | .IdenticalGap => true
  | .GapEF => true
  | _ => false

/-- Compatibility of a gap with the key right after it: the B-C gap tier
rewrites only gaps before C-class keys and the E-F gap tier only gaps before
F-class keys, so those gap slots stay within the corresponding constructor
sets. -/
def compatGK (g k : Element) : Bool :=
  match keyNum k with
  | some v =>
      (if v % 12 = 0 then okBeforeC g else true) &&
      (if v % 12 = 5 then okBeforeF g else true)
  | none => true

/-- Gaps that can open or close the element list. -/
def pLastGap (g : Element) : Bool :=
  match g with
  | .IdenticalGap => true
  | .OutterGap => true
  | _ => false

/-- Shape of the element list after the leading gap and the first key:
strictly alternating `(Gap Key)` chunks with compatible pairs, closed by a
final uniform or outer gap. -/
def restOk : List Element → Bool
  | [g] => pLastGap g
  | g :: k :: t => isGapE g && isKeyE k && compatGK g k && restOk t
  | [] => false

/-- Unconverted uniform white key. -/
def pIdW (e : Element) : Bool :=
  match e with
  | .IdenticalWhite _ => true
  | _ => false

/-- Unconverted uniform gap. -/
def pIdGap (e : Element) : Bool :=
  match e with
  | .IdenticalGap => true
  | _ => false

/-- Uniform white key of class F, G, A or B (target of the F,G,A,B tier). -/
def pIdWFgab (e : Element) : Bool :=
  match e with
  | .IdenticalWhite k => decide (k % 12 = 5 ∨ k % 12 = 7 ∨ k % 12 = 9 ∨ k % 12 = 11)
  | _ => false

/-- Uniform white key of class C, D or E (target of the C,D,E tier). -/
def pIdWCde (e : Element) : Bool :=
  match e with
  | .IdenticalWhite k => decide (k % 12 = 0 ∨ k % 12 = 2 ∨ k % 12 = 4)
  | _ => false

/-- Uniform white C-class key (target of the B-C gap tier). -/
def pIdWC (e : Element) : Bool :=
  match e with
  | .IdenticalWhite k => decide (k % 12 = 0)
  | _ => false

/-- F-class key in uniform or F,G,A,B form (target of the E-F gap tier). -/
def pFkey (e : Element) : Bool :=
  match e with
  | .IdenticalWhite k => decide (k % 12 = 5)
  | .KeyFGAB k => decide (k % 12 = 5)
  | _ => false

/-- D-class key still subject to the D tiers. -/
def pDun (e : Element) : Bool :=
  (dMatch e).isSome

/-- The converted constructors, one predicate each. -/
def pKeyFgab (e : Element) : Bool :=
  match e with
  | .KeyFGAB _ => true
  | _ => false

/-- Converted C,D,E key. -/
def pKeyCde (e : Element) : Bool :=
  match e with
  | .KeyCDE _ => true
  | _ => false

/-- Converted D key. -/
def pKeyD (e : Element) : Bool :=
  match e with
  | .KeyD _ => true
  | _ => false

/-- Converted B-C gap. -/
def pGapBC (e : Element) : Bool :=
  match e with
  | .GapBC => true
  | _ => false

/-- Converted E-F gap. -/
def pGapEF (e : Element) : Bool :=
  match e with
  | .GapEF => true
  | _ => false

/-- Converted outer gap. -/
def pOutG (e : Element) : Bool :=
  match e with
  | .OutterGap => true
  | _ => false

/-- Converted end key (left or right). -/
def pEnlK (e : Element) : Bool :=
  match e with
  | .EnlargedOutterLeftKey _ => true
  | .EnlargedOutterRightKey _ => true
  | _ => false

/-- Number of key conversions performed by the alternating-D pass. -/
def altDCnt (enlarge : Bool) : List Element → Nat
  | _ :: k :: t =>
      match dMatch k with
      | some _ => (if !enlarge then 1 else 0) + altDCnt (!enlarge) t
      | none => altDCnt enlarge t
  | _ => 0

/-- Loop invariant of `find_solution`: the accumulated width stays within the
target, the element list keeps its alternating gap/key shape with compatible
gap-key pairs, the counts of still-convertible elements stay below the
corresponding counters, and a tier that has not fired yet has no element of
the constructor it introduces. -/
structure SolverInv (s : BaseState) : Prop where
  cw_le : currentWidthTotal s ≤ s.width
  npos : 1 ≤ s.nr_of_white_keys
  elen : s.elements.length = 2 * s.nr_of_white_keys + 1
  shape : ∃ g0 k1 rest, s.elements = g0 :: k1 :: rest ∧
      pLastGap g0 = true ∧ isKeyE k1 = true ∧ restOk rest = true
  fgabCnt : s.elements.countP pIdWFgab ≤
      s.nr_of_f + s.nr_of_g + s.nr_of_a + s.nr_of_b
  cdeCnt : s.elements.countP pIdWCde ≤ s.nr_of_c + s.nr_of_d + s.nr_of_e
  dCnt : (s.elements.drop 2).countP pDun ≤ s.nr_of_d
  bcCnt : (s.elements.drop 2).countP pIdWC ≤ s.nr_of_bc_gaps
  efCnt : (s.elements.drop 2).countP pFkey ≤ s.nr_of_ef_gaps
  fgabAbs : s.fgab_keys_enlarged = false → s.elements.countP pKeyFgab = 0
  cdeAbs : s.cde_keys_enlarged = false → s.elements.countP pKeyCde = 0
  cdeDone : s.cde_keys_enlarged = true → s.elements.countP pIdWCde = 0
  bcAbs : s.bc_gaps_enlarged = false → s.elements.countP pGapBC = 0
  efAbs : s.ef_gaps_enlarged = false → s.elements.countP pGapEF = 0
  outAbs : s.outter_gaps_enlarged = false → s.elements.countP pOutG = 0
  endAbs : s.end_keys_enlarged = false → s.elements.countP pEnlK = 0
  dAbs : s.d_key_enlarged = false → s.alternating_d_key_enlarged = false →
      s.elements.countP pKeyD = 0

/-! ## Lemmas and theorems -/

/-- Inversion for a `done` step: only the zero-delta exit returns `done`,
with the state unchanged. -/
theorem stepB_done {last : Nat} {s s0 : BaseState}
    (h : stepB last s = .done s0) :
    s0 = s ∧ currentWidthTotal s = s.width := by
  unfold stepB at h
  by_cases h1 : s.width < currentWidthTotal s
  · rw [if_pos h1] at h
    exact StepRes.noConfusion h
  · rw [if_neg h1] at h
    by_cases h2 : s.width - currentWidthTotal s = 0
    · rw [if_pos h2] at h
      exact ⟨by cases h; rfl, by omega⟩
    · rw [if_neg h2] at h
      by_cases h3 : s.width - currentWidthTotal s = last
      · rw [if_pos h3] at h
        exact StepRes.noConfusion h
      · rw [if_neg h3] at h
        by_cases h4 : s.width - currentWidthTotal s = s.nr_of_white_keys + 1
        · rw [if_pos h4] at h
          exact StepRes.noConfusion h
        · rw [if_neg h4] at h
          by_cases h5 : s.width - currentWidthTotal s = s.nr_of_white_keys
          · rw [if_pos h5] at h
            exact StepRes.noConfusion h
          · rw [if_neg h5] at h
            by_cases h6 : s.nr_of_white_keys + 1 ≤ s.width - currentWidthTotal s ∧ ((s.width - currentWidthTotal s - s.nr_of_white_keys - 1) % s.nr_of_cde ≤ 4 ∨ (s.width - currentWidthTotal s - s.nr_of_white_keys - 1) % s.nr_of_fgab ≤ 4)
            · rw [if_pos h6] at h
              exact StepRes.noConfusion h
            · rw [if_neg h6] at h
              by_cases h7 : s.nr_of_white_keys ≤ s.width - currentWidthTotal s ∧ ((s.width - currentWidthTotal s - s.nr_of_white_keys) % s.nr_of_cde ≤ 4 ∨ (s.width - currentWidthTotal s - s.nr_of_white_keys) % s.nr_of_fgab ≤ 4)
              · rw [if_pos h7] at h
                exact StepRes.noConfusion h
              · rw [if_neg h7] at h
                by_cases h8 : s.nr_of_f + s.nr_of_g + s.nr_of_a + s.nr_of_b ≤ s.width - currentWidthTotal s ∧ s.fgab_keys_enlarged = false
                · rw [if_pos h8] at h
                  exact StepRes.noConfusion h
                · rw [if_neg h8] at h
                  by_cases h9 : s.nr_of_c + s.nr_of_d + s.nr_of_e ≤ s.width - currentWidthTotal s ∧ s.cde_keys_enlarged = false
                  · rw [if_pos h9] at h
                    exact StepRes.noConfusion h
                  · rw [if_neg h9] at h
                    by_cases h10 : s.nr_of_bc_gaps ≤ s.width - currentWidthTotal s ∧ s.bc_gaps_enlarged = false
                    · rw [if_pos h10] at h
                      exact StepRes.noConfusion h
                    · rw [if_neg h10] at h
                      by_cases h11 : s.nr_of_ef_gaps ≤ s.width - currentWidthTotal s ∧ s.ef_gaps_enlarged = false
                      · rw [if_pos h11] at h
                        exact StepRes.noConfusion h
                      · rw [if_neg h11] at h
                        by_cases h12 : s.nr_of_d ≤ s.width - currentWidthTotal s ∧ s.d_key_enlarged = false ∧ s.alternating_d_key_enlarged = false
                        · rw [if_pos h12] at h
                          exact StepRes.noConfusion h
                        · rw [if_neg h12] at h
                          by_cases h13 : s.width - currentWidthTotal s ≤ 4 ∧ s.outter_gaps_enlarged = false
                          · rw [if_pos h13] at h
                            exact StepRes.noConfusion h
                          · rw [if_neg h13] at h
                            by_cases h14 : s.width - currentWidthTotal s = 2 ∧ s.end_keys_enlarged = false
                            · rw [if_pos h14] at h
                              rcases hm : applyEndKeys s with _ | s1 <;> rw [hm] at h <;> exact StepRes.noConfusion h
                            · rw [if_neg h14] at h
                              by_cases h15 : s.nr_of_d / 2 ≤ s.width - currentWidthTotal s ∧ s.d_key_enlarged = false ∧ s.alternating_d_key_enlarged = false
                              · rw [if_pos h15] at h
                                exact StepRes.noConfusion h
                              · rw [if_neg h15] at h
                                exact StepRes.noConfusion h

/-- Inversion for a `next` step: the delta is the current shortfall, and the
successor state is the corresponding tier application. -/
theorem stepB_next_cases {last : Nat} {s s' : BaseState} {d : Nat} {t : Tier}
    (h : stepB last s = .next s' d t) :
    currentWidthTotal s ≤ s.width ∧ d = s.width - currentWidthTotal s ∧ d ≠ 0 ∧
    ((t = .gapAll ∧ d = s.nr_of_white_keys + 1 ∧ s' = bumpGap s) ∨
     (t = .keyAll ∧ d = s.nr_of_white_keys ∧ s' = bumpKey s) ∨
     (t = .gapAllRem ∧ s.nr_of_white_keys + 1 ≤ d ∧ s' = bumpGap s) ∨
     (t = .keyAllRem ∧ s.nr_of_white_keys ≤ d ∧ s' = bumpKey s) ∨
     (t = .fgab ∧ s.nr_of_f + s.nr_of_g + s.nr_of_a + s.nr_of_b ≤ d ∧
        s.fgab_keys_enlarged = false ∧ s' = applyFgab s) ∨
     (t = .cde ∧ s.nr_of_c + s.nr_of_d + s.nr_of_e ≤ d ∧
        s.cde_keys_enlarged = false ∧ s' = applyCde s) ∨
     (t = .bc ∧ s.nr_of_bc_gaps ≤ d ∧ s.bc_gaps_enlarged = false ∧ s' = applyBc s) ∨
     (t = .ef ∧ s.nr_of_ef_gaps ≤ d ∧ s.ef_gaps_enlarged = false ∧ s' = applyEf s) ∨
     (t = .dkey ∧ s.nr_of_d ≤ d ∧ s.d_key_enlarged = false ∧
        s.alternating_d_key_enlarged = false ∧ s' = applyD s) ∨
     (t = .outerGap ∧ d ≤ 4 ∧ s.outter_gaps_enlarged = false ∧
        s' = applyOuterGaps s d) ∨
     (t = .endKeys ∧ d = 2 ∧ s.end_keys_enlarged = false ∧
        applyEndKeys s = some s') ∨
     (t = .altD ∧ s.nr_of_d / 2 ≤ d ∧ s.d_key_enlarged = false ∧
        s.alternating_d_key_enlarged = false ∧ s' = applyAltD s d) ∨
     (t = .noop ∧ s' = s)) := by
  unfold stepB at h
  by_cases h1 : s.width < currentWidthTotal s
  · rw [if_pos h1] at h
    exact StepRes.noConfusion h
  · rw [if_neg h1] at h
    by_cases h2 : s.width - currentWidthTotal s = 0
    · rw [if_pos h2] at h
      exact StepRes.noConfusion h
    · rw [if_neg h2] at h
      by_cases h3 : s.width - currentWidthTotal s = last
      · rw [if_pos h3] at h
        exact StepRes.noConfusion h
      · rw [if_neg h3] at h
        by_cases h4 : s.width - currentWidthTotal s = s.nr_of_white_keys + 1
        · rw [if_pos h4] at h
          cases h
          refine ⟨by omega, rfl, by omega, ?_⟩
          exact Or.inl ⟨rfl, h4, rfl⟩
        · rw [if_neg h4] at h
          by_cases h5 : s.width - currentWidthTotal s = s.nr_of_white_keys
          · rw [if_pos h5] at h
            cases h
            refine ⟨by omega, rfl, by omega, ?_⟩
            exact Or.inr (Or.inl ⟨rfl, h5, rfl⟩)
          · rw [if_neg h5] at h
            by_cases h6 : s.nr_of_white_keys + 1 ≤ s.width - currentWidthTotal s ∧ ((s.width - currentWidthTotal s - s.nr_of_white_keys - 1) % s.nr_of_cde ≤ 4 ∨ (s.width - currentWidthTotal s - s.nr_of_white_keys - 1) % s.nr_of_fgab ≤ 4)
            · rw [if_pos h6] at h
              cases h
              refine ⟨by omega, rfl, by omega, ?_⟩
              exact Or.inr (Or.inr (Or.inl ⟨rfl, h6.1, rfl⟩))
            · rw [if_neg h6] at h
              by_cases h7 : s.nr_of_white_keys ≤ s.width - currentWidthTotal s ∧ ((s.width - currentWidthTotal s - s.nr_of_white_keys) % s.nr_of_cde ≤ 4 ∨ (s.width - currentWidthTotal s - s.nr_of_white_keys) % s.nr_of_fgab ≤ 4)
              · rw [if_pos h7] at h
                cases h
                refine ⟨by omega, rfl, by omega, ?_⟩
                exact Or.inr (Or.inr (Or.inr (Or.inl ⟨rfl, h7.1, rfl⟩)))
              · rw [if_neg h7] at h
                by_cases h8 : s.nr_of_f + s.nr_of_g + s.nr_of_a + s.nr_of_b ≤ s.width - currentWidthTotal s ∧ s.fgab_keys_enlarged = false
                · rw [if_pos h8] at h
                  cases h
                  refine ⟨by omega, rfl, by omega, ?_⟩
                  exact Or.inr (Or.inr (Or.inr (Or.inr (Or.inl ⟨rfl, h8.1, h8.2, rfl⟩))))
                · rw [if_neg h8] at h
                  by_cases h9 : s.nr_of_c + s.nr_of_d + s.nr_of_e ≤ s.width - currentWidthTotal s ∧ s.cde_keys_enlarged = false
                  · rw [if_pos h9] at h
                    cases h
                    refine ⟨by omega, rfl, by omega, ?_⟩
                    exact Or.inr (Or.inr (Or.inr (Or.inr (Or.inr (Or.inl ⟨rfl, h9.1, h9.2, rfl⟩)))))
                  · rw [if_neg h9] at h
                    by_cases h10 : s.nr_of_bc_gaps ≤ s.width - currentWidthTotal s ∧ s.bc_gaps_enlarged = false
                    · rw [if_pos h10] at h
                      cases h
                      refine ⟨by omega, rfl, by omega, ?_⟩
                      exact Or.inr (Or.inr (Or.inr (Or.inr (Or.inr (Or.inr (Or.inl ⟨rfl, h10.1, h10.2, rfl⟩))))))
                    · rw [if_neg h10] at h
                      by_cases h11 : s.nr_of_ef_gaps ≤ s.width - currentWidthTotal s ∧ s.ef_gaps_enlarged = false
                      · rw [if_pos h11] at h
                        cases h
                        refine ⟨by omega, rfl, by omega, ?_⟩
                        exact Or.inr (Or.inr (Or.inr (Or.inr (Or.inr (Or.inr (Or.inr (Or.inl ⟨rfl, h11.1, h11.2, rfl⟩)))))))
                      · rw [if_neg h11] at h
                        by_cases h12 : s.nr_of_d ≤ s.width - currentWidthTotal s ∧ s.d_key_enlarged = false ∧ s.alternating_d_key_enlarged = false
                        · rw [if_pos h12] at h
                          cases h
                          refine ⟨by omega, rfl, by omega, ?_⟩
                          exact Or.inr (Or.inr (Or.inr (Or.inr (Or.inr (Or.inr (Or.inr (Or.inr (Or.inl ⟨rfl, h12.1, h12.2.1, h12.2.2, rfl⟩))))))))
                        · rw [if_neg h12] at h
                          by_cases h13 : s.width - currentWidthTotal s ≤ 4 ∧ s.outter_gaps_enlarged = false
                          · rw [if_pos h13] at h
                            cases h
                            refine ⟨by omega, rfl, by omega, ?_⟩
                            exact Or.inr (Or.inr (Or.inr (Or.inr (Or.inr (Or.inr (Or.inr (Or.inr (Or.inr (Or.inl ⟨rfl, h13.1, h13.2, rfl⟩)))))))))
                          · rw [if_neg h13] at h
                            by_cases h14 : s.width - currentWidthTotal s = 2 ∧ s.end_keys_enlarged = false
                            · rw [if_pos h14] at h
                              rcases hm : applyEndKeys s with _ | s1
                              · rw [hm] at h; exact StepRes.noConfusion h
                              · rw [hm] at h
                                cases h
                                refine ⟨by omega, rfl, by omega, ?_⟩
                                exact Or.inr (Or.inr (Or.inr (Or.inr (Or.inr (Or.inr (Or.inr (Or.inr (Or.inr (Or.inr (Or.inl ⟨rfl, h14.1, h14.2, rfl⟩))))))))))
                            · rw [if_neg h14] at h
                              by_cases h15 : s.nr_of_d / 2 ≤ s.width - currentWidthTotal s ∧ s.d_key_enlarged = false ∧ s.alternating_d_key_enlarged = false
                              · rw [if_pos h15] at h
                                cases h
                                refine ⟨by omega, rfl, by omega, ?_⟩
                                exact Or.inr (Or.inr (Or.inr (Or.inr (Or.inr (Or.inr (Or.inr (Or.inr (Or.inr (Or.inr (Or.inr (Or.inl ⟨rfl, h15.1, h15.2.1, h15.2.2, rfl⟩)))))))))))
                              · rw [if_neg h15] at h
                                cases h
                                refine ⟨by omega, rfl, by omega, ?_⟩
                                exact Or.inr (Or.inr (Or.inr (Or.inr (Or.inr (Or.inr (Or.inr (Or.inr (Or.inr (Or.inr (Or.inr (Or.inr (⟨rfl, rfl⟩))))))))))))

/-- Full inversion of the end-key tier: the success case is the double
`List.set` with the two conversions. -/
theorem applyEndKeys_inv {s s' : BaseState} (h : applyEndKeys s = some s') :
    ∃ e1 p1 e2 p2,
      s.elements.get? 1 = some e1 ∧ endLeftConv s e1 = some p1 ∧
      (s.elements.set 1 p1.1).get? (s.elements.length - 2) = some e2 ∧
      endRightConv { s with outter_left_key := p1.2 } e2 = some p2 ∧
      s' = { s with end_keys_enlarged := true
                    outter_left_key := p1.2
                    outter_right_key := p2.2
                    elements := (s.elements.set 1 p1.1).set
                      (s.elements.length - 2) p2.1 } := by
  unfold applyEndKeys at h
  split at h
  · exact Option.noConfusion h
  next e1 hg1 =>
    split at h
    · exact Option.noConfusion h
    next e1n wl hc1 =>
      split at h
      · exact Option.noConfusion h
      next e2 hg2 =>
        split at h
        · exact Option.noConfusion h
        next e2n wr hc2 =>
          cases h
          rw [List.length_set] at hg2
          exact ⟨e1, (e1n, wl), e2, (e2n, wr), hg1, hc1, hg2, hc2, by
            simp [List.length_set]⟩

/-- The width target is never modified by a solver step. -/
theorem stepB_next_width {last : Nat} {s s' : BaseState} {d : Nat} {t : Tier}
    (h : stepB last s = .next s' d t) : s'.width = s.width := by
  rcases (stepB_next_cases h).2.2.2 with
    ⟨_, _, rfl⟩ | ⟨_, _, rfl⟩ | ⟨_, _, rfl⟩ | ⟨_, _, rfl⟩ | ⟨_, _, _, rfl⟩ |
    ⟨_, _, _, rfl⟩ | ⟨_, _, _, rfl⟩ | ⟨_, _, _, rfl⟩ | ⟨_, _, _, _, rfl⟩ |
    ⟨_, _, _, rfl⟩ | ⟨_, _, _, hm⟩ | ⟨_, _, _, _, rfl⟩ | ⟨_, rfl⟩ <;>
    first
      | rfl
      | (obtain ⟨e1, p1, e2, p2, _, _, _, _, rfl⟩ := applyEndKeys_inv hm; rfl)

/-- A successful solver run ends with the accumulated width equal to the
target, and the target is the one of the starting state. -/
theorem solveLoop_ok_inv :
    ∀ (fuel last : Nat) (s s' : BaseState) (tr : List Tier),
      solveLoop fuel last s = .ok s' tr →
      currentWidthTotal s' = s'.width ∧ s'.width = s.width := by
  intro fuel
  induction fuel with
  | zero =>
    intro last s s' tr h
    exact SolveOut.noConfusion h
  | succ n ih =>
    intro last s s' tr h
    unfold solveLoop at h
    cases hst : stepB last s with
    | done s0 =>
      rw [hst] at h
      cases h
      obtain ⟨rfl, hw⟩ := stepB_done hst
      exact ⟨hw, rfl⟩
    | stalled s0 => rw [hst] at h; exact SolveOut.noConfusion h
    | overwide s0 => rw [hst] at h; exact SolveOut.noConfusion h
    | panicked s0 => rw [hst] at h; exact SolveOut.noConfusion h
    | next s1 d1 t1 =>
      rw [hst] at h
      simp only [] at h
      cases hr : solveLoop n d1 s1 with
      | ok s2 tr2 =>
        rw [hr] at h
        simp only [SolveOut.cons] at h
        cases h
        obtain ⟨h1, hw⟩ := ih d1 s1 s' tr2 hr
        exact ⟨h1, hw.trans (stepB_next_width hst)⟩
      | stalled s2 tr2 => rw [hr] at h; simp [SolveOut.cons] at h
      | overwide s2 tr2 => rw [hr] at h; simp [SolveOut.cons] at h
      | panicked s2 tr2 => rw [hr] at h; simp [SolveOut.cons] at h
      | fuelOut tr2 => rw [hr] at h; simp [SolveOut.cons] at h

/-- The widths reported by `Base::result` are exactly the widths summed by
`Base::current_width`. -/
theorem resultWidthSum_eq (s : BaseState) :
    resultWidthSum s = currentWidthTotal s := by
  unfold resultWidthSum currentWidthTotal result
  rw [List.map_map]
  have hfun : resultWidth ∘ resultElement s = elemWidth s := by
    funext e; cases e <;> rfl
  rw [hfun]

/-- C1.  For every validated configuration, when the width solver returns a
solution, the widths of the produced `WidthUnit` sequence (keys and gaps, as
reported by `Base::result`) sum exactly to the requested target width. -/
theorem c1_solution_sums_to_width (l r w fuel : Nat) (s : BaseState)
    (tr : List Tier) (hv : validConfig l r w = true)
    (h : solveLoop fuel 0 (basePre (kbOf l r w)) = .ok s tr) :
    resultWidthSum s = w := by
  obtain ⟨h1, h2⟩ := solveLoop_ok_inv fuel 0 (basePre (kbOf l r w)) s tr h
  rw [resultWidthSum_eq, h1, h2]
  rfl

/-- Witness for C1 at the two-octave C-to-B keyboard of width 1000. -/
theorem c1_witness :
    validConfig 48 71 1000 = true ∧
    solveLoop 100 0 (basePre (kbOf 48 71 1000)) =
      SolveOut.ok ((solveLoop 100 0 (basePre (kbOf 48 71 1000))).stateD
        (basePre (kbOf 48 71 1000)))
        ((solveLoop 100 0 (basePre (kbOf 48 71 1000))).traceD ([] : List Tier)) ∧
    resultWidthSum ((solveLoop 100 0 (basePre (kbOf 48 71 1000))).stateD
      (basePre (kbOf 48 71 1000))) = 1000 :=
  ⟨by decide, by decide,
    c1_solution_sums_to_width 48 71 1000 100
      ((solveLoop 100 0 (basePre (kbOf 48 71 1000))).stateD (basePre (kbOf 48 71 1000)))
      ((solveLoop 100 0 (basePre (kbOf 48 71 1000))).traceD ([] : List Tier))
      (by decide) (by decide)⟩

/-- C2.  The claim that a validated configuration never triggers a
`SolverInvariantError` fails on the code: the one-octave C3..B3 range
(MIDI keys 48..59) is accepted by the validating setters, yet at width 1000
the delta-resolution loop of `find_solution` stalls (the F,G,A,B tier leaves
delta 2, the B-to-C-gap tier fires vacuously because the range has no B-to-C
gap, and the next iteration hits the endless-loop abort). -/
theorem c2_stall_failing_input :
    validConfig 48 59 1000 = true ∧
    (basePre (kbOf 48 59 1000)).nr_of_bc_gaps = 0 ∧
    isStalled (solveLoop 100 0 (basePre (kbOf 48 59 1000))) = true :=
  ⟨by decide, by decide, by decide⟩

/-- C3, counterexample.  On the validated two-octave C3..B4 range at width
1000 the solver succeeds after firing the B-to-C-gap and E-to-F-gap tiers,
yet the reported perfect flag is `true` — refuting the claim that firing any
tier from "enlarge F,G,A,B" through "alternating D" (which includes those
two) forces `perfect = false`. -/
theorem c3_counterexample :
    validConfig 48 71 1000 = true ∧
    (solveLoop 100 0 (basePre (kbOf 48 71 1000))).perfectTrace =
      some (true, [Tier.bc, Tier.ef]) :=
  ⟨by decide, by decide⟩

/-- One solver step sets exactly the fired tier's flag among the five flags
that feed the perfect flag of `Base::result`. -/
theorem stepB_next_flags {last : Nat} {s s' : BaseState} {d : Nat} {t : Tier}
    (h : stepB last s = .next s' d t) :
    s'.fgab_keys_enlarged = (s.fgab_keys_enlarged || decide (t = Tier.fgab)) ∧
    s'.cde_keys_enlarged = (s.cde_keys_enlarged || decide (t = Tier.cde)) ∧
    s'.d_key_enlarged = (s.d_key_enlarged || decide (t = Tier.dkey)) ∧
    s'.end_keys_enlarged = (s.end_keys_enlarged || decide (t = Tier.endKeys)) ∧
    s'.alternating_d_key_enlarged =
      (s.alternating_d_key_enlarged || decide (t = Tier.altD)) := by
  rcases (stepB_next_cases h).2.2.2 with
    ⟨rfl, _, rfl⟩ | ⟨rfl, _, rfl⟩ | ⟨rfl, _, rfl⟩ | ⟨rfl, _, rfl⟩ |
    ⟨rfl, _, _, rfl⟩ | ⟨rfl, _, _, rfl⟩ | ⟨rfl, _, _, rfl⟩ | ⟨rfl, _, _, rfl⟩ |
    ⟨rfl, _, _, _, rfl⟩ | ⟨rfl, _, _, rfl⟩ | ⟨rfl, _, _, hm⟩ |
    ⟨rfl, _, _, _, rfl⟩ | ⟨rfl, rfl⟩ <;>
    first
      | (obtain ⟨e1, p1, e2, p2, _, _, _, _, rfl⟩ := applyEndKeys_inv hm; simp)
      | simp [bumpGap, bumpKey, applyFgab, applyCde, applyBc, applyEf, applyD,
          applyOuterGaps, applyAltD]

/-- Accumulating one fired tier into a membership test over the trace. -/
theorem or_decide_mem (b : Bool) (t1 x : Tier) (tr2 : List Tier) :
    ((b || decide (t1 = x)) || decide (x ∈ tr2)) = (b || decide (x ∈ t1 :: tr2)) := by
  by_cases ht : t1 = x <;> by_cases hm2 : x ∈ tr2 <;>
    simp [ht, hm2, List.mem_cons, eq_comm]

/-- Along a successful run, each of the five perfect-relevant flags ends up
set exactly when its tier appears in the trace (relative to the starting
flags). -/
theorem solveLoop_flags :
    ∀ (fuel last : Nat) (s s' : BaseState) (tr : List Tier),
      solveLoop fuel last s = .ok s' tr →
      s'.fgab_keys_enlarged = (s.fgab_keys_enlarged || decide (Tier.fgab ∈ tr)) ∧
      s'.cde_keys_enlarged = (s.cde_keys_enlarged || decide (Tier.cde ∈ tr)) ∧
      s'.d_key_enlarged = (s.d_key_enlarged || decide (Tier.dkey ∈ tr)) ∧
      s'.end_keys_enlarged = (s.end_keys_enlarged || decide (Tier.endKeys ∈ tr)) ∧
      s'.alternating_d_key_enlarged =
        (s.alternating_d_key_enlarged || decide (Tier.altD ∈ tr)) := by
  intro fuel
  induction fuel with
  | zero =>
    intro last s s' tr h
    exact SolveOut.noConfusion h
  | succ n ih =>
    intro last s s' tr h
    unfold solveLoop at h
    cases hst : stepB last s with
    | done s0 =>
      rw [hst] at h
      cases h
      obtain ⟨rfl, _⟩ := stepB_done hst
      simp
    | stalled s0 => rw [hst] at h; exact SolveOut.noConfusion h
    | overwide s0 => rw [hst] at h; exact SolveOut.noConfusion h
    | panicked s0 => rw [hst] at h; exact SolveOut.noConfusion h
    | next s1 d1 t1 =>
      rw [hst] at h
      simp only [] at h
      cases hr : solveLoop n d1 s1 with
      | ok s2 tr2 =>
        rw [hr] at h
        simp only [SolveOut.cons] at h
        cases h
        obtain ⟨e1, e2, e3, e4, e5⟩ := ih d1 s1 s' tr2 hr
        obtain ⟨f1, f2, f3, f4, f5⟩ := stepB_next_flags hst
        refine ⟨?_, ?_, ?_, ?_, ?_⟩
        · rw [e1, f1]; exact or_decide_mem _ t1 _ tr2
        · rw [e2, f2]; exact or_decide_mem _ t1 _ tr2
        · rw [e3, f3]; exact or_decide_mem _ t1 _ tr2
        · rw [e4, f4]; exact or_decide_mem _ t1 _ tr2
        · rw [e5, f5]; exact or_decide_mem _ t1 _ tr2
      | stalled s2 tr2 => rw [hr] at h; simp [SolveOut.cons] at h
      | overwide s2 tr2 => rw [hr] at h; simp [SolveOut.cons] at h
      | panicked s2 tr2 => rw [hr] at h; simp [SolveOut.cons] at h
      | fuelOut tr2 => rw [hr] at h; simp [SolveOut.cons] at h

/-- C3, amended.  For every validated configuration on which the solver
returns, the perfect flag of `Base::result` is true iff none of the
F,G,A,B-key, C,D,E-key, D-key, outer-key (end-key) or alternating-D tiers
fired; the B-to-C-gap, E-to-F-gap and outer-gap tiers do not affect it. -/
theorem c3_perfect_iff_tiers (l r w fuel : Nat) (s : BaseState) (tr : List Tier)
    (hv : validConfig l r w = true)
    (h : solveLoop fuel 0 (basePre (kbOf l r w)) = .ok s tr) :
    resultPerfect s = true ↔
      (Tier.fgab ∉ tr ∧ Tier.cde ∉ tr ∧ Tier.dkey ∉ tr ∧ Tier.endKeys ∉ tr ∧
        Tier.altD ∉ tr) := by
  obtain ⟨e1, e2, e3, e4, e5⟩ := solveLoop_flags fuel 0 _ s tr h
  have b1 : (basePre (kbOf l r w)).fgab_keys_enlarged = false := rfl
  have b2 : (basePre (kbOf l r w)).cde_keys_enlarged = false := rfl
  have b3 : (basePre (kbOf l r w)).d_key_enlarged = false := rfl
  have b4 : (basePre (kbOf l r w)).end_keys_enlarged = false := rfl
  have b5 : (basePre (kbOf l r w)).alternating_d_key_enlarged = false := rfl
  rw [b1] at e1
  rw [b2] at e2
  rw [b3] at e3
  rw [b4] at e4
  rw [b5] at e5
  unfold resultPerfect
  rw [e1, e2, e3, e4, e5]
  simp only [Bool.false_or, Bool.and_eq_true, Bool.not_eq_true',
    decide_eq_false_iff_not]
  tauto

/-- Witness for the amended C3 at the two-octave C3..B4 keyboard of width
1000: the B-to-C and E-to-F gap tiers fired and the perfect flag is true. -/
theorem c3_perfect_iff_tiers_witness :
    validConfig 48 71 1000 = true ∧
    (resultPerfect ((solveLoop 100 0 (basePre (kbOf 48 71 1000))).stateD
        (basePre (kbOf 48 71 1000))) = true ↔
      (Tier.fgab ∉ (solveLoop 100 0 (basePre (kbOf 48 71 1000))).traceD
          ([] : List Tier) ∧
       Tier.cde ∉ (solveLoop 100 0 (basePre (kbOf 48 71 1000))).traceD
          ([] : List Tier) ∧
       Tier.dkey ∉ (solveLoop 100 0 (basePre (kbOf 48 71 1000))).traceD
          ([] : List Tier) ∧
       Tier.endKeys ∉ (solveLoop 100 0 (basePre (kbOf 48 71 1000))).traceD
          ([] : List Tier) ∧
       Tier.altD ∉ (solveLoop 100 0 (basePre (kbOf 48 71 1000))).traceD
          ([] : List Tier))) :=
  ⟨by decide,
    c3_perfect_iff_tiers 48 71 1000 100
      ((solveLoop 100 0 (basePre (kbOf 48 71 1000))).stateD (basePre (kbOf 48 71 1000)))
      ((solveLoop 100 0 (basePre (kbOf 48 71 1000))).traceD ([] : List Tier))
      (by decide) (by decide)⟩

/-- The parity table of the G-sharp width selection. -/
theorem blackGsOf_eq (a b : Nat) :
    (a % 2 = b % 2 → blackGsOf a b = b) ∧
    (a % 2 ≠ b % 2 → blackGsOf a b = b + 1) := by
  unfold blackGsOf
  rcases Nat.mod_two_eq_zero_or_one a with h1 | h1 <;>
    rcases Nat.mod_two_eq_zero_or_one b with h2 | h2 <;>
    rw [h1, h2] <;> constructor <;> intro h <;> first | rfl | omega

/-- C6.  In the F,G,A,B sub-width computation of `Top::calculate`, the outer
black-key width (F-sharp/A-sharp) always equals the CDE black-key width, and
the middle (G-sharp) black-key width equals the outer width when the FGAB
group width and the outer black width have the same parity, and the outer
width plus one when the parities differ. -/
theorem c6_fgab_black_keys (kb : KeyboardBuilder) (s : BaseState) :
    (Top.calculate kb s).black_fs_as_width =
      (Top.calculate kb s).cde_black_key_width ∧
    ((Top.calculate kb s).fgab_width % 2 =
        (Top.calculate kb s).black_fs_as_width % 2 →
      (Top.calculate kb s).black_gs_width =
        (Top.calculate kb s).black_fs_as_width) ∧
    ((Top.calculate kb s).fgab_width % 2 ≠
        (Top.calculate kb s).black_fs_as_width % 2 →
      (Top.calculate kb s).black_gs_width =
        (Top.calculate kb s).black_fs_as_width + 1) :=
  ⟨rfl,
    fun h => (blackGsOf_eq (Top.calculate kb s).fgab_width
      (Top.calculate kb s).black_fs_as_width).1 h,
    fun h => (blackGsOf_eq (Top.calculate kb s).fgab_width
      (Top.calculate kb s).black_fs_as_width).2 h⟩

/-- Witness for C6 on the solved 88-key width-800 configuration (same
parity there, so the middle black key equals the outer one). -/
theorem c6_fgab_black_keys_witness :
    (Top.calculate (kbOf 21 108 800)
        ((solveLoop 200 0 (basePre (kbOf 21 108 800))).stateD
          (basePre (kbOf 21 108 800)))).black_fs_as_width =
      (Top.calculate (kbOf 21 108 800)
        ((solveLoop 200 0 (basePre (kbOf 21 108 800))).stateD
          (basePre (kbOf 21 108 800)))).cde_black_key_width ∧
    (Top.calculate (kbOf 21 108 800)
        ((solveLoop 200 0 (basePre (kbOf 21 108 800))).stateD
          (basePre (kbOf 21 108 800)))).black_gs_width =
      (Top.calculate (kbOf 21 108 800)
        ((solveLoop 200 0 (basePre (kbOf 21 108 800))).stateD
          (basePre (kbOf 21 108 800)))).black_fs_as_width + 1 :=
  ⟨(c6_fgab_black_keys (kbOf 21 108 800) _).1,
    (c6_fgab_black_keys (kbOf 21 108 800)
      ((solveLoop 200 0 (basePre (kbOf 21 108 800))).stateD
        (basePre (kbOf 21 108 800)))).2.2 (by decide)⟩

/-- C5.  In the CDE sub-width computation of `Top::calculate`
(`cdeBlackOf`), under the margin needed for the source's `u16` subtractions,
the black-key width is the minimal estimate adjusted by +0, +2 or +1
according to `(groupWidth - 2*estimate - 4*gap) mod 3` being 0, 1 or 2, and
consequently `groupWidth - 2*blackKeyWidth - 4*gap` is exactly divisible by
3, so that three equal integral white sub-widths for C, D and E fill the
group exactly. -/
theorem c5_cde_black_key (kb : KeyboardBuilder) (s : BaseState)
    (cde_width m g : Nat) (h : 2 * m + 4 * g + 4 ≤ cde_width) :
    (Top.calculate kb s).cde_black_key_width =
      cdeBlackOf (Top.calculate kb s).cde_width
        (Top.calculate kb s).kb_width_min (Top.calculate kb s).cde_gap ∧
    ((cde_width - 2 * m - 4 * g) % 3 = 0 → cdeBlackOf cde_width m g = m) ∧
    ((cde_width - 2 * m - 4 * g) % 3 = 1 → cdeBlackOf cde_width m g = m + 2) ∧
    ((cde_width - 2 * m - 4 * g) % 3 = 2 → cdeBlackOf cde_width m g = m + 1) ∧
    (cde_width - 2 * cdeBlackOf cde_width m g - 4 * g) % 3 = 0 ∧
    cde_width =
      3 * ((cde_width - 2 * cdeBlackOf cde_width m g - 4 * g) / 3) +
        2 * cdeBlackOf cde_width m g + 4 * g := by
  refine ⟨rfl, ?_⟩
  unfold cdeBlackOf
  split_ifs with h1 h2 <;> refine ⟨?_, ?_, ?_, ?_, ?_⟩ <;> omega

/-- Witness for C5 at group width 100, estimate 10, gap 2 (remainder 0). -/
theorem c5_cde_black_key_witness :
    2 * 10 + 4 * 2 + 4 ≤ 100 ∧
    ((100 - 2 * 10 - 4 * 2) % 3 = 0 → cdeBlackOf 100 10 2 = 10) ∧
    (100 - 2 * cdeBlackOf 100 10 2 - 4 * 2) % 3 = 0 ∧
    100 = 3 * ((100 - 2 * cdeBlackOf 100 10 2 - 4 * 2) / 3) +
      2 * cdeBlackOf 100 10 2 + 4 * 2 :=
  ⟨by decide,
    (c5_cde_black_key KeyboardBuilder.new (basePre KeyboardBuilder.new)
      100 10 2 (by decide)).2.1,
    (c5_cde_black_key KeyboardBuilder.new (basePre KeyboardBuilder.new)
      100 10 2 (by decide)).2.2.2.2.1,
    (c5_cde_black_key KeyboardBuilder.new (basePre KeyboardBuilder.new)
      100 10 2 (by decide)).2.2.2.2.2⟩

/-- C9.  The builder's configuration setters fail with a recoverable error
exactly in the spec-listed cases: `set_most_left_right_white_keys` errors iff
the keys are out of order, out of MIDI range, span less than an octave, or a
boundary key is not white; `set_width` errors iff the width exceeds
`65535 - 127`; `standard_piano` errors iff the key count is not one of
25/37/49/61/64/73/76/88. -/
theorem c9_builder_errors (kb : KeyboardBuilder) (l r w n : Nat)
    (hl : l ≤ 255) (hr : r ≤ 255) (hw : w ≤ 65535) (hn : n ≤ 255) :
    (isErr (kb.set_most_left_right_white_keys l r) = true ↔
      (r < l ∨ 127 < l ∨ 127 < r ∨ r - l < 11 ∨ isWhite l = false ∨
        isWhite r = false)) ∧
    (isErr (kb.set_width w) = true ↔ 65535 - 127 < w) ∧
    (isErr (kb.standard_piano n) = true ↔
      ¬(n = 25 ∨ n = 37 ∨ n = 49 ∨ n = 61 ∨ n = 64 ∨ n = 73 ∨ n = 76 ∨
        n = 88)) := by
  refine ⟨?_, ?_, ?_⟩
  · unfold KeyboardBuilder.set_most_left_right_white_keys
    split_ifs with h1 h2 h3 h4 h5 h6 <;>
      simp only [isErr, Bool.not_eq_true', Bool.not_eq_false'] at * <;>
      tauto
  · unfold KeyboardBuilder.set_width
    split_ifs with h1
    · exact iff_of_true rfl (by omega)
    · exact iff_of_false (by simp [isErr]) (by omega)
  · unfold KeyboardBuilder.standard_piano
    split <;> simp_all [isErr]

/-- Witness for C9 at the default 88-key configuration values. -/
theorem c9_builder_errors_witness :
    (isErr (KeyboardBuilder.new.set_most_left_right_white_keys 21 108) = true ↔
      (108 < 21 ∨ 127 < 21 ∨ 127 < 108 ∨ 108 - 21 < 11 ∨ isWhite 21 = false ∨
        isWhite 108 = false)) ∧
    (isErr (KeyboardBuilder.new.set_width 800) = true ↔ 65535 - 127 < 800) ∧
    (isErr (KeyboardBuilder.new.standard_piano 88) = true ↔
      ¬(88 = 25 ∨ 88 = 37 ∨ 88 = 49 ∨ 88 = 61 ∨ 88 = 64 ∨ 88 = 73 ∨ 88 = 76 ∨
        88 = 88)) :=
  c9_builder_errors KeyboardBuilder.new 21 108 800 88 (by decide) (by decide)
    (by decide) (by decide)

/-- C7.  The final keyboard's `is_perfect()` equals the conjunction of the
width solver's perfect flag (`Base::result`, modelled `Base::is_perfect`)
and the sub-width solver's perfect flag (`Top::is_perfect`), and the latter
is true iff the outer black-key width equals the middle (G-sharp) black-key
width. -/
theorem c7_is_perfect (kb : KeyboardBuilder) (fuel : Nat) (s : BaseState)
    (tr : List Tier) (k2d : Keyboard2d)
    (h : solveLoop fuel 0 (basePre kb) = .ok s tr)
    (hb : build2dFrom kb s = some k2d) :
    k2d.is_perfect = ((result s).1 && (Top.calculate kb s).is_perfect) ∧
    ((Top.calculate kb s).is_perfect = true ↔
      (Top.calculate kb s).black_fs_as_width =
        (Top.calculate kb s).black_gs_width) := by
  constructor
  · unfold build2dFrom at hb
    cases ha : assembleGo (asmCtxOf kb s) 0 0 (result s).2 with
    | none => rw [ha] at hb; exact Option.noConfusion hb
    | some els =>
      rw [ha] at hb
      cases hb
      rfl
  · unfold Top.is_perfect
    exact beq_iff_eq

/-- Witness for C7 on the full 88-key keyboard at width 800 (a scenario of
the spec). -/
theorem c7_is_perfect_witness :
    ((build2dFrom (kbOf 21 108 800)
        ((solveLoop 200 0 (basePre (kbOf 21 108 800))).stateD
          (basePre (kbOf 21 108 800)))).getD emptyKeyboard).is_perfect =
      ((result ((solveLoop 200 0 (basePre (kbOf 21 108 800))).stateD
          (basePre (kbOf 21 108 800)))).1 &&
        (Top.calculate (kbOf 21 108 800)
          ((solveLoop 200 0 (basePre (kbOf 21 108 800))).stateD
            (basePre (kbOf 21 108 800)))).is_perfect) ∧
    ((Top.calculate (kbOf 21 108 800)
        ((solveLoop 200 0 (basePre (kbOf 21 108 800))).stateD
          (basePre (kbOf 21 108 800)))).is_perfect = true ↔
      (Top.calculate (kbOf 21 108 800)
        ((solveLoop 200 0 (basePre (kbOf 21 108 800))).stateD
          (basePre (kbOf 21 108 800)))).black_fs_as_width =
        (Top.calculate (kbOf 21 108 800)
          ((solveLoop 200 0 (basePre (kbOf 21 108 800))).stateD
            (basePre (kbOf 21 108 800)))).black_gs_width) :=
  c7_is_perfect (kbOf 21 108 800) 200
    ((solveLoop 200 0 (basePre (kbOf 21 108 800))).stateD (basePre (kbOf 21 108 800)))
    ((solveLoop 200 0 (basePre (kbOf 21 108 800))).traceD ([] : List Tier))
    ((build2dFrom (kbOf 21 108 800)
        ((solveLoop 200 0 (basePre (kbOf 21 108 800))).stateD
          (basePre (kbOf 21 108 800)))).getD emptyKeyboard)
    (by decide) (by decide)

/-- Unfolding of the element loop at a `Key` unit. -/
theorem assembleGo_key_eq (c : AsmCtx) (i wx width key : Nat)
    (rest : List ResultElement) :
    assembleGo c i wx (.Key width key :: rest) =
      match c.top.get_top_for (.Key width key) with
      | none => none
      | some tr =>
          match assembleGo c (i + 1) (wx + width) rest with
          | none => none
          | some tail =>
              some (whiteElemFor c i wx width tr ::
                (blackElemsFor c i wx tr ++ tail)) := rfl

/-- `get_top_for` on a C-class key. -/
theorem get_top_for_c0 (t : Top) (width key : Nat) (h : key % 12 = 0) :
    t.get_top_for (.Key width key) =
      some (.WhiteGapBlack (t.cde_key_width + (width - t.cde_pars.getD 0 0))
        t.cde_gap t.cde_black_key_width) := by
  unfold Top.get_top_for
  simp only []
  rw [h]

/-- `get_top_for` on a D-class key. -/
theorem get_top_for_c2 (t : Top) (width key : Nat) (h : key % 12 = 2) :
    t.get_top_for (.Key width key) =
      some (.BlindWhiteGapBlack t.d_left_blind_width
        (t.cde_key_width + (width - t.cde_pars.getD 2 0)) t.cde_gap
        t.cde_black_key_width) := by
  unfold Top.get_top_for
  simp only []
  rw [h]

/-- `get_top_for` on an E-class key. -/
theorem get_top_for_c4 (t : Top) (width key : Nat) (h : key % 12 = 4) :
    t.get_top_for (.Key width key) =
      some (.BlindWhite t.e_left_blind_width
        (t.cde_key_width + (width - t.cde_pars.getD 4 0))) := by
  unfold Top.get_top_for
  simp only []
  rw [h]

/-- `get_top_for` on an F-class key. -/
theorem get_top_for_c5 (t : Top) (width key : Nat) (h : key % 12 = 5) :
    t.get_top_for (.Key width key) =
      some (.WhiteGapBlack (t.fb_white_width / 2 + (width - t.fgab_pars.getD 0 0))
        t.fgab_gap t.black_fs_as_width) := by
  unfold Top.get_top_for
  simp only []
  rw [h]

/-- `get_top_for` on a G-class key. -/
theorem get_top_for_c7 (t : Top) (width key : Nat) (h : key % 12 = 7) :
    t.get_top_for (.Key width key) =
      some (.BlindWhiteGapBlack t.g_left_blind_width
        (t.ga_white_width / 2 + (width - t.fgab_pars.getD 2 0)) t.cde_gap
        t.black_gs_width) := by
  unfold Top.get_top_for
  simp only []
  rw [h]

/-- `get_top_for` on an A-class key. -/
theorem get_top_for_c9 (t : Top) (width key : Nat) (h : key % 12 = 9) :
    t.get_top_for (.Key width key) =
      some (.BlindWhiteGapBlack t.a_left_blind_width
        (t.ga_white_width / 2 + (width - t.fgab_pars.getD 4 0)) t.cde_gap
        t.black_fs_as_width) := by
  unfold Top.get_top_for
  simp only []
  rw [h]

/-- `get_top_for` on a B-class key. -/
theorem get_top_for_c11 (t : Top) (width key : Nat) (h : key % 12 = 11) :
    t.get_top_for (.Key width key) =
      some (.BlindWhite t.b_left_blind_width
        (t.fb_white_width / 2 + (width - t.fgab_pars.getD 6 0))) := by
  unfold Top.get_top_for
  simp only []
  rw [h]

/-- C4, counterexample.  On the solved 88-key width-800 keyboard (validated,
pipeline succeeds) the assembled element list contains a white key that is
not the last key unit (a later white key follows) yet is not followed by a
black key — the E- and B-class keys emit none — refuting the claim that
every non-last key unit emits an adjacent `BlackKey`. -/
theorem c4_counterexample :
    (build2d (kbOf 21 108 800) 200).isSome = true ∧
    claimC4AdjacencyHolds (pipelineElems 21 108 800 200) = false :=
  ⟨by decide, by decide⟩

/-- C4, amended.  A key unit of a class with an adjacent black key (C, D, F,
G, A) that is not the last key unit emits its `BlackKey` rectangle directly
after its `WhiteKey` element, sized from the class breakdown and positioned
at the key's start plus blind offset plus visible sub-width plus gap; an E-
or B-class key, and any last key unit, emits no black key. -/
theorem c4_black_key_emission (c : AsmCtx) (i wx width key : Nat)
    (rest : List ResultElement) (out : List Element2d)
    (h : assembleGo c i wx (.Key width key :: rest) = some out) :
    ((key % 12 = 0 ∨ key % 12 = 2 ∨ key % 12 = 5 ∨ key % 12 = 7 ∨
        key % 12 = 9) → i < c.n - 1 →
      ∃ tr tail, c.top.get_top_for (.Key width key) = some tr ∧
        assembleGo c (i + 1) (wx + width) rest = some tail ∧
        out = whiteElemFor c i wx width tr ::
          Element2d.BlackKey
            ⟨wx + classBlind c.top key + classVis c.top width key +
              classGapW c.top key, c.key_gap, classBlackW c.top key,
              c.black_key_height⟩ :: tail) ∧
    ((key % 12 = 4 ∨ key % 12 = 11 ∨
        (isWhite key = true ∧ ¬ i < c.n - 1)) →
      ∃ tr tail, c.top.get_top_for (.Key width key) = some tr ∧
        assembleGo c (i + 1) (wx + width) rest = some tail ∧
        out = whiteElemFor c i wx width tr :: tail) := by
  rw [assembleGo_key_eq] at h
  constructor
  · intro hcls hlt
    rcases hcls with hc | hc | hc | hc | hc
    · rw [get_top_for_c0 c.top width key hc] at h
      cases hr : assembleGo c (i + 1) (wx + width) rest with
      | none => rw [hr] at h; exact Option.noConfusion h
      | some tail =>
        rw [hr] at h
        simp only [Option.some.injEq] at h
        exact ⟨_, tail, get_top_for_c0 c.top width key hc, rfl, by
          rw [← h]
          unfold blackElemsFor
          rw [if_pos hlt]
          simp [classBlind, classVis, classGapW, classBlackW, hc,
            Nat.add_assoc]⟩
    · rw [get_top_for_c2 c.top width key hc] at h
      cases hr : assembleGo c (i + 1) (wx + width) rest with
      | none => rw [hr] at h; exact Option.noConfusion h
      | some tail =>
        rw [hr] at h
        simp only [Option.some.injEq] at h
        exact ⟨_, tail, get_top_for_c2 c.top width key hc, rfl, by
          rw [← h]
          unfold blackElemsFor
          rw [if_pos hlt]
          simp [classBlind, classVis, classGapW, classBlackW, hc,
            Nat.add_assoc]⟩
    · rw [get_top_for_c5 c.top width key hc] at h
      cases hr : assembleGo c (i + 1) (wx + width) rest with
      | none => rw [hr] at h; exact Option.noConfusion h
      | some tail =>
        rw [hr] at h
        simp only [Option.some.injEq] at h
        exact ⟨_, tail, get_top_for_c5 c.top width key hc, rfl, by
          rw [← h]
          unfold blackElemsFor
          rw [if_pos hlt]
          simp [classBlind, classVis, classGapW, classBlackW, hc,
            Nat.add_assoc]⟩
    · rw [get_top_for_c7 c.top width key hc] at h
      cases hr : assembleGo c (i + 1) (wx + width) rest with
      | none => rw [hr] at h; exact Option.noConfusion h
      | some tail =>
        rw [hr] at h
        simp only [Option.some.injEq] at h
        exact ⟨_, tail, get_top_for_c7 c.top width key hc, rfl, by
          rw [← h]
          unfold blackElemsFor
          rw [if_pos hlt]
          simp [classBlind, classVis, classGapW, classBlackW, hc,
            Nat.add_assoc]⟩
    · rw [get_top_for_c9 c.top width key hc] at h
      cases hr : assembleGo c (i + 1) (wx + width) rest with
      | none => rw [hr] at h; exact Option.noConfusion h
      | some tail =>
        rw [hr] at h
        simp only [Option.some.injEq] at h
        exact ⟨_, tail, get_top_for_c9 c.top width key hc, rfl, by
          rw [← h]
          unfold blackElemsFor
          rw [if_pos hlt]
          simp [classBlind, classVis, classGapW, classBlackW, hc,
            Nat.add_assoc]⟩
  · intro hcls
    rcases hcls with hc | hc | ⟨hw, hge⟩
    · rw [get_top_for_c4 c.top width key hc] at h
      cases hr : assembleGo c (i + 1) (wx + width) rest with
      | none => rw [hr] at h; exact Option.noConfusion h
      | some tail =>
        rw [hr] at h
        simp only [Option.some.injEq] at h
        exact ⟨_, tail, get_top_for_c4 c.top width key hc, rfl, by
          rw [← h]
          unfold blackElemsFor
          simp⟩
    · rw [get_top_for_c11 c.top width key hc] at h
      cases hr : assembleGo c (i + 1) (wx + width) rest with
      | none => rw [hr] at h; exact Option.noConfusion h
      | some tail =>
        rw [hr] at h
        simp only [Option.some.injEq] at h
        exact ⟨_, tail, get_top_for_c11 c.top width key hc, rfl, by
          rw [← h]
          unfold blackElemsFor
          simp⟩
    · have hex : key % 12 = 0 ∨ key % 12 = 2 ∨ key % 12 = 4 ∨ key % 12 = 5 ∨
          key % 12 = 7 ∨ key % 12 = 9 ∨ key % 12 = 11 := by
        unfold isWhite at hw
        rcases hm12 : key % 12 with _ | _ | _ | _ | _ | _ | _ | _ | _ | _ | _ | k12
        all_goals rw [hm12] at hw
        all_goals simp_all
        all_goals omega
      rcases hex with hc | hc | hc | hc | hc | hc | hc
      · rw [get_top_for_c0 c.top width key hc] at h
        cases hr : assembleGo c (i + 1) (wx + width) rest with
        | none => rw [hr] at h; exact Option.noConfusion h
        | some tail =>
          rw [hr] at h
          simp only [Option.some.injEq] at h
          exact ⟨_, tail, get_top_for_c0 c.top width key hc, rfl, by
            rw [← h]
            unfold blackElemsFor
            rw [if_neg hge, List.nil_append]⟩
      · rw [get_top_for_c2 c.top width key hc] at h
        cases hr : assembleGo c (i + 1) (wx + width) rest with
        | none => rw [hr] at h; exact Option.noConfusion h
        | some tail =>
          rw [hr] at h
          simp only [Option.some.injEq] at h
          exact ⟨_, tail, get_top_for_c2 c.top width key hc, rfl, by
            rw [← h]
            unfold blackElemsFor
            rw [if_neg hge, List.nil_append]⟩
      · rw [get_top_for_c4 c.top width key hc] at h
        cases hr : assembleGo c (i + 1) (wx + width) rest with
        | none => rw [hr] at h; exact Option.noConfusion h
        | some tail =>
          rw [hr] at h
          simp only [Option.some.injEq] at h
          exact ⟨_, tail, get_top_for_c4 c.top width key hc, rfl, by
            rw [← h]
            unfold blackElemsFor
            simp⟩
      · rw [get_top_for_c5 c.top width key hc] at h
        cases hr : assembleGo c (i + 1) (wx + width) rest with
        | none => rw [hr] at h; exact Option.noConfusion h
        | some tail =>
          rw [hr] at h
          simp only [Option.some.injEq] at h
          exact ⟨_, tail, get_top_for_c5 c.top width key hc, rfl, by
            rw [← h]
            unfold blackElemsFor
            rw [if_neg hge, List.nil_append]⟩
      · rw [get_top_for_c7 c.top width key hc] at h
        cases hr : assembleGo c (i + 1) (wx + width) rest with
        | none => rw [hr] at h; exact Option.noConfusion h
        | some tail =>
          rw [hr] at h
          simp only [Option.some.injEq] at h
          exact ⟨_, tail, get_top_for_c7 c.top width key hc, rfl, by
            rw [← h]
            unfold blackElemsFor
            rw [if_neg hge, List.nil_append]⟩
      · rw [get_top_for_c9 c.top width key hc] at h
        cases hr : assembleGo c (i + 1) (wx + width) rest with
        | none => rw [hr] at h; exact Option.noConfusion h
        | some tail =>
          rw [hr] at h
          simp only [Option.some.injEq] at h
          exact ⟨_, tail, get_top_for_c9 c.top width key hc, rfl, by
            rw [← h]
            unfold blackElemsFor
            rw [if_neg hge, List.nil_append]⟩
      · rw [get_top_for_c11 c.top width key hc] at h
        cases hr : assembleGo c (i + 1) (wx + width) rest with
        | none => rw [hr] at h; exact Option.noConfusion h
        | some tail =>
          rw [hr] at h
          simp only [Option.some.injEq] at h
          exact ⟨_, tail, get_top_for_c11 c.top width key hc, rfl, by
            rw [← h]
            unfold blackElemsFor
            simp⟩

/-- Witness for the amended C4: a C-class key unit (MIDI 48) at index 3 of
the two-octave assembly context emits its black key right after its white
element. -/
theorem c4_black_key_emission_witness :
    (48 % 12 = 0 ∨ 48 % 12 = 2 ∨ 48 % 12 = 5 ∨ 48 % 12 = 7 ∨ 48 % 12 = 9) ∧
    3 < witnessCtx.n - 1 ∧
    (∃ tr tail,
      witnessCtx.top.get_top_for (.Key 68 48) = some tr ∧
      assembleGo witnessCtx (3 + 1) (10 + 68) [] = some tail ∧
      (assembleGo witnessCtx 3 10 [.Key 68 48]).getD [] =
        whiteElemFor witnessCtx 3 10 68 tr ::
          Element2d.BlackKey
            ⟨10 + classBlind witnessCtx.top 48 + classVis witnessCtx.top 68 48 +
              classGapW witnessCtx.top 48, witnessCtx.key_gap,
              classBlackW witnessCtx.top 48, witnessCtx.black_key_height⟩ ::
          tail) :=
  ⟨by decide, by decide,
    (c4_black_key_emission witnessCtx 3 10 68 48 []
      ((assembleGo witnessCtx 3 10 [.Key 68 48]).getD [])
      (by decide)).1 (by decide) (by decide)⟩

/-- The scaled total equals the per-key split used by the seeding step. -/
theorem keyboardWidth10um_split (kb : KeyboardBuilder) (n : Nat) :
    keyboardWidth10um kb n =
      n * kb.white_key_wide_width_10um + (n + 1) * keyGap10um kb := by
  unfold keyboardWidth10um
  ring

/-- Floor bounds of the seeding step: the uniformly seeded width is at most
the target, and undershoots it by at most `2n`. -/
theorem seed_floor_bounds (K G w n : Nat) (hT : 0 < (K + G) * n + G) :
    n * (K * w / ((K + G) * n + G)) + (n + 1) * (G * w / ((K + G) * n + G)) ≤ w ∧
    w ≤ n * (K * w / ((K + G) * n + G)) +
      (n + 1) * (G * w / ((K + G) * n + G)) + 2 * n := by
  set T := (K + G) * n + G with hTdef
  have hk := Nat.div_add_mod (K * w) T
  have hg := Nat.div_add_mod (G * w) T
  have hkr : K * w % T < T := Nat.mod_lt _ hT
  have hgr : G * w % T < T := Nat.mod_lt _ hT
  have key : T * w = T * (n * (K * w / T) + (n + 1) * (G * w / T)) +
      (n * (K * w % T) + (n + 1) * (G * w % T)) := by
    have h1 : T * w = n * (K * w) + (n + 1) * (G * w) := by
      rw [hTdef]; ring
    calc T * w = n * (K * w) + (n + 1) * (G * w) := h1
      _ = n * (T * (K * w / T) + K * w % T) +
          (n + 1) * (T * (G * w / T) + G * w % T) := by rw [hk, hg]
      _ = T * (n * (K * w / T) + (n + 1) * (G * w / T)) +
          (n * (K * w % T) + (n + 1) * (G * w % T)) := by ring
  constructor
  · have h1 : T * (n * (K * w / T) + (n + 1) * (G * w / T)) ≤ T * w := by omega
    exact Nat.le_of_mul_le_mul_left h1 hT
  · have h2 : n * (K * w % T) ≤ n * T := Nat.mul_le_mul_left n (le_of_lt hkr)
    have h3 : (n + 1) * (G * w % T) < (n + 1) * T :=
      mul_lt_mul_of_pos_left hgr (Nat.succ_pos n)
    have hlt : T * w < T * (n * (K * w / T) + (n + 1) * (G * w / T) + 2 * n + 1) := by
      have h6 : T * (n * (K * w / T) + (n + 1) * (G * w / T) + 2 * n + 1) =
          T * (n * (K * w / T) + (n + 1) * (G * w / T)) + (n * T + (n + 1) * T) := by
        ring
      omega
    have := Nat.lt_of_mul_lt_mul_left hlt
    omega

/-- The seeded element list sums to one bumped term per white key. -/
theorem sum_seed_flat (s : BaseState) (ws : List Nat) :
    ((ws.flatMap
        (fun k => [Element.IdenticalWhite k, Element.IdenticalGap])).map
      (elemWidth s)).sum = ws.length * (s.identical_key + s.identical_gap) := by
  induction ws with
  | nil => simp
  | cons k t ih =>
    simp only [List.flatMap_cons, List.map_append, List.sum_append, ih,
      List.map_cons, List.map_nil, List.sum_cons, List.sum_nil, List.length_cons]
    show elemWidth s (Element.IdenticalWhite k) +
      (elemWidth s Element.IdenticalGap + 0) + _ = _
    unfold elemWidth
    ring

/-- The accumulated width of the seeded state is the uniform split. -/
theorem currentWidthTotal_basePre (kb : KeyboardBuilder) :
    currentWidthTotal (basePre kb) =
      (basePre kb).nr_of_white_keys * (basePre kb).identical_key +
        ((basePre kb).nr_of_white_keys + 1) * (basePre kb).identical_gap := by
  have he : (basePre kb).elements = Element.IdenticalGap ::
      (whiteKeys kb).flatMap
        (fun k => [Element.IdenticalWhite k, Element.IdenticalGap]) := rfl
  have hn : (basePre kb).nr_of_white_keys = (whiteKeys kb).length := rfl
  unfold currentWidthTotal
  rw [he, hn, List.map_cons, List.sum_cons, sum_seed_flat]
  show elemWidth (basePre kb) Element.IdenticalGap + _ = _
  unfold elemWidth
  ring

/-- C8.  For every validated configuration, after the seeding step of
`Base::calculate` the chosen `gapMin`/`keyMin` satisfy both internal
assertions (`N*keyMin + (N+1)*gapMin <= width` and
`N*(keyMin+1) + (N+1)*gapMin >= width`), the seeded unit widths sum to
`N*keyMin + (N+1)*gapMin`, and the seeded delta `width - sum` is below
`N + 1` (it is a natural number, hence non-negative). -/
theorem c8_seed_bounds (l r w : Nat) (hv : validConfig l r w = true) :
    basePreAssertsOk (basePre (kbOf l r w)) = true ∧
    currentWidthTotal (basePre (kbOf l r w)) =
      (basePre (kbOf l r w)).nr_of_white_keys *
          (basePre (kbOf l r w)).identical_key +
        ((basePre (kbOf l r w)).nr_of_white_keys + 1) *
          (basePre (kbOf l r w)).identical_gap ∧
    w - currentWidthTotal (basePre (kbOf l r w)) <
      (basePre (kbOf l r w)).nr_of_white_keys + 1 := by
  have hsum := currentWidthTotal_basePre (kbOf l r w)
  have hn : (basePre (kbOf l r w)).nr_of_white_keys =
      (whiteKeys (kbOf l r w)).length := rfl
  have hgap : (basePre (kbOf l r w)).identical_gap =
      gminOf (kbOf l r w) ((whiteKeys (kbOf l r w)).length) := rfl
  have hkey : (basePre (kbOf l r w)).identical_key =
      kwminOf (kbOf l r w) ((whiteKeys (kbOf l r w)).length) := rfl
  have hkg : (basePre (kbOf l r w)).key_gap_min =
      gminOf (kbOf l r w) ((whiteKeys (kbOf l r w)).length) := rfl
  have hkw : (basePre (kbOf l r w)).kw_width_min =
      kwminOf (kbOf l r w) ((whiteKeys (kbOf l r w)).length) := rfl
  have hwidth : (basePre (kbOf l r w)).width = w := rfl
  set n := (whiteKeys (kbOf l r w)).length with hndef
  set Gv := keyGap10um (kbOf l r w) with hGdef
  set Kv := (kbOf l r w).white_key_wide_width_10um with hKdef
  have hGpos : 0 < Gv := by
    rw [hGdef]
    unfold keyGap10um kbOf KeyboardBuilder.new
    norm_num
  have hTpos : 0 < (Kv + Gv) * n + Gv := by omega
  have hb := seed_floor_bounds Kv Gv w n hTpos
  have hg0 : gminOf (kbOf l r w) n = Gv * w / ((Kv + Gv) * n + Gv) := by
    rw [hGdef, hKdef]
    rfl
  have hk00 : kw0Of (kbOf l r w) n = Kv * w / ((Kv + Gv) * n + Gv) := by
    rw [hGdef, hKdef]
    rfl
  have hb1 := hb.1
  have hb2 := hb.2
  rw [← hg0, ← hk00] at hb1 hb2
  set k0 := kw0Of (kbOf l r w) n with hk0def
  set g0 := gminOf (kbOf l r w) n with hg0def
  have hkmin : kwminOf (kbOf l r w) n =
      (if n * (k0 + 1) + (n + 1) * g0 ≤ w then k0 + 1 else k0) := by
    rw [hk0def, hg0def]
    rfl
  have hd1 : n * (k0 + 1) = n * k0 + n := by ring
  have hd2 : n * (k0 + 1 + 1) = n * k0 + n + n := by ring
  refine ⟨?_, hsum, ?_⟩
  · unfold basePreAssertsOk
    rw [hn, hkg, hkw, hwidth, hkmin]
    by_cases hguard : n * (k0 + 1) + (n + 1) * g0 ≤ w
    · rw [if_pos hguard]
      simp only [Bool.and_eq_true, decide_eq_true_eq]
      omega
    · rw [if_neg hguard]
      simp only [Bool.and_eq_true, decide_eq_true_eq]
      omega
  · rw [hsum, hn, hkey, hgap, hkmin]
    by_cases hguard : n * (k0 + 1) + (n + 1) * g0 ≤ w
    · rw [if_pos hguard]
      omega
    · rw [if_neg hguard]
      omega

/-- Witness for C8 at the 88-key width-800 configuration. -/
theorem c8_seed_bounds_witness :
    validConfig 21 108 800 = true ∧
    basePreAssertsOk (basePre (kbOf 21 108 800)) = true ∧
    currentWidthTotal (basePre (kbOf 21 108 800)) =
      (basePre (kbOf 21 108 800)).nr_of_white_keys *
          (basePre (kbOf 21 108 800)).identical_key +
        ((basePre (kbOf 21 108 800)).nr_of_white_keys + 1) *
          (basePre (kbOf 21 108 800)).identical_gap ∧
    800 - currentWidthTotal (basePre (kbOf 21 108 800)) <
      (basePre (kbOf 21 108 800)).nr_of_white_keys + 1 :=
  ⟨by decide, c8_seed_bounds 21 108 800 (by decide)⟩


/-! ### Generic counting and summing lemmas for the tier passes -/

/-- Key slots and gap slots are disjoint. -/
theorem keyE_not_gapE {e : Element} (h : isKeyE e = true) : isGapE e = false := by
  cases e <;> first | rfl | exact absurd h (by simp [isKeyE])

/-- Closing gaps are gap slots. -/
theorem pLastGap_gapE {e : Element} (h : pLastGap e = true) : isGapE e = true := by
  cases e <;> first | rfl | exact absurd h (by simp [pLastGap])

/-- Unfolding of `restOk` on a chunk. -/
theorem restOk_cons {g k : Element} {t : List Element}
    (h : restOk (g :: k :: t) = true) :
    isGapE g = true ∧ isKeyE k = true ∧ compatGK g k = true ∧ restOk t = true := by
  simp only [restOk, Bool.and_eq_true] at h
  exact ⟨h.1.1.1, h.1.1.2, h.1.2, h.2⟩

/-- Gap-count bound for a well-shaped chunk list: a predicate that holds only
on gap slots counts at most the gap slots. -/
theorem countP_restOk_gap (p : Element → Bool)
    (hp : ∀ e, p e = true → isGapE e = true) :
    ∀ es : List Element, restOk es = true → es.countP p ≤ (es.length + 1) / 2
  | [g], _ => by
      have hone : (if p g = true then 1 else 0) ≤ 1 := by split <;> omega
      simp only [List.countP_cons, List.countP_nil, List.length_cons,
        List.length_nil]
      omega
  | g :: k :: t, h => by
      obtain ⟨hg, hk, hc, ht⟩ := restOk_cons h
      have hpk : p k = false := by
        cases hpk : p k with
        | false => rfl
        | true => exact absurd (keyE_not_gapE hk) (by rw [hp k hpk]; simp)
      have hzero : (if p k = true then 1 else 0) = 0 := by rw [hpk]; rfl
      have hone : (if p g = true then 1 else 0) ≤ 1 := by split <;> omega
      have ih := countP_restOk_gap p hp t ht
      simp only [List.countP_cons, List.length_cons]
      omega
  | [], h => by exact absurd h (by simp [restOk])

/-- Key-count bound for a well-shaped chunk list. -/
theorem countP_restOk_key (p : Element → Bool)
    (hp : ∀ e, p e = true → isKeyE e = true) :
    ∀ es : List Element, restOk es = true → es.countP p ≤ es.length / 2
  | [g], h => by
      have hg : isGapE g = true := pLastGap_gapE (by simpa [restOk] using h)
      have hpg : p g = false := by
        cases hpg : p g with
        | false => rfl
        | true => exact absurd hg (by rw [keyE_not_gapE (hp g hpg)]; simp)
      have hzero : (if p g = true then 1 else 0) = 0 := by rw [hpg]; rfl
      simp only [List.countP_cons, List.countP_nil, List.length_cons,
        List.length_nil]
      omega
  | g :: k :: t, h => by
      obtain ⟨hg, hk, hc, ht⟩ := restOk_cons h
      have hpg : p g = false := by
        cases hpg : p g with
        | false => rfl
        | true => exact absurd hg (by rw [keyE_not_gapE (hp g hpg)]; simp)
      have hzero : (if p g = true then 1 else 0) = 0 := by rw [hpg]; rfl
      have hone : (if p k = true then 1 else 0) ≤ 1 := by split <;> omega
      have ih := countP_restOk_key p hp t ht
      simp only [List.countP_cons, List.length_cons]
      omega
  | [], h => by exact absurd h (by simp [restOk])

/-- Pointwise width bound: mapped sums respect pointwise bumps. -/
theorem sum_map_bump_le (w w' : Element → Nat) (p : Element → Bool) :
    ∀ es : List Element,
      (∀ e ∈ es, w' e ≤ w e + (if p e = true then 1 else 0)) →
      ((es.map w').sum ≤ (es.map w).sum + es.countP p)
  | [], _ => by simp
  | e :: t, h => by
      have ih := sum_map_bump_le w w' p t (fun x hx => h x (List.mem_cons_of_mem e hx))
      have he := h e (List.mem_cons_self e t)
      simp only [List.map_cons, List.sum_cons, List.countP_cons]
      omega

/-- Pointwise width equality: mapped sums add exactly the bump count. -/
theorem sum_map_bump_eq (w w' : Element → Nat) (p : Element → Bool) :
    ∀ es : List Element,
      (∀ e ∈ es, w' e = w e + (if p e = true then 1 else 0)) →
      ((es.map w').sum = (es.map w).sum + es.countP p)
  | [], _ => by simp
  | e :: t, h => by
      have ih := sum_map_bump_eq w w' p t (fun x hx => h x (List.mem_cons_of_mem e hx))
      have he := h e (List.mem_cons_self e t)
      simp only [List.map_cons, List.sum_cons, List.countP_cons]
      omega

/-- Pointwise non-increase of mapped sums. -/
theorem sum_map_mono (w w' : Element → Nat) :
    ∀ es : List Element, (∀ e ∈ es, w' e ≤ w e) →
      ((es.map w').sum ≤ (es.map w).sum)
  | [], _ => by simp
  | e :: t, h => by
      have ih := sum_map_mono w w' t (fun x hx => h x (List.mem_cons_of_mem e hx))
      have he := h e (List.mem_cons_self e t)
      simp only [List.map_cons, List.sum_cons]
      omega

/-- Width bound for a key-conversion pass on a `(Gap Key)*` chunk list. -/
theorem sum_mapGapKey_le (f : Element → Element) (w w' : Element → Nat)
    (p : Element → Bool) :
    ∀ es : List Element,
      (∀ e ∈ es, w' e ≤ w e + (if p e = true then 1 else 0)) →
      (∀ e ∈ es, w' (f e) ≤ w e + (if p e = true then 1 else 0)) →
      ((mapGapKey f es).map w').sum ≤ (es.map w).sum + es.countP p
  | g :: k :: t, hid, hconv => by
      have ih := sum_mapGapKey_le f w w' p t
        (fun x hx => hid x (List.mem_cons_of_mem g (List.mem_cons_of_mem k hx)))
        (fun x hx => hconv x (List.mem_cons_of_mem g (List.mem_cons_of_mem k hx)))
      have hg := hid g (List.mem_cons_self g (k :: t))
      have hk := hconv k (List.mem_cons_of_mem g (List.mem_cons_self k t))
      simp only [mapGapKey, List.map_cons, List.sum_cons, List.countP_cons]
      omega
  | [], _, _ => by simp [mapGapKey]
  | [g], hid, _ => by
      have hg := hid g (List.mem_cons_self g [])
      simp only [mapGapKey, List.map_cons, List.map_nil, List.sum_cons,
        List.sum_nil, List.countP_cons, List.countP_nil]
      omega

/-- Count non-increase for a key-conversion pass. -/
theorem countP_mapGapKey_le (f : Element → Element) (p : Element → Bool)
    (hf : ∀ e, p (f e) = true → p e = true) :
    ∀ es : List Element, (mapGapKey f es).countP p ≤ es.countP p
  | g :: k :: t => by
      have ih := countP_mapGapKey_le f p hf t
      have hk : (if p (f k) = true then 1 else 0) ≤ (if p k = true then 1 else 0) := by
        by_cases hfk : p (f k) = true
        · rw [if_pos hfk, if_pos (hf k hfk)]
        · rw [if_neg hfk]
          omega
      simp only [mapGapKey, List.countP_cons]
      omega
  | [] => by simp [mapGapKey]
  | [g] => by simp [mapGapKey]

/-- Count non-increase for a gap-rewriting pass. -/
theorem countP_mapGapByKey_le (f : Element → Element → Element)
    (p : Element → Bool) (hf : ∀ g k, p (f g k) = true → p g = true) :
    ∀ es : List Element, (mapGapByKey f es).countP p ≤ es.countP p
  | g :: k :: t => by
      have ih := countP_mapGapByKey_le f p hf t
      have hg : (if p (f g k) = true then 1 else 0) ≤ (if p g = true then 1 else 0) := by
        by_cases hfg : p (f g k) = true
        · rw [if_pos hfg, if_pos (hf g k hfg)]
        · rw [if_neg hfg]
          omega
      simp only [mapGapByKey, List.countP_cons]
      omega
  | [] => by simp [mapGapByKey]
  | [g] => by simp [mapGapByKey]

/-- Unfolding of the alternating-D pass at a matched chunk. -/
theorem altDGo_cons_some (b : Bool) (g k : Element) (t : List Element) (key : Nat)
    (hm : dMatch k = some key) :
    altDGo b (g :: k :: t) = g :: (if (!b) = true then Element.KeyD key else k) :: altDGo (!b) t := by
  simp only [altDGo, hm]

/-- Unfolding of the alternating-D pass at an unmatched chunk. -/
theorem altDGo_cons_none (b : Bool) (g k : Element) (t : List Element)
    (hm : dMatch k = none) :
    altDGo b (g :: k :: t) = g :: k :: altDGo b t := by
  simp only [altDGo, hm]

/-- Unfolding of the alternating-D conversion count at a matched chunk. -/
theorem altDCnt_cons_some (b : Bool) (g k : Element) (t : List Element) (key : Nat)
    (hm : dMatch k = some key) :
    altDCnt b (g :: k :: t) = (if (!b) = true then 1 else 0) + altDCnt (!b) t := by
  simp only [altDCnt, hm]

/-- Unfolding of the alternating-D conversion count at an unmatched chunk. -/
theorem altDCnt_cons_none (b : Bool) (g k : Element) (t : List Element)
    (hm : dMatch k = none) :
    altDCnt b (g :: k :: t) = altDCnt b t := by
  simp only [altDCnt, hm]

/-- Count non-increase for the alternating-D pass. -/
theorem countP_altDGo_le (p : Element → Bool)
    (hp : ∀ key, p (Element.KeyD key) = false) :
    ∀ (b : Bool) (es : List Element), (altDGo b es).countP p ≤ es.countP p
  | b, g :: k :: t => by
      cases hm : dMatch k with
      | some key =>
          have ih := countP_altDGo_le p hp (!b) t
          rw [altDGo_cons_some b g k t key hm]
          have hconv : (if p (if (!b) = true then Element.KeyD key else k) = true
              then 1 else 0) ≤ (if p k = true then 1 else 0) := by
            by_cases hb : (!b) = true
            · rw [if_pos hb, hp key]
              simp
            · rw [if_neg hb]
          simp only [List.countP_cons]
          omega
      | none =>
          have ih := countP_altDGo_le p hp b t
          rw [altDGo_cons_none b g k t hm]
          simp only [List.countP_cons]
          omega
  | _, [] => by simp [altDGo]
  | _, [g] => by simp [altDGo]

/-- Count change under a single `List.set` with a non-counted element. -/
theorem countP_set_le (p : Element → Bool) :
    ∀ (es : List Element) (i : Nat) (x : Element), p x = false →
      (es.set i x).countP p ≤ es.countP p
  | [], _, _, _ => by simp
  | e :: t, 0, x, hx => by
      have hzero : (if p x = true then 1 else 0) = 0 := by rw [hx]; rfl
      have hone : (if p e = true then 1 else 0) ≤ 1 := by split <;> omega
      simp only [List.set_cons_zero, List.countP_cons]
      omega
  | e :: t, i + 1, x, hx => by
      have ih := countP_set_le p t i x hx
      simp only [List.set_cons_succ, List.countP_cons]
      omega

/-- Sum change under a single `List.set`. -/
theorem sum_map_set (w : Element → Nat) :
    ∀ (es : List Element) (i : Nat) (x d : Element), i < es.length →
      ((es.set i x).map w).sum + w (es.getD i d) = (es.map w).sum + w x
  | [], i, x, d, h => by simp at h
  | e :: t, 0, x, d, _ => by
      simp only [List.set_cons_zero, List.map_cons, List.sum_cons,
        List.getD_cons_zero]
      omega
  | e :: t, i + 1, x, d, h => by
      have ih := sum_map_set w t i x d (by simpa using h)
      simp only [List.set_cons_succ, List.map_cons, List.sum_cons,
        List.getD_cons_succ]
      omega

/-! ### Structure preservation of the tier passes -/

/-- A well-shaped chunk list is nonempty. -/
theorem restOk_ne_nil {es : List Element} (h : restOk es = true) : es ≠ [] := by
  intro he
  rw [he] at h
  exact absurd h (by simp [restOk])

/-- Compatibility depends only on the key number of the key slot. -/
theorem compatGK_keyNum (g : Element) {k k' : Element}
    (h : keyNum k' = keyNum k) : compatGK g k' = compatGK g k := by
  unfold compatGK
  rw [h]

/-- A matched alternating-D element carries its key number. -/
theorem dMatch_some {k : Element} {key : Nat} (h : dMatch k = some key) :
    keyNum k = some key := by
  cases k with
  | IdenticalWhite n =>
      simp only [dMatch] at h
      split at h
      · cases h
        rfl
      · exact Option.noConfusion h
  | KeyCDE n =>
      simp only [dMatch] at h
      split at h
      · cases h
        rfl
      · exact Option.noConfusion h
  | IdenticalGap => exact Option.noConfusion h
  | GapBC => exact Option.noConfusion h
  | GapEF => exact Option.noConfusion h
  | KeyD n => exact Option.noConfusion h
  | KeyFGAB n => exact Option.noConfusion h
  | OutterGap => exact Option.noConfusion h
  | EnlargedOutterLeftKey n => exact Option.noConfusion h
  | EnlargedOutterRightKey n => exact Option.noConfusion h

/-- Width bound for the alternating-D pass. -/
theorem sum_altDGo_le (w w' : Element → Nat) :
    ∀ (b : Bool) (es : List Element),
      (∀ e ∈ es, w' e ≤ w e) →
      (∀ k key, k ∈ es → dMatch k = some key → w' (Element.KeyD key) ≤ w k + 1) →
      ((altDGo b es).map w').sum ≤ (es.map w).sum + altDCnt b es
  | b, g :: k :: t, hid, hconv => by
      have hg := hid g (List.mem_cons_self g (k :: t))
      cases hm : dMatch k with
      | some key =>
          have ih := sum_altDGo_le w w' (!b) t
            (fun x hx => hid x (List.mem_cons_of_mem g (List.mem_cons_of_mem k hx)))
            (fun x key' hx hm' =>
              hconv x key' (List.mem_cons_of_mem g (List.mem_cons_of_mem k hx)) hm')
          rw [altDGo_cons_some b g k t key hm, altDCnt_cons_some b g k t key hm]
          by_cases hb : (!b) = true
          · rw [if_pos hb, if_pos hb]
            have hkc := hconv k key
              (List.mem_cons_of_mem g (List.mem_cons_self k t)) hm
            simp only [List.map_cons, List.sum_cons]
            omega
          · rw [if_neg hb, if_neg hb]
            have hk := hid k (List.mem_cons_of_mem g (List.mem_cons_self k t))
            simp only [List.map_cons, List.sum_cons]
            omega
      | none =>
          have ih := sum_altDGo_le w w' b t
            (fun x hx => hid x (List.mem_cons_of_mem g (List.mem_cons_of_mem k hx)))
            (fun x key' hx hm' =>
              hconv x key' (List.mem_cons_of_mem g (List.mem_cons_of_mem k hx)) hm')
          rw [altDGo_cons_none b g k t hm, altDCnt_cons_none b g k t hm]
          have hk := hid k (List.mem_cons_of_mem g (List.mem_cons_self k t))
          simp only [List.map_cons, List.sum_cons]
          omega
  | _, [], _, _ => by simp [altDGo, altDCnt]
  | b, [g], hid, _ => by
      have hg := hid g (List.mem_cons_self g [])
      have h1 : altDGo b [g] = [g] := rfl
      have h2 : altDCnt b [g] = 0 := rfl
      rw [h1, h2]
      simp only [List.map_cons, List.map_nil, List.sum_cons, List.sum_nil]
      omega

/-- The alternating-D pass converts at most half of the matched keys,
rounding with the starting phase. -/
theorem altDCnt_le :
    ∀ (b : Bool) (es : List Element),
      altDCnt b es ≤ (es.countP pDun + (if b = true then 0 else 1)) / 2
  | b, g :: k :: t => by
      have hgb : (if pDun g = true then 1 else 0) ≤ 1 := by split <;> omega
      cases hm : dMatch k with
      | some key =>
          have ih := altDCnt_le (!b) t
          rw [altDCnt_cons_some b g k t key hm]
          have hdk : (if pDun k = true then 1 else 0) = 1 := by
            rw [show pDun k = true from by simp [pDun, hm]]
            rfl
          have e1 : (if (!b) = true then 1 else 0) = (if b = true then 0 else 1) := by
            cases b <;> rfl
          have e2 : (if (!b) = true then 0 else 1) = (if b = true then 1 else 0) := by
            cases b <;> rfl
          have e3 : (if b = true then 0 else 1) + (if b = true then 1 else 0) = 1 := by
            cases b <;> rfl
          rw [e2] at ih
          rw [e1]
          simp only [List.countP_cons]
          omega
      | none =>
          have ih := altDCnt_le b t
          rw [altDCnt_cons_none b g k t hm]
          have hdk : (if pDun k = true then 1 else 0) = 0 := by
            rw [show pDun k = false from by simp [pDun, hm]]
            rfl
          simp only [List.countP_cons]
          omega
  | _, [] => by simp [altDCnt]
  | b, [g] => by
      have h2 : altDCnt b [g] = 0 := rfl
      rw [h2]
      omega

/-- Key-conversion passes keep the chunk shape when they preserve key
numbers. -/
theorem restOk_mapGapKey (f : Element → Element)
    (hnum : ∀ e, keyNum (f e) = keyNum e)
    (hkey : ∀ e, isKeyE e = true → isKeyE (f e) = true) :
    ∀ es : List Element, restOk es = true → restOk (mapGapKey f es) = true
  | [g], h => by
      have h1 : mapGapKey f [g] = [g] := rfl
      rwa [h1]
  | [], h => by exact absurd h (by simp [restOk])
  | g :: k :: t, h => by
      obtain ⟨hg, hk, hc, ht⟩ := restOk_cons h
      have ih := restOk_mapGapKey f hnum hkey t ht
      have hcomp : compatGK g (f k) = true := by
        rw [compatGK_keyNum g (hnum k)]
        exact hc
      show restOk (g :: f k :: mapGapKey f t) = true
      simp only [restOk, Bool.and_eq_true]
      exact ⟨⟨⟨hg, hkey k hk⟩, hcomp⟩, ih⟩

/-- Gap-rewriting passes keep the chunk shape when they preserve gap-ness and
compatibility. -/
theorem restOk_mapGapByKey (f : Element → Element → Element)
    (hgap : ∀ g k, isGapE g = true → isGapE (f g k) = true)
    (hcompat : ∀ g k, compatGK g k = true → compatGK (f g k) k = true) :
    ∀ es : List Element, restOk es = true → restOk (mapGapByKey f es) = true
  | [g], h => by
      have h1 : mapGapByKey f [g] = [g] := rfl
      rwa [h1]
  | [], h => by exact absurd h (by simp [restOk])
  | g :: k :: t, h => by
      obtain ⟨hg, hk, hc, ht⟩ := restOk_cons h
      have ih := restOk_mapGapByKey f hgap hcompat t ht
      show restOk (f g k :: k :: mapGapByKey f t) = true
      simp only [restOk, Bool.and_eq_true]
      exact ⟨⟨⟨hgap g k hg, hk⟩, hcompat g k hc⟩, ih⟩

/-- The alternating-D pass keeps the chunk shape. -/
theorem restOk_altDGo :
    ∀ (b : Bool) (es : List Element), restOk es = true →
      restOk (altDGo b es) = true
  | b, [g], h => by
      have h1 : altDGo b [g] = [g] := rfl
      rwa [h1]
  | _, [], h => by exact absurd h (by simp [restOk])
  | b, g :: k :: t, h => by
      obtain ⟨hg, hk, hc, ht⟩ := restOk_cons h
      cases hm : dMatch k with
      | some key =>
          have ih := restOk_altDGo (!b) t ht
          rw [altDGo_cons_some b g k t key hm]
          by_cases hb : (!b) = true
          · rw [if_pos hb]
            have hcomp : compatGK g (Element.KeyD key) = true := by
              rw [compatGK_keyNum g (by rw [dMatch_some hm]; rfl)]
              exact hc
            simp only [restOk, Bool.and_eq_true]
            exact ⟨⟨⟨hg, rfl⟩, hcomp⟩, ih⟩
          · rw [if_neg hb]
            simp only [restOk, Bool.and_eq_true]
            exact ⟨⟨⟨hg, hk⟩, hc⟩, ih⟩
      | none =>
          have ih := restOk_altDGo b t ht
          rw [altDGo_cons_none b g k t hm]
          simp only [restOk, Bool.and_eq_true]
          exact ⟨⟨⟨hg, hk⟩, hc⟩, ih⟩

/-- The key-slot pass on the body equals the first-key conversion followed by
the `(Gap Key)*` pass on the rest. -/
theorem mapKeyGap_cons (f : Element → Element) :
    ∀ (t : List Element), restOk t = true → ∀ k : Element,
      mapKeyGap f (k :: t) = f k :: mapGapKey f t
  | [g], _, k => rfl
  | [], h, _ => absurd h (by simp [restOk])
  | g :: k' :: t', h, k => by
      obtain ⟨_, _, _, ht⟩ := restOk_cons h
      have ih := mapKeyGap_cons f t' ht k'
      show f k :: g :: mapKeyGap f (k' :: t') = f k :: g :: f k' :: mapGapKey f t'
      rw [ih]

/-- Length preservation of the key-conversion pass. -/
theorem length_mapGapKey (f : Element → Element) :
    ∀ es : List Element, (mapGapKey f es).length = es.length
  | g :: k :: t => by
      have ih := length_mapGapKey f t
      show (g :: f k :: mapGapKey f t).length = (g :: k :: t).length
      simp only [List.length_cons, ih]
  | [] => rfl
  | [g] => rfl

/-- Length preservation of the gap-rewriting pass. -/
theorem length_mapGapByKey (f : Element → Element → Element) :
    ∀ es : List Element, (mapGapByKey f es).length = es.length
  | g :: k :: t => by
      have ih := length_mapGapByKey f t
      show (f g k :: k :: mapGapByKey f t).length = (g :: k :: t).length
      simp only [List.length_cons, ih]
  | [] => rfl
  | [g] => rfl

/-- Length preservation of the alternating-D pass. -/
theorem length_altDGo :
    ∀ (b : Bool) (es : List Element), (altDGo b es).length = es.length
  | b, g :: k :: t => by
      cases hm : dMatch k with
      | some key =>
          have ih := length_altDGo (!b) t
          rw [altDGo_cons_some b g k t key hm]
          simp only [List.length_cons, ih]
      | none =>
          have ih := length_altDGo b t
          rw [altDGo_cons_none b g k t hm]
          simp only [List.length_cons, ih]
  | _, [] => rfl
  | b, [g] => by
      have h1 : altDGo b [g] = [g] := rfl
      rw [h1]

/-- Setting a key slot with a key of the same key number keeps the chunk
shape. -/
theorem restOk_set_key :
    ∀ (es : List Element) (i : Nat) (ei x : Element),
      restOk es = true → es.get? i = some ei → isKeyE ei = true →
      isKeyE x = true → keyNum x = keyNum ei →
      restOk (es.set i x) = true
  | [], _, _, _, h, _, _, _, _ => by exact absurd h (by simp [restOk])
  | [g], 0, ei, x, h, hget, hkey, _, _ => by
      have h' : some g = some ei := hget
      injection h' with h''
      subst h''
      have hg := pLastGap_gapE (by simpa [restOk] using h)
      rw [keyE_not_gapE hkey] at hg
      exact Bool.noConfusion hg
  | [g], i + 1, ei, x, h, hget, _, _, _ => by
      have h' : (none : Option Element) = some ei := hget
      exact Option.noConfusion h'
  | g :: k :: t, 0, ei, x, h, hget, hkey, hx, hnum => by
      obtain ⟨hg, _, _, _⟩ := restOk_cons h
      have h' : some g = some ei := hget
      injection h' with h''
      subst h''
      rw [keyE_not_gapE hkey] at hg
      exact Bool.noConfusion hg
  | g :: k :: t, 1, ei, x, h, hget, hkey, hx, hnum => by
      obtain ⟨hg, hk, hc, ht⟩ := restOk_cons h
      have h' : some k = some ei := hget
      injection h' with h''
      subst h''
      show restOk (g :: x :: t) = true
      simp only [restOk, Bool.and_eq_true]
      refine ⟨⟨⟨hg, hx⟩, ?_⟩, ht⟩
      rw [compatGK_keyNum g hnum]
      exact hc
  | g :: k :: t, i + 2, ei, x, h, hget, hkey, hx, hnum => by
      obtain ⟨hg, hk, hc, ht⟩ := restOk_cons h
      have ih := restOk_set_key t i ei x ht hget hkey hx hnum
      show restOk (g :: k :: t.set i x) = true
      simp only [restOk, Bool.and_eq_true]
      exact ⟨⟨⟨hg, hk⟩, hc⟩, ih⟩

/-- Setting the closing gap to the outer gap keeps the chunk shape. -/
theorem restOk_set_last :
    ∀ es : List Element, restOk es = true →
      restOk (es.set (es.length - 1) Element.OutterGap) = true
  | [], h => by exact absurd h (by simp [restOk])
  | [g], _ => by
      show restOk [Element.OutterGap] = true
      rfl
  | g :: k :: t, h => by
      obtain ⟨hg, hk, hc, ht⟩ := restOk_cons h
      have ih := restOk_set_last t ht
      have htpos : 0 < t.length := List.length_pos.mpr (restOk_ne_nil ht)
      obtain ⟨m, hm⟩ : ∃ m, t.length = m + 1 := ⟨t.length - 1, by omega⟩
      have hidx : (g :: k :: t).length - 1 = (m + 1) + 1 := by
        simp only [List.length_cons]
        omega
      rw [hidx, List.set_cons_succ, List.set_cons_succ]
      have hm' : t.length - 1 = m := by omega
      rw [hm'] at ih
      simp only [restOk, Bool.and_eq_true]
      exact ⟨⟨⟨hg, hk⟩, hc⟩, ih⟩

/-! ### Pointwise width facts for the tier state updates -/

/-- The uniform gap bump adds one to every uniform gap. -/
theorem elemWidth_bumpGap (s : BaseState) (e : Element) :
    elemWidth (bumpGap s) e = elemWidth s e + (if pIdGap e = true then 1 else 0) := by
  cases e <;> rfl

/-- The uniform key bump adds one to every uniform key. -/
theorem elemWidth_bumpKey (s : BaseState) (e : Element) :
    elemWidth (bumpKey s) e = elemWidth s e + (if pIdW e = true then 1 else 0) := by
  cases e <;> rfl

/-- Width change of the F,G,A,B tier: only `KeyFGAB` elements are priced
differently. -/
theorem elemWidth_applyFgab (s : BaseState) (e : Element) :
    elemWidth (applyFgab s) e =
      if pKeyFgab e = true then s.identical_key + 1 else elemWidth s e := by
  cases e <;> rfl

/-- Width change of the C,D,E tier. -/
theorem elemWidth_applyCde (s : BaseState) (e : Element) :
    elemWidth (applyCde s) e =
      if pKeyCde e = true then s.identical_key + 1 else elemWidth s e := by
  cases e <;> rfl

/-- Width change of the B-C gap tier. -/
theorem elemWidth_applyBc (s : BaseState) (e : Element) :
    elemWidth (applyBc s) e =
      if pGapBC e = true then s.identical_gap + 1 else elemWidth s e := by
  cases e <;> rfl

/-- Width change of the E-F gap tier. -/
theorem elemWidth_applyEf (s : BaseState) (e : Element) :
    elemWidth (applyEf s) e =
      if pGapEF e = true then s.identical_gap + 1 else elemWidth s e := by
  cases e <;> rfl

/-- Width change of the D tier. -/
theorem elemWidth_applyD (s : BaseState) (e : Element) :
    elemWidth (applyD s) e =
      if pKeyD e = true then
        (if s.cde_keys_enlarged then s.width_cde else s.identical_key) + 1
      else elemWidth s e := by
  cases e <;> rfl

/-- Width change of the alternating-D tier. -/
theorem elemWidth_applyAltD (s : BaseState) (d : Nat) (e : Element) :
    elemWidth (applyAltD s d) e =
      if pKeyD e = true then
        (if s.cde_keys_enlarged then s.width_cde else s.identical_key) + 1
      else elemWidth s e := by
  cases e <;> rfl

/-- Width change of the outer-gap tier. -/
theorem elemWidth_applyOuterGaps (s : BaseState) (d : Nat) (e : Element) :
    elemWidth (applyOuterGaps s d) e =
      if pOutG e = true then s.identical_gap + 1 else elemWidth s e := by
  cases e <;> rfl

/-- Width of unconverted elements under the F,G,A,B tier. -/
theorem fgab_keep (s : BaseState) (e : Element) (h : pKeyFgab e = false) :
    elemWidth (applyFgab s) e = elemWidth s e := by
  rw [elemWidth_applyFgab, h]
  rfl

/-- Width of unconverted elements under the C,D,E tier. -/
theorem cde_keep (s : BaseState) (e : Element) (h : pKeyCde e = false) :
    elemWidth (applyCde s) e = elemWidth s e := by
  rw [elemWidth_applyCde, h]
  rfl

/-- Width of unconverted elements under the B-C gap tier. -/
theorem bc_keep (s : BaseState) (e : Element) (h : pGapBC e = false) :
    elemWidth (applyBc s) e = elemWidth s e := by
  rw [elemWidth_applyBc, h]
  rfl

/-- Width of unconverted elements under the E-F gap tier. -/
theorem ef_keep (s : BaseState) (e : Element) (h : pGapEF e = false) :
    elemWidth (applyEf s) e = elemWidth s e := by
  rw [elemWidth_applyEf, h]
  rfl

/-- Width of unconverted elements under the D tier. -/
theorem d_keep (s : BaseState) (e : Element) (h : pKeyD e = false) :
    elemWidth (applyD s) e = elemWidth s e := by
  rw [elemWidth_applyD, h]
  rfl

/-- Width of unconverted elements under the alternating-D tier. -/
theorem altD_keep (s : BaseState) (d : Nat) (e : Element) (h : pKeyD e = false) :
    elemWidth (applyAltD s d) e = elemWidth s e := by
  rw [elemWidth_applyAltD, h]
  rfl

/-- Width of unconverted elements under the outer-gap tier. -/
theorem outer_keep (s : BaseState) (d : Nat) (e : Element) (h : pOutG e = false) :
    elemWidth (applyOuterGaps s d) e = elemWidth s e := by
  rw [elemWidth_applyOuterGaps, h]
  rfl

/-- Per-element width bound of the F,G,A,B conversion. -/
theorem fgab_conv_le (s : BaseState) (e : Element) (h : pKeyFgab e = false) :
    elemWidth (applyFgab s) (convFgab e) ≤
      elemWidth s e + (if pIdWFgab e = true then 1 else 0) := by
  cases e with
  | IdenticalWhite k =>
      by_cases hk : k % 12 = 5 ∨ k % 12 = 7 ∨ k % 12 = 9 ∨ k % 12 = 11
      · rw [show convFgab (Element.IdenticalWhite k) = Element.KeyFGAB k from by
          simp [convFgab, hk]]
        rw [elemWidth_applyFgab]
        rw [show pIdWFgab (Element.IdenticalWhite k) = true from by
          simp [pIdWFgab, hk]]
        simp [pKeyFgab, elemWidth]
      · rw [show convFgab (Element.IdenticalWhite k) = Element.IdenticalWhite k from by
          simp [convFgab, hk]]
        rw [fgab_keep s _ (by simp [pKeyFgab])]
        omega
  | IdenticalGap =>
      rw [show convFgab Element.IdenticalGap = Element.IdenticalGap from rfl,
        fgab_keep s _ h]
      omega
  | GapBC =>
      rw [show convFgab Element.GapBC = Element.GapBC from rfl, fgab_keep s _ h]
      omega
  | GapEF =>
      rw [show convFgab Element.GapEF = Element.GapEF from rfl, fgab_keep s _ h]
      omega
  | KeyD k =>
      rw [show convFgab (Element.KeyD k) = Element.KeyD k from rfl, fgab_keep s _ h]
      omega
  | KeyCDE k =>
      rw [show convFgab (Element.KeyCDE k) = Element.KeyCDE k from rfl,
        fgab_keep s _ h]
      omega
  | KeyFGAB k =>
      rw [show convFgab (Element.KeyFGAB k) = Element.KeyFGAB k from rfl,
        fgab_keep s _ h]
      omega
  | OutterGap =>
      rw [show convFgab Element.OutterGap = Element.OutterGap from rfl,
        fgab_keep s _ h]
      omega
  | EnlargedOutterLeftKey k =>
      rw [show convFgab (Element.EnlargedOutterLeftKey k) =
          Element.EnlargedOutterLeftKey k from rfl, fgab_keep s _ h]
      omega
  | EnlargedOutterRightKey k =>
      rw [show convFgab (Element.EnlargedOutterRightKey k) =
          Element.EnlargedOutterRightKey k from rfl, fgab_keep s _ h]
      omega

/-- Per-element width bound of the C,D,E conversion. -/
theorem cde_conv_le (s : BaseState) (e : Element) (h : pKeyCde e = false) :
    elemWidth (applyCde s) (convCde e) ≤
      elemWidth s e + (if pIdWCde e = true then 1 else 0) := by
  cases e with
  | IdenticalWhite k =>
      by_cases hk : k % 12 = 0 ∨ k % 12 = 2 ∨ k % 12 = 4
      · rw [show convCde (Element.IdenticalWhite k) = Element.KeyCDE k from by
          simp [convCde, hk]]
        rw [elemWidth_applyCde]
        rw [show pIdWCde (Element.IdenticalWhite k) = true from by
          simp [pIdWCde, hk]]
        simp [pKeyCde, elemWidth]
      · rw [show convCde (Element.IdenticalWhite k) = Element.IdenticalWhite k from by
          simp [convCde, hk]]
        rw [cde_keep s _ (by simp [pKeyCde])]
        omega
  | IdenticalGap =>
      rw [show convCde Element.IdenticalGap = Element.IdenticalGap from rfl,
        cde_keep s _ h]
      omega
  | GapBC =>
      rw [show convCde Element.GapBC = Element.GapBC from rfl, cde_keep s _ h]
      omega
  | GapEF =>
      rw [show convCde Element.GapEF = Element.GapEF from rfl, cde_keep s _ h]
      omega
  | KeyD k =>
      rw [show convCde (Element.KeyD k) = Element.KeyD k from rfl, cde_keep s _ h]
      omega
  | KeyCDE k =>
      rw [show convCde (Element.KeyCDE k) = Element.KeyCDE k from rfl,
        cde_keep s _ h]
      omega
  | KeyFGAB k =>
      rw [show convCde (Element.KeyFGAB k) = Element.KeyFGAB k from rfl,
        cde_keep s _ h]
      omega
  | OutterGap =>
      rw [show convCde Element.OutterGap = Element.OutterGap from rfl,
        cde_keep s _ h]
      omega
  | EnlargedOutterLeftKey k =>
      rw [show convCde (Element.EnlargedOutterLeftKey k) =
          Element.EnlargedOutterLeftKey k from rfl, cde_keep s _ h]
      omega
  | EnlargedOutterRightKey k =>
      rw [show convCde (Element.EnlargedOutterRightKey k) =
          Element.EnlargedOutterRightKey k from rfl, cde_keep s _ h]
      omega

/-- Per-pair width bound of the B-C gap conversion: compatibility and absence
of converted gaps force the rewritten gap to be the uniform gap. -/
theorem bc_pair_le (s : BaseState) (g k : Element)
    (hg : pGapBC g = false) (hcomp : compatGK g k = true) :
    elemWidth (applyBc s) (convGapBC g k) ≤
      elemWidth s g + (if pIdWC k = true then 1 else 0) := by
  cases k with
  | IdenticalWhite key =>
      by_cases hc : key % 12 = 0
      · rw [show convGapBC g (Element.IdenticalWhite key) = Element.GapBC from by
          simp [convGapBC, hc]]
        rw [elemWidth_applyBc]
        rw [show pGapBC Element.GapBC = true from rfl]
        rw [show pIdWC (Element.IdenticalWhite key) = true from by simp [pIdWC, hc]]
        have hok : okBeforeC g = true := by
          simp only [compatGK, keyNum, hc] at hcomp
          simpa using hcomp
        have hgid : g = Element.IdenticalGap := by
          cases g <;> simp_all [okBeforeC, pGapBC]
        subst hgid
        simp [elemWidth]
      · rw [show convGapBC g (Element.IdenticalWhite key) = g from by
          simp [convGapBC, hc]]
        rw [bc_keep s _ hg]
        omega
  | IdenticalGap =>
      rw [show convGapBC g Element.IdenticalGap = g from rfl, bc_keep s _ hg]
      omega
  | GapBC =>
      rw [show convGapBC g Element.GapBC = g from rfl, bc_keep s _ hg]
      omega
  | GapEF =>
      rw [show convGapBC g Element.GapEF = g from rfl, bc_keep s _ hg]
      omega
  | KeyD key =>
      rw [show convGapBC g (Element.KeyD key) = g from rfl, bc_keep s _ hg]
      omega
  | KeyCDE key =>
      rw [show convGapBC g (Element.KeyCDE key) = g from rfl, bc_keep s _ hg]
      omega
  | KeyFGAB key =>
      rw [show convGapBC g (Element.KeyFGAB key) = g from rfl, bc_keep s _ hg]
      omega
  | OutterGap =>
      rw [show convGapBC g Element.OutterGap = g from rfl, bc_keep s _ hg]
      omega
  | EnlargedOutterLeftKey key =>
      rw [show convGapBC g (Element.EnlargedOutterLeftKey key) = g from rfl,
        bc_keep s _ hg]
      omega
  | EnlargedOutterRightKey key =>
      rw [show convGapBC g (Element.EnlargedOutterRightKey key) = g from rfl,
        bc_keep s _ hg]
      omega

/-- Per-pair width bound of the E-F gap conversion. -/
theorem ef_pair_le (s : BaseState) (g k : Element)
    (hg : pGapEF g = false) (hcomp : compatGK g k = true) :
    elemWidth (applyEf s) (convGapEF g k) ≤
      elemWidth s g + (if pFkey k = true then 1 else 0) := by
  cases k with
  | IdenticalWhite key =>
      by_cases hc : key % 12 = 5
      · rw [show convGapEF g (Element.IdenticalWhite key) = Element.GapEF from by
          simp [convGapEF, hc]]
        rw [elemWidth_applyEf]
        rw [show pGapEF Element.GapEF = true from rfl]
        rw [show pFkey (Element.IdenticalWhite key) = true from by simp [pFkey, hc]]
        have hok : okBeforeF g = true := by
          simp only [compatGK, keyNum, hc] at hcomp
          simpa using hcomp
        have hgid : g = Element.IdenticalGap := by
          cases g <;> simp_all [okBeforeF, pGapEF]
        subst hgid
        simp [elemWidth]
      · rw [show convGapEF g (Element.IdenticalWhite key) = g from by
          simp [convGapEF, hc]]
        rw [ef_keep s _ hg]
        omega
  | KeyFGAB key =>
      by_cases hc : key % 12 = 5
      · rw [show convGapEF g (Element.KeyFGAB key) = Element.GapEF from by
          simp [convGapEF, hc]]
        rw [elemWidth_applyEf]
        rw [show pGapEF Element.GapEF = true from rfl]
        rw [show pFkey (Element.KeyFGAB key) = true from by simp [pFkey, hc]]
        have hok : okBeforeF g = true := by
          simp only [compatGK, keyNum, hc] at hcomp
          simpa using hcomp
        have hgid : g = Element.IdenticalGap := by
          cases g <;> simp_all [okBeforeF, pGapEF]
        subst hgid
        simp [elemWidth]
      · rw [show convGapEF g (Element.KeyFGAB key) = g from by
          simp [convGapEF, hc]]
        rw [ef_keep s _ hg]
        omega
  | IdenticalGap =>
      rw [show convGapEF g Element.IdenticalGap = g from rfl, ef_keep s _ hg]
      omega
  | GapBC =>
      rw [show convGapEF g Element.GapBC = g from rfl, ef_keep s _ hg]
      omega
  | GapEF =>
      rw [show convGapEF g Element.GapEF = g from rfl, ef_keep s _ hg]
      omega
  | KeyD key =>
      rw [show convGapEF g (Element.KeyD key) = g from rfl, ef_keep s _ hg]
      omega
  | KeyCDE key =>
      rw [show convGapEF g (Element.KeyCDE key) = g from rfl, ef_keep s _ hg]
      omega
  | OutterGap =>
      rw [show convGapEF g Element.OutterGap = g from rfl, ef_keep s _ hg]
      omega
  | EnlargedOutterLeftKey key =>
      rw [show convGapEF g (Element.EnlargedOutterLeftKey key) = g from rfl,
        ef_keep s _ hg]
      omega
  | EnlargedOutterRightKey key =>
      rw [show convGapEF g (Element.EnlargedOutterRightKey key) = g from rfl,
        ef_keep s _ hg]
      omega

/-- Inversion of the alternating-D match. -/
theorem dMatch_inv {k : Element} {key : Nat} (h : dMatch k = some key) :
    (k = Element.IdenticalWhite key ∨ k = Element.KeyCDE key) ∧ key % 12 = 2 := by
  cases k with
  | IdenticalWhite n =>
      simp only [dMatch] at h
      split at h
      · cases h
        exact ⟨Or.inl rfl, by assumption⟩
      · exact Option.noConfusion h
  | KeyCDE n =>
      simp only [dMatch] at h
      split at h
      · cases h
        exact ⟨Or.inr rfl, by assumption⟩
      · exact Option.noConfusion h
  | IdenticalGap => exact Option.noConfusion h
  | GapBC => exact Option.noConfusion h
  | GapEF => exact Option.noConfusion h
  | KeyD n => exact Option.noConfusion h
  | KeyFGAB n => exact Option.noConfusion h
  | OutterGap => exact Option.noConfusion h
  | EnlargedOutterLeftKey n => exact Option.noConfusion h
  | EnlargedOutterRightKey n => exact Option.noConfusion h

/-- Per-element width bound of the D conversion, using the C,D,E flag
dichotomy. -/
theorem d_conv_le (s : BaseState) (e : Element) (hd : pKeyD e = false)
    (hcdeT : s.cde_keys_enlarged = true → pIdWCde e = false)
    (hcdeF : s.cde_keys_enlarged = false → pKeyCde e = false) :
    elemWidth (applyD s) (convD e) ≤
      elemWidth s e + (if pDun e = true then 1 else 0) := by
  cases e with
  | IdenticalWhite k =>
      by_cases hk : k % 12 = 2
      · rw [show convD (Element.IdenticalWhite k) = Element.KeyD k from by
          simp [convD, hk]]
        rw [elemWidth_applyD]
        rw [show pKeyD (Element.KeyD k) = true from rfl]
        rw [show pDun (Element.IdenticalWhite k) = true from by
          simp [pDun, dMatch, hk]]
        cases hcde : s.cde_keys_enlarged with
        | true =>
            exact absurd (hcdeT hcde) (by simp [pIdWCde, hk])
        | false =>
            simp [elemWidth]
      · rw [show convD (Element.IdenticalWhite k) = Element.IdenticalWhite k from by
          simp [convD, hk]]
        rw [d_keep s _ (by simp [pKeyD])]
        omega
  | KeyCDE k =>
      by_cases hk : k % 12 = 2
      · rw [show convD (Element.KeyCDE k) = Element.KeyD k from by
          simp [convD, hk]]
        rw [elemWidth_applyD]
        rw [show pKeyD (Element.KeyD k) = true from rfl]
        rw [show pDun (Element.KeyCDE k) = true from by
          simp [pDun, dMatch, hk]]
        cases hcde : s.cde_keys_enlarged with
        | false =>
            exact absurd (hcdeF hcde) (by simp [pKeyCde])
        | true =>
            simp [elemWidth]
      · rw [show convD (Element.KeyCDE k) = Element.KeyCDE k from by
          simp [convD, hk]]
        rw [d_keep s _ (by simp [pKeyD])]
        omega
  | IdenticalGap =>
      rw [show convD Element.IdenticalGap = Element.IdenticalGap from rfl,
        d_keep s _ hd]
      omega
  | GapBC =>
      rw [show convD Element.GapBC = Element.GapBC from rfl, d_keep s _ hd]
      omega
  | GapEF =>
      rw [show convD Element.GapEF = Element.GapEF from rfl, d_keep s _ hd]
      omega
  | KeyD k =>
      rw [show convD (Element.KeyD k) = Element.KeyD k from rfl, d_keep s _ hd]
      omega
  | KeyFGAB k =>
      rw [show convD (Element.KeyFGAB k) = Element.KeyFGAB k from rfl,
        d_keep s _ hd]
      omega
  | OutterGap =>
      rw [show convD Element.OutterGap = Element.OutterGap from rfl, d_keep s _ hd]
      omega
  | EnlargedOutterLeftKey k =>
      rw [show convD (Element.EnlargedOutterLeftKey k) =
          Element.EnlargedOutterLeftKey k from rfl, d_keep s _ hd]
      omega
  | EnlargedOutterRightKey k =>
      rw [show convD (Element.EnlargedOutterRightKey k) =
          Element.EnlargedOutterRightKey k from rfl, d_keep s _ hd]
      omega

/-- Per-element width bound of the alternating-D conversion. -/
theorem altD_conv_le (s : BaseState) (d : Nat) (k : Element) (key : Nat)
    (hm : dMatch k = some key)
    (hcdeT : s.cde_keys_enlarged = true → pIdWCde k = false)
    (hcdeF : s.cde_keys_enlarged = false → pKeyCde k = false) :
    elemWidth (applyAltD s d) (Element.KeyD key) ≤ elemWidth s k + 1 := by
  obtain ⟨hk, hmod⟩ := dMatch_inv hm
  rw [elemWidth_applyAltD]
  rw [show pKeyD (Element.KeyD key) = true from rfl]
  rcases hk with rfl | rfl
  · cases hcde : s.cde_keys_enlarged with
    | true => exact absurd (hcdeT hcde) (by simp [pIdWCde, hmod])
    | false => simp [elemWidth]
  · cases hcde : s.cde_keys_enlarged with
    | false => exact absurd (hcdeF hcde) (by simp [pKeyCde])
    | true =>
        simp [elemWidth]

/-- Width of the freshly written outer gap. -/
theorem outer_new (s : BaseState) (d : Nat) :
    elemWidth (applyOuterGaps s d) Element.OutterGap = s.identical_gap + 1 := rfl

/-- Inversion of the left end-key conversion in the absence of already
enlarged keys. -/
theorem endLeftConv_inv {s : BaseState} {e : Element} {pr : Element × Nat}
    (h : endLeftConv s e = some pr) (habs : pEnlK e = false) :
    (∃ key, keyNum e = some key ∧ pr.1 = Element.EnlargedOutterLeftKey key) ∧
      pr.2 = elemWidth s e + 1 := by
  cases e with
  | IdenticalWhite k =>
      cases h
      exact ⟨⟨k, rfl, rfl⟩, rfl⟩
  | KeyCDE k =>
      cases h
      exact ⟨⟨k, rfl, rfl⟩, rfl⟩
  | KeyFGAB k =>
      cases h
      exact ⟨⟨k, rfl, rfl⟩, rfl⟩
  | EnlargedOutterLeftKey k => exact absurd habs (by simp [pEnlK])
  | IdenticalGap => exact Option.noConfusion h
  | GapBC => exact Option.noConfusion h
  | GapEF => exact Option.noConfusion h
  | KeyD k => exact Option.noConfusion h
  | OutterGap => exact Option.noConfusion h
  | EnlargedOutterRightKey k => exact Option.noConfusion h

/-- Inversion of the right end-key conversion in the absence of already
enlarged keys. -/
theorem endRightConv_inv {s : BaseState} {e : Element} {pr : Element × Nat}
    (h : endRightConv s e = some pr) (habs : pEnlK e = false) :
    (∃ key, keyNum e = some key ∧ pr.1 = Element.EnlargedOutterRightKey key) ∧
      pr.2 = elemWidth s e + 1 := by
  cases e with
  | IdenticalWhite k =>
      cases h
      exact ⟨⟨k, rfl, rfl⟩, rfl⟩
  | KeyCDE k =>
      cases h
      exact ⟨⟨k, rfl, rfl⟩, rfl⟩
  | KeyFGAB k =>
      cases h
      exact ⟨⟨k, rfl, rfl⟩, rfl⟩
  | EnlargedOutterRightKey k => exact absurd habs (by simp [pEnlK])
  | IdenticalGap => exact Option.noConfusion h
  | GapBC => exact Option.noConfusion h
  | GapEF => exact Option.noConfusion h
  | KeyD k => exact Option.noConfusion h
  | OutterGap => exact Option.noConfusion h
  | EnlargedOutterLeftKey k => exact Option.noConfusion h

/-! ### Element-list equations and per-tier accounting -/

/-- Pointwise equal width functions give equal sums. -/
theorem sum_map_eq_of (w w' : Element → Nat) :
    ∀ es : List Element, (∀ e ∈ es, w' e = w e) →
      (es.map w').sum = (es.map w).sum
  | [], _ => rfl
  | e :: t, h => by
      have ih := sum_map_eq_of w w' t (fun x hx => h x (List.mem_cons_of_mem e hx))
      have he := h e (List.mem_cons_self e t)
      simp only [List.map_cons, List.sum_cons, ih, he]

/-- Width bound for a gap-rewriting pass on a well-shaped chunk list. -/
theorem sum_mapGapByKey_le (f : Element → Element → Element)
    (w w' : Element → Nat) (q : Element → Bool) :
    ∀ es : List Element, restOk es = true →
      (∀ e ∈ es, w' e ≤ w e) →
      (∀ g k, g ∈ es → k ∈ es → compatGK g k = true →
        w' (f g k) ≤ w g + (if q k = true then 1 else 0)) →
      ((mapGapByKey f es).map w').sum ≤ (es.map w).sum + es.countP q
  | g :: k :: t, h, hid, hpair => by
      obtain ⟨hg, hk, hc, ht⟩ := restOk_cons h
      have ih := sum_mapGapByKey_le f w w' q t ht
        (fun x hx => hid x (List.mem_cons_of_mem g (List.mem_cons_of_mem k hx)))
        (fun a b ha hb hcc => hpair a b
          (List.mem_cons_of_mem g (List.mem_cons_of_mem k ha))
          (List.mem_cons_of_mem g (List.mem_cons_of_mem k hb)) hcc)
      have h1 := hpair g k (List.mem_cons_self g (k :: t))
        (List.mem_cons_of_mem g (List.mem_cons_self k t)) hc
      have h2 := hid k (List.mem_cons_of_mem g (List.mem_cons_self k t))
      show ((f g k :: k :: mapGapByKey f t).map w').sum ≤ _
      simp only [List.map_cons, List.sum_cons, List.countP_cons]
      omega
  | [g], _, hid, _ => by
      have hg := hid g (List.mem_cons_self g [])
      have h1 : mapGapByKey f [g] = [g] := rfl
      rw [h1]
      simp only [List.map_cons, List.map_nil, List.sum_cons, List.sum_nil,
        List.countP_cons, List.countP_nil]
      omega
  | [], _, _, _ => by simp [mapGapByKey]

/-- Membership form of an empty count. -/
theorem countP_zero_mem {p : Element → Bool} {es : List Element}
    (h : es.countP p = 0) {e : Element} (he : e ∈ es) : p e = false := by
  have := List.countP_eq_zero.mp h e he
  simpa using this

/-- The default-valued index access agrees with a successful `get?`. -/
theorem getD_of_get? {es : List Element} {i : Nat} {e : Element}
    (h : es.get? i = some e) (dflt : Element) : es.getD i dflt = e := by
  rw [List.getD_eq_getElem?_getD, ← List.get?_eq_getElem?, h]
  rfl

/-- In-range default-valued access is a member. -/
theorem getD_mem {es : List Element} {i : Nat} (h : i < es.length)
    (dflt : Element) : es.getD i dflt ∈ es := by
  rw [List.getD_eq_getElem es dflt h]
  exact List.getElem_mem h

/-- The closing slot of a well-shaped chunk list is a closing gap. -/
theorem restOk_last (dflt : Element) :
    ∀ es : List Element, restOk es = true →
      pLastGap (es.getD (es.length - 1) dflt) = true
  | [g], h => by simpa [restOk] using h
  | [], h => by exact absurd h (by simp [restOk])
  | g :: k :: t, h => by
      obtain ⟨_, _, _, ht⟩ := restOk_cons h
      have ih := restOk_last dflt t ht
      have htpos : 0 < t.length := List.length_pos.mpr (restOk_ne_nil ht)
      have hidx : (g :: k :: t).length - 1 = (t.length - 1) + 1 + 1 := by
        simp only [List.length_cons]
        omega
      rw [hidx, List.getD_cons_succ, List.getD_cons_succ]
      exact ih

/-- A closing gap that is not the outer gap is the uniform gap. -/
theorem lastGap_id {g : Element} (h : pLastGap g = true) (ho : pOutG g = false) :
    g = Element.IdenticalGap := by
  cases g <;> simp_all [pLastGap, pOutG]

/-- Changing the left end-key width field leaves non-enlarged widths alone. -/
theorem elemWidth_setOlk (s : BaseState) (v : Nat) (e : Element)
    (h : pEnlK e = false) :
    elemWidth { s with outter_left_key := v } e = elemWidth s e := by
  cases e <;> first | rfl | exact absurd h (by simp [pEnlK])

/-- Width of unconverted elements under the end-key state update. -/
theorem endUpd_keep (s : BaseState) (wl wr : Nat) (X : List Element) (e : Element)
    (h : pEnlK e = false) :
    elemWidth { s with end_keys_enlarged := true, outter_left_key := wl,
                       outter_right_key := wr, elements := X } e =
      elemWidth s e := by
  cases e <;> first | rfl | exact absurd h (by simp [pEnlK])

/-- Width of the written left end key. -/
theorem endUpd_left (s : BaseState) (wl wr : Nat) (X : List Element) (k : Nat) :
    elemWidth { s with end_keys_enlarged := true, outter_left_key := wl,
                       outter_right_key := wr, elements := X }
      (Element.EnlargedOutterLeftKey k) = wl := rfl

/-- Width of the written right end key. -/
theorem endUpd_right (s : BaseState) (wl wr : Nat) (X : List Element) (k : Nat) :
    elemWidth { s with end_keys_enlarged := true, outter_left_key := wl,
                       outter_right_key := wr, elements := X }
      (Element.EnlargedOutterRightKey k) = wr := rfl

/-- Element list produced by the F,G,A,B tier. -/
theorem elements_applyFgab (s : BaseState) (g0 k1 : Element) (rest : List Element)
    (hdec : s.elements = g0 :: k1 :: rest) (hro : restOk rest = true) :
    (applyFgab s).elements = g0 :: convFgab k1 :: mapGapKey convFgab rest := by
  show (match s.elements with
        | g :: body => g :: mapKeyGap convFgab body
        | [] => []) = g0 :: convFgab k1 :: mapGapKey convFgab rest
  rw [hdec]
  show g0 :: mapKeyGap convFgab (k1 :: rest) = _
  rw [mapKeyGap_cons convFgab rest hro k1]

/-- Element list produced by the C,D,E tier. -/
theorem elements_applyCde (s : BaseState) (g0 k1 : Element) (rest : List Element)
    (hdec : s.elements = g0 :: k1 :: rest) (hro : restOk rest = true) :
    (applyCde s).elements = g0 :: convCde k1 :: mapGapKey convCde rest := by
  show (match s.elements with
        | g :: body => g :: mapKeyGap convCde body
        | [] => []) = g0 :: convCde k1 :: mapGapKey convCde rest
  rw [hdec]
  show g0 :: mapKeyGap convCde (k1 :: rest) = _
  rw [mapKeyGap_cons convCde rest hro k1]

/-- Element list produced by the B-C gap tier. -/
theorem elements_applyBc (s : BaseState) (g0 k1 : Element) (rest : List Element)
    (hdec : s.elements = g0 :: k1 :: rest) :
    (applyBc s).elements = g0 :: k1 :: mapGapByKey convGapBC rest := by
  show (match s.elements with
        | g :: k :: r => g :: k :: mapGapByKey convGapBC r
        | short => short) = g0 :: k1 :: mapGapByKey convGapBC rest
  rw [hdec]

/-- Element list produced by the E-F gap tier. -/
theorem elements_applyEf (s : BaseState) (g0 k1 : Element) (rest : List Element)
    (hdec : s.elements = g0 :: k1 :: rest) :
    (applyEf s).elements = g0 :: k1 :: mapGapByKey convGapEF rest := by
  show (match s.elements with
        | g :: k :: r => g :: k :: mapGapByKey convGapEF r
        | short => short) = g0 :: k1 :: mapGapByKey convGapEF rest
  rw [hdec]

/-- Element list produced by the D tier. -/
theorem elements_applyD (s : BaseState) (g0 k1 : Element) (rest : List Element)
    (hdec : s.elements = g0 :: k1 :: rest) :
    (applyD s).elements = g0 :: k1 :: mapGapKey convD rest := by
  show (match s.elements with
        | g :: k :: r => g :: k :: mapGapKey convD r
        | short => short) = g0 :: k1 :: mapGapKey convD rest
  rw [hdec]

/-- Element list produced by the alternating-D tier. -/
theorem elements_applyAltD (s : BaseState) (d : Nat) (g0 k1 : Element)
    (rest : List Element) (hdec : s.elements = g0 :: k1 :: rest) :
    (applyAltD s d).elements =
      g0 :: k1 :: altDGo (decide (d = s.nr_of_d / 2)) rest := by
  show (match s.elements with
        | g :: k :: r => g :: k :: altDGo (decide (d = s.nr_of_d / 2)) r
        | short => short) = g0 :: k1 :: altDGo (decide (d = s.nr_of_d / 2)) rest
  rw [hdec]

/-- Accounting of the uniform gap bump. -/
theorem cw_bumpGap (s : BaseState) :
    currentWidthTotal (bumpGap s) =
      currentWidthTotal s + s.elements.countP pIdGap := by
  have hE : (bumpGap s).elements = s.elements := rfl
  unfold currentWidthTotal
  rw [hE]
  exact sum_map_bump_eq (elemWidth s) (elemWidth (bumpGap s)) pIdGap s.elements
    (fun e _ => elemWidth_bumpGap s e)

/-- Accounting of the uniform key bump. -/
theorem cw_bumpKey (s : BaseState) :
    currentWidthTotal (bumpKey s) =
      currentWidthTotal s + s.elements.countP pIdW := by
  have hE : (bumpKey s).elements = s.elements := rfl
  unfold currentWidthTotal
  rw [hE]
  exact sum_map_bump_eq (elemWidth s) (elemWidth (bumpKey s)) pIdW s.elements
    (fun e _ => elemWidth_bumpKey s e)

/-- Accounting of the F,G,A,B tier: at most one pixel per uniform F,G,A,B
key. -/
theorem cw_applyFgab (s : BaseState) (hInv : SolverInv s)
    (hfl : s.fgab_keys_enlarged = false) :
    currentWidthTotal (applyFgab s) ≤
      currentWidthTotal s + s.elements.countP pIdWFgab := by
  obtain ⟨g0, k1, rest, hdec, hg0, hk1, hro⟩ := hInv.shape
  have habs := hInv.fgabAbs hfl
  have hE := elements_applyFgab s g0 k1 rest hdec hro
  have hg0m : g0 ∈ s.elements := by
    rw [hdec]
    exact List.mem_cons_self _ _
  have hk1m : k1 ∈ s.elements := by
    rw [hdec]
    exact List.mem_cons_of_mem _ (List.mem_cons_self _ _)
  have hrm : ∀ e ∈ rest, e ∈ s.elements := by
    intro e he
    rw [hdec]
    exact List.mem_cons_of_mem _ (List.mem_cons_of_mem _ he)
  have h1 : elemWidth (applyFgab s) g0 = elemWidth s g0 :=
    fgab_keep s g0 (countP_zero_mem habs hg0m)
  have h2 : elemWidth (applyFgab s) (convFgab k1) ≤
      elemWidth s k1 + (if pIdWFgab k1 = true then 1 else 0) :=
    fgab_conv_le s k1 (countP_zero_mem habs hk1m)
  have h3 : ((mapGapKey convFgab rest).map (elemWidth (applyFgab s))).sum ≤
      (rest.map (elemWidth s)).sum + rest.countP pIdWFgab :=
    sum_mapGapKey_le convFgab (elemWidth s) (elemWidth (applyFgab s)) pIdWFgab rest
      (fun e he => by
        rw [fgab_keep s e (countP_zero_mem habs (hrm e he))]
        omega)
      (fun e he => fgab_conv_le s e (countP_zero_mem habs (hrm e he)))
  unfold currentWidthTotal
  rw [hE, hdec]
  simp only [List.map_cons, List.sum_cons, List.countP_cons]
  omega

/-- Accounting of the C,D,E tier. -/
theorem cw_applyCde (s : BaseState) (hInv : SolverInv s)
    (hfl : s.cde_keys_enlarged = false) :
    currentWidthTotal (applyCde s) ≤
      currentWidthTotal s + s.elements.countP pIdWCde := by
  obtain ⟨g0, k1, rest, hdec, hg0, hk1, hro⟩ := hInv.shape
  have habs := hInv.cdeAbs hfl
  have hE := elements_applyCde s g0 k1 rest hdec hro
  have hg0m : g0 ∈ s.elements := by
    rw [hdec]
    exact List.mem_cons_self _ _
  have hk1m : k1 ∈ s.elements := by
    rw [hdec]
    exact List.mem_cons_of_mem _ (List.mem_cons_self _ _)
  have hrm : ∀ e ∈ rest, e ∈ s.elements := by
    intro e he
    rw [hdec]
    exact List.mem_cons_of_mem _ (List.mem_cons_of_mem _ he)
  have h1 : elemWidth (applyCde s) g0 = elemWidth s g0 :=
    cde_keep s g0 (countP_zero_mem habs hg0m)
  have h2 : elemWidth (applyCde s) (convCde k1) ≤
      elemWidth s k1 + (if pIdWCde k1 = true then 1 else 0) :=
    cde_conv_le s k1 (countP_zero_mem habs hk1m)
  have h3 : ((mapGapKey convCde rest).map (elemWidth (applyCde s))).sum ≤
      (rest.map (elemWidth s)).sum + rest.countP pIdWCde :=
    sum_mapGapKey_le convCde (elemWidth s) (elemWidth (applyCde s)) pIdWCde rest
      (fun e he => by
        rw [cde_keep s e (countP_zero_mem habs (hrm e he))]
        omega)
      (fun e he => cde_conv_le s e (countP_zero_mem habs (hrm e he)))
  unfold currentWidthTotal
  rw [hE, hdec]
  simp only [List.map_cons, List.sum_cons, List.countP_cons]
  omega

/-- Accounting of the B-C gap tier: at most one pixel per uniform C key after
the first key. -/
theorem cw_applyBc (s : BaseState) (hInv : SolverInv s)
    (hfl : s.bc_gaps_enlarged = false) :
    currentWidthTotal (applyBc s) ≤
      currentWidthTotal s + (s.elements.drop 2).countP pIdWC := by
  obtain ⟨g0, k1, rest, hdec, hg0, hk1, hro⟩ := hInv.shape
  have habs := hInv.bcAbs hfl
  have hE := elements_applyBc s g0 k1 rest hdec
  have hdrop : s.elements.drop 2 = rest := by
    rw [hdec]
    rfl
  have hg0m : g0 ∈ s.elements := by
    rw [hdec]
    exact List.mem_cons_self _ _
  have hk1m : k1 ∈ s.elements := by
    rw [hdec]
    exact List.mem_cons_of_mem _ (List.mem_cons_self _ _)
  have hrm : ∀ e ∈ rest, e ∈ s.elements := by
    intro e he
    rw [hdec]
    exact List.mem_cons_of_mem _ (List.mem_cons_of_mem _ he)
  have h1 : elemWidth (applyBc s) g0 = elemWidth s g0 :=
    bc_keep s g0 (countP_zero_mem habs hg0m)
  have h2 : elemWidth (applyBc s) k1 = elemWidth s k1 :=
    bc_keep s k1 (countP_zero_mem habs hk1m)
  have h3 : ((mapGapByKey convGapBC rest).map (elemWidth (applyBc s))).sum ≤
      (rest.map (elemWidth s)).sum + rest.countP pIdWC :=
    sum_mapGapByKey_le convGapBC (elemWidth s) (elemWidth (applyBc s)) pIdWC rest
      hro
      (fun e he => by
        rw [bc_keep s e (countP_zero_mem habs (hrm e he))])
      (fun g k hgm hkm hcomp =>
        bc_pair_le s g k (countP_zero_mem habs (hrm g hgm)) hcomp)
  unfold currentWidthTotal
  rw [hE, hdrop, hdec]
  simp only [List.map_cons, List.sum_cons]
  omega

/-- Accounting of the E-F gap tier. -/
theorem cw_applyEf (s : BaseState) (hInv : SolverInv s)
    (hfl : s.ef_gaps_enlarged = false) :
    currentWidthTotal (applyEf s) ≤
      currentWidthTotal s + (s.elements.drop 2).countP pFkey := by
  obtain ⟨g0, k1, rest, hdec, hg0, hk1, hro⟩ := hInv.shape
  have habs := hInv.efAbs hfl
  have hE := elements_applyEf s g0 k1 rest hdec
  have hdrop : s.elements.drop 2 = rest := by
    rw [hdec]
    rfl
  have hg0m : g0 ∈ s.elements := by
    rw [hdec]
    exact List.mem_cons_self _ _
  have hk1m : k1 ∈ s.elements := by
    rw [hdec]
    exact List.mem_cons_of_mem _ (List.mem_cons_self _ _)
  have hrm : ∀ e ∈ rest, e ∈ s.elements := by
    intro e he
    rw [hdec]
    exact List.mem_cons_of_mem _ (List.mem_cons_of_mem _ he)
  have h1 : elemWidth (applyEf s) g0 = elemWidth s g0 :=
    ef_keep s g0 (countP_zero_mem habs hg0m)
  have h2 : elemWidth (applyEf s) k1 = elemWidth s k1 :=
    ef_keep s k1 (countP_zero_mem habs hk1m)
  have h3 : ((mapGapByKey convGapEF rest).map (elemWidth (applyEf s))).sum ≤
      (rest.map (elemWidth s)).sum + rest.countP pFkey :=
    sum_mapGapByKey_le convGapEF (elemWidth s) (elemWidth (applyEf s)) pFkey rest
      hro
      (fun e he => by
        rw [ef_keep s e (countP_zero_mem habs (hrm e he))])
      (fun g k hgm hkm hcomp =>
        ef_pair_le s g k (countP_zero_mem habs (hrm g hgm)) hcomp)
  unfold currentWidthTotal
  rw [hE, hdrop, hdec]
  simp only [List.map_cons, List.sum_cons]
  omega

/-- Accounting of the D tier: at most one pixel per still-convertible D key
after the first key. -/
theorem cw_applyD (s : BaseState) (hInv : SolverInv s)
    (hd : s.d_key_enlarged = false) (had : s.alternating_d_key_enlarged = false) :
    currentWidthTotal (applyD s) ≤
      currentWidthTotal s + (s.elements.drop 2).countP pDun := by
  obtain ⟨g0, k1, rest, hdec, hg0, hk1, hro⟩ := hInv.shape
  have habs := hInv.dAbs hd had
  have hE := elements_applyD s g0 k1 rest hdec
  have hdrop : s.elements.drop 2 = rest := by
    rw [hdec]
    rfl
  have hg0m : g0 ∈ s.elements := by
    rw [hdec]
    exact List.mem_cons_self _ _
  have hk1m : k1 ∈ s.elements := by
    rw [hdec]
    exact List.mem_cons_of_mem _ (List.mem_cons_self _ _)
  have hrm : ∀ e ∈ rest, e ∈ s.elements := by
    intro e he
    rw [hdec]
    exact List.mem_cons_of_mem _ (List.mem_cons_of_mem _ he)
  have h1 : elemWidth (applyD s) g0 = elemWidth s g0 :=
    d_keep s g0 (countP_zero_mem habs hg0m)
  have h2 : elemWidth (applyD s) k1 = elemWidth s k1 :=
    d_keep s k1 (countP_zero_mem habs hk1m)
  have h3 : ((mapGapKey convD rest).map (elemWidth (applyD s))).sum ≤
      (rest.map (elemWidth s)).sum + rest.countP pDun :=
    sum_mapGapKey_le convD (elemWidth s) (elemWidth (applyD s)) pDun rest
      (fun e he => by
        rw [d_keep s e (countP_zero_mem habs (hrm e he))]
        omega)
      (fun e he => d_conv_le s e (countP_zero_mem habs (hrm e he))
        (fun hcT => countP_zero_mem (hInv.cdeDone hcT) (hrm e he))
        (fun hcF => countP_zero_mem (hInv.cdeAbs hcF) (hrm e he)))
  unfold currentWidthTotal
  rw [hE, hdrop, hdec]
  simp only [List.map_cons, List.sum_cons]
  omega

/-- Accounting of the alternating-D tier. -/
theorem cw_applyAltD (s : BaseState) (d : Nat) (hInv : SolverInv s)
    (hd : s.d_key_enlarged = false) (had : s.alternating_d_key_enlarged = false) :
    currentWidthTotal (applyAltD s d) ≤
      currentWidthTotal s +
        altDCnt (decide (d = s.nr_of_d / 2)) (s.elements.drop 2) := by
  obtain ⟨g0, k1, rest, hdec, hg0, hk1, hro⟩ := hInv.shape
  have habs := hInv.dAbs hd had
  have hE := elements_applyAltD s d g0 k1 rest hdec
  have hdrop : s.elements.drop 2 = rest := by
    rw [hdec]
    rfl
  have hg0m : g0 ∈ s.elements := by
    rw [hdec]
    exact List.mem_cons_self _ _
  have hk1m : k1 ∈ s.elements := by
    rw [hdec]
    exact List.mem_cons_of_mem _ (List.mem_cons_self _ _)
  have hrm : ∀ e ∈ rest, e ∈ s.elements := by
    intro e he
    rw [hdec]
    exact List.mem_cons_of_mem _ (List.mem_cons_of_mem _ he)
  have h1 : elemWidth (applyAltD s d) g0 = elemWidth s g0 :=
    altD_keep s d g0 (countP_zero_mem habs hg0m)
  have h2 : elemWidth (applyAltD s d) k1 = elemWidth s k1 :=
    altD_keep s d k1 (countP_zero_mem habs hk1m)
  have h3 : ((altDGo (decide (d = s.nr_of_d / 2)) rest).map
        (elemWidth (applyAltD s d))).sum ≤
      (rest.map (elemWidth s)).sum +
        altDCnt (decide (d = s.nr_of_d / 2)) rest :=
    sum_altDGo_le (elemWidth s) (elemWidth (applyAltD s d))
      (decide (d = s.nr_of_d / 2)) rest
      (fun e he => by
        rw [altD_keep s d e (countP_zero_mem habs (hrm e he))])
      (fun k key hk hm => altD_conv_le s d k key hm
        (fun hcT => countP_zero_mem (hInv.cdeDone hcT) (hrm k hk))
        (fun hcF => countP_zero_mem (hInv.cdeAbs hcF) (hrm k hk)))
  unfold currentWidthTotal
  rw [hE, hdrop, hdec]
  simp only [List.map_cons, List.sum_cons]
  omega

/-- Accounting of the outer-gap tier: one pixel per rewritten end gap. -/
theorem cw_applyOuterGaps (s : BaseState) (d : Nat) (hInv : SolverInv s)
    (hfl : s.outter_gaps_enlarged = false) :
    currentWidthTotal (applyOuterGaps s d) ≤
      currentWidthTotal s + (if d % 2 = 0 then 2 else 1) := by
  obtain ⟨g0, k1, rest, hdec, hg0, hk1, hro⟩ := hInv.shape
  have habs := hInv.outAbs hfl
  have hg0m : g0 ∈ s.elements := by
    rw [hdec]
    exact List.mem_cons_self _ _
  have hg0id : g0 = Element.IdenticalGap :=
    lastGap_id hg0 (countP_zero_mem habs hg0m)
  have hE : (applyOuterGaps s d).elements =
      (if d % 2 = 0 then
        ((s.elements.set 0 Element.OutterGap).set
          ((s.elements.set 0 Element.OutterGap).length - 1) Element.OutterGap)
      else s.elements.set 0 Element.OutterGap) := rfl
  have hkeepAll : ∀ e ∈ s.elements,
      elemWidth (applyOuterGaps s d) e = elemWidth s e := by
    intro e he
    exact outer_keep s d e (countP_zero_mem habs he)
  have hS0 : (s.elements.map (elemWidth (applyOuterGaps s d))).sum =
      (s.elements.map (elemWidth s)).sum :=
    sum_map_eq_of (elemWidth s) (elemWidth (applyOuterGaps s d)) s.elements hkeepAll
  have hlen0 : 0 < s.elements.length := by
    rw [hdec]
    simp
  have hA := sum_map_set (elemWidth (applyOuterGaps s d)) s.elements 0
    Element.OutterGap Element.IdenticalGap hlen0
  have hget0 : s.elements.getD 0 Element.IdenticalGap = g0 := by
    rw [hdec]
    rfl
  have hwg0 : elemWidth (applyOuterGaps s d) g0 = s.identical_gap := by
    rw [hkeepAll g0 hg0m, hg0id]
    rfl
  have hnew : elemWidth (applyOuterGaps s d) Element.OutterGap =
      s.identical_gap + 1 := rfl
  by_cases hpar : d % 2 = 0
  · rw [if_pos hpar] at hE
    have hlen1 : (s.elements.set 0 Element.OutterGap).length = s.elements.length :=
      List.length_set s.elements 0 Element.OutterGap
    have hlenpos : (s.elements.set 0 Element.OutterGap).length - 1 <
        (s.elements.set 0 Element.OutterGap).length := by
      rw [hlen1]
      omega
    have hB := sum_map_set (elemWidth (applyOuterGaps s d))
      (s.elements.set 0 Element.OutterGap)
      ((s.elements.set 0 Element.OutterGap).length - 1)
      Element.OutterGap Element.IdenticalGap hlenpos
    -- the last slot is untouched by the first set and is a uniform gap
    have hlast : (s.elements.set 0 Element.OutterGap).getD
        ((s.elements.set 0 Element.OutterGap).length - 1) Element.IdenticalGap =
        rest.getD (rest.length - 1) Element.IdenticalGap := by
      rw [hdec]
      show (Element.OutterGap :: k1 :: rest).getD
        ((Element.OutterGap :: k1 :: rest).length - 1) Element.IdenticalGap = _
      have hrpos : 0 < rest.length := List.length_pos.mpr (restOk_ne_nil hro)
      have hidx : (Element.OutterGap :: k1 :: rest).length - 1 =
          (rest.length - 1) + 1 + 1 := by
        simp only [List.length_cons]
        omega
      rw [hidx, List.getD_cons_succ, List.getD_cons_succ]
    have hrpos : 0 < rest.length := List.length_pos.mpr (restOk_ne_nil hro)
    have hlastmem : rest.getD (rest.length - 1) Element.IdenticalGap ∈ s.elements := by
      have : rest.getD (rest.length - 1) Element.IdenticalGap ∈ rest :=
        getD_mem (by omega) Element.IdenticalGap
      rw [hdec]
      exact List.mem_cons_of_mem _ (List.mem_cons_of_mem _ this)
    have hlastid : rest.getD (rest.length - 1) Element.IdenticalGap =
        Element.IdenticalGap :=
      lastGap_id (restOk_last Element.IdenticalGap rest hro)
        (countP_zero_mem habs hlastmem)
    have hwlast : elemWidth (applyOuterGaps s d)
        (rest.getD (rest.length - 1) Element.IdenticalGap) = s.identical_gap := by
      rw [hkeepAll _ hlastmem, hlastid]
      rfl
    unfold currentWidthTotal
    rw [hE, if_pos hpar]
    rw [hget0] at hA
    rw [hlast] at hB
    omega
  · rw [if_neg hpar] at hE
    unfold currentWidthTotal
    rw [hE, if_neg hpar]
    rw [hget0] at hA
    omega

/-- Accounting of the end-key tier: exactly one pixel per end key. -/
theorem cw_applyEndKeys (s s' : BaseState) (hInv : SolverInv s)
    (hfl : s.end_keys_enlarged = false) (h : applyEndKeys s = some s') :
    currentWidthTotal s' ≤ currentWidthTotal s + 2 := by
  obtain ⟨e1, p1, e2, p2, hg1, hc1, hg2, hc2, rfl⟩ := applyEndKeys_inv h
  have habs := hInv.endAbs hfl
  have he1m : e1 ∈ s.elements := List.get?_mem hg1
  have he1 : pEnlK e1 = false := countP_zero_mem habs he1m
  obtain ⟨⟨key1, hkn1, hp11⟩, hp12⟩ := endLeftConv_inv hc1 he1
  have he2m : e2 ∈ s.elements := by
    have hmem : e2 ∈ s.elements.set 1 p1.1 := List.get?_mem hg2
    rcases List.mem_or_eq_of_mem_set hmem with hin | heq
    · exact hin
    · exfalso
      rw [heq, hp11] at hc2
      exact Option.noConfusion hc2
  have he2 : pEnlK e2 = false := countP_zero_mem habs he2m
  obtain ⟨⟨key2, hkn2, hp21⟩, hp22⟩ := endRightConv_inv hc2 he2
  rw [elemWidth_setOlk s p1.2 e2 he2] at hp22
  set sNew : BaseState :=
    { s with end_keys_enlarged := true, outter_left_key := p1.2,
             outter_right_key := p2.2,
             elements := (s.elements.set 1 p1.1).set
               (s.elements.length - 2) p2.1 } with hsNew
  have hkeepAll : ∀ e ∈ s.elements, elemWidth sNew e = elemWidth s e := by
    intro e he
    exact endUpd_keep s p1.2 p2.2 _ e (countP_zero_mem habs he)
  have hS0 : (s.elements.map (elemWidth sNew)).sum =
      (s.elements.map (elemWidth s)).sum :=
    sum_map_eq_of (elemWidth s) (elemWidth sNew) s.elements hkeepAll
  have hlen : s.elements.length = 2 * s.nr_of_white_keys + 1 := hInv.elen
  have h1lt : 1 < s.elements.length := by
    have := hInv.npos
    omega
  have hA := sum_map_set (elemWidth sNew) s.elements 1 p1.1
    Element.IdenticalGap h1lt
  have hgetD1 : s.elements.getD 1 Element.IdenticalGap = e1 :=
    getD_of_get? hg1 Element.IdenticalGap
  have h2lt : s.elements.length - 2 < (s.elements.set 1 p1.1).length := by
    rw [List.length_set]
    omega
  have hB := sum_map_set (elemWidth sNew) (s.elements.set 1 p1.1)
    (s.elements.length - 2) p2.1 Element.IdenticalGap h2lt
  have hgetD2 : (s.elements.set 1 p1.1).getD (s.elements.length - 2)
      Element.IdenticalGap = e2 :=
    getD_of_get? hg2 Element.IdenticalGap
  have hw1 : elemWidth sNew e1 = elemWidth s e1 := hkeepAll e1 he1m
  have hw2 : elemWidth sNew e2 = elemWidth s e2 := hkeepAll e2 he2m
  have hwp1 : elemWidth sNew p1.1 = elemWidth s e1 + 1 := by
    rw [hp11]
    rw [endUpd_left s p1.2 p2.2 _ key1]
    omega
  have hwp2 : elemWidth sNew p2.1 = elemWidth s e2 + 1 := by
    rw [hp21]
    rw [endUpd_right s p1.2 p2.2 _ key2]
    omega
  show currentWidthTotal sNew ≤ currentWidthTotal s + 2
  unfold currentWidthTotal
  have hEl : sNew.elements = (s.elements.set 1 p1.1).set
      (s.elements.length - 2) p2.1 := rfl
  rw [hEl]
  rw [hgetD1] at hA
  rw [hgetD2] at hB
  omega

/-! ### Pointwise facts feeding the invariant preservation -/

/-- Downward closure of predicates along the F,G,A,B conversion. -/
theorem convFgab_down (p : Element → Bool)
    (hp : ∀ k, p (Element.KeyFGAB k) = true → p (Element.IdenticalWhite k) = true) :
    ∀ e, p (convFgab e) = true → p e = true := by
  intro e h
  cases e
  case IdenticalWhite k =>
    by_cases hk : k % 12 = 5 ∨ k % 12 = 7 ∨ k % 12 = 9 ∨ k % 12 = 11
    · rw [show convFgab (Element.IdenticalWhite k) = Element.KeyFGAB k from by
        simp [convFgab, hk]] at h
      exact hp k h
    · rwa [show convFgab (Element.IdenticalWhite k) = Element.IdenticalWhite k from by
        simp [convFgab, hk]] at h
  all_goals exact h

/-- Downward closure of predicates along the C,D,E conversion. -/
theorem convCde_down (p : Element → Bool)
    (hp : ∀ k, p (Element.KeyCDE k) = true → p (Element.IdenticalWhite k) = true) :
    ∀ e, p (convCde e) = true → p e = true := by
  intro e h
  cases e
  case IdenticalWhite k =>
    by_cases hk : k % 12 = 0 ∨ k % 12 = 2 ∨ k % 12 = 4
    · rw [show convCde (Element.IdenticalWhite k) = Element.KeyCDE k from by
        simp [convCde, hk]] at h
      exact hp k h
    · rwa [show convCde (Element.IdenticalWhite k) = Element.IdenticalWhite k from by
        simp [convCde, hk]] at h
  all_goals exact h

/-- Downward closure of predicates along the D conversion. -/
theorem convD_down (p : Element → Bool)
    (hp : ∀ k, p (Element.KeyD k) = false) :
    ∀ e, p (convD e) = true → p e = true := by
  intro e h
  cases e
  case IdenticalWhite k =>
    by_cases hk : k % 12 = 2
    · rw [show convD (Element.IdenticalWhite k) = Element.KeyD k from by
        simp [convD, hk]] at h
      rw [hp k] at h
      exact Bool.noConfusion h
    · rwa [show convD (Element.IdenticalWhite k) = Element.IdenticalWhite k from by
        simp [convD, hk]] at h
  case KeyCDE k =>
    by_cases hk : k % 12 = 2
    · rw [show convD (Element.KeyCDE k) = Element.KeyD k from by
        simp [convD, hk]] at h
      rw [hp k] at h
      exact Bool.noConfusion h
    · rwa [show convD (Element.KeyCDE k) = Element.KeyCDE k from by
        simp [convD, hk]] at h
  all_goals exact h

/-- Downward closure of gap predicates along the B-C gap conversion. -/
theorem convGapBC_down (p : Element → Bool) (hp : p Element.GapBC = false) :
    ∀ g k, p (convGapBC g k) = true → p g = true := by
  intro g k h
  cases k
  case IdenticalWhite key =>
    by_cases hc : key % 12 = 0
    · rw [show convGapBC g (Element.IdenticalWhite key) = Element.GapBC from by
        simp [convGapBC, hc]] at h
      rw [hp] at h
      exact Bool.noConfusion h
    · rwa [show convGapBC g (Element.IdenticalWhite key) = g from by
        simp [convGapBC, hc]] at h
  all_goals exact h

/-- Downward closure of gap predicates along the E-F gap conversion. -/
theorem convGapEF_down (p : Element → Bool) (hp : p Element.GapEF = false) :
    ∀ g k, p (convGapEF g k) = true → p g = true := by
  intro g k h
  cases k
  case IdenticalWhite key =>
    by_cases hc : key % 12 = 5
    · rw [show convGapEF g (Element.IdenticalWhite key) = Element.GapEF from by
        simp [convGapEF, hc]] at h
      rw [hp] at h
      exact Bool.noConfusion h
    · rwa [show convGapEF g (Element.IdenticalWhite key) = g from by
        simp [convGapEF, hc]] at h
  case KeyFGAB key =>
    by_cases hc : key % 12 = 5
    · rw [show convGapEF g (Element.KeyFGAB key) = Element.GapEF from by
        simp [convGapEF, hc]] at h
      rw [hp] at h
      exact Bool.noConfusion h
    · rwa [show convGapEF g (Element.KeyFGAB key) = g from by
        simp [convGapEF, hc]] at h
  all_goals exact h

/-- The F,G,A,B conversion keeps key numbers. -/
theorem keyNum_convFgab (e : Element) : keyNum (convFgab e) = keyNum e := by
  cases e
  case IdenticalWhite k =>
    by_cases hk : k % 12 = 5 ∨ k % 12 = 7 ∨ k % 12 = 9 ∨ k % 12 = 11
    · rw [show convFgab (Element.IdenticalWhite k) = Element.KeyFGAB k from by
        simp [convFgab, hk]]
      rfl
    · rw [show convFgab (Element.IdenticalWhite k) = Element.IdenticalWhite k from by
        simp [convFgab, hk]]
  all_goals rfl

/-- The C,D,E conversion keeps key numbers. -/
theorem keyNum_convCde (e : Element) : keyNum (convCde e) = keyNum e := by
  cases e
  case IdenticalWhite k =>
    by_cases hk : k % 12 = 0 ∨ k % 12 = 2 ∨ k % 12 = 4
    · rw [show convCde (Element.IdenticalWhite k) = Element.KeyCDE k from by
        simp [convCde, hk]]
      rfl
    · rw [show convCde (Element.IdenticalWhite k) = Element.IdenticalWhite k from by
        simp [convCde, hk]]
  all_goals rfl

/-- The D conversion keeps key numbers. -/
theorem keyNum_convD (e : Element) : keyNum (convD e) = keyNum e := by
  cases e
  case IdenticalWhite k =>
    by_cases hk : k % 12 = 2
    · rw [show convD (Element.IdenticalWhite k) = Element.KeyD k from by
        simp [convD, hk]]
      rfl
    · rw [show convD (Element.IdenticalWhite k) = Element.IdenticalWhite k from by
        simp [convD, hk]]
  case KeyCDE k =>
    by_cases hk : k % 12 = 2
    · rw [show convD (Element.KeyCDE k) = Element.KeyD k from by
        simp [convD, hk]]
      rfl
    · rw [show convD (Element.KeyCDE k) = Element.KeyCDE k from by
        simp [convD, hk]]
  all_goals rfl

/-- The F,G,A,B conversion keeps key slots. -/
theorem isKeyE_convFgab (e : Element) (h : isKeyE e = true) :
    isKeyE (convFgab e) = true := by
  cases e
  case IdenticalWhite k =>
    by_cases hk : k % 12 = 5 ∨ k % 12 = 7 ∨ k % 12 = 9 ∨ k % 12 = 11
    · rw [show convFgab (Element.IdenticalWhite k) = Element.KeyFGAB k from by
        simp [convFgab, hk]]
      rfl
    · rwa [show convFgab (Element.IdenticalWhite k) = Element.IdenticalWhite k from by
        simp [convFgab, hk]]
  all_goals exact h

/-- The C,D,E conversion keeps key slots. -/
theorem isKeyE_convCde (e : Element) (h : isKeyE e = true) :
    isKeyE (convCde e) = true := by
  cases e
  case IdenticalWhite k =>
    by_cases hk : k % 12 = 0 ∨ k % 12 = 2 ∨ k % 12 = 4
    · rw [show convCde (Element.IdenticalWhite k) = Element.KeyCDE k from by
        simp [convCde, hk]]
      rfl
    · rwa [show convCde (Element.IdenticalWhite k) = Element.IdenticalWhite k from by
        simp [convCde, hk]]
  all_goals exact h

/-- The D conversion keeps key slots. -/
theorem isKeyE_convD (e : Element) (h : isKeyE e = true) :
    isKeyE (convD e) = true := by
  cases e
  case IdenticalWhite k =>
    by_cases hk : k % 12 = 2
    · rw [show convD (Element.IdenticalWhite k) = Element.KeyD k from by
        simp [convD, hk]]
      rfl
    · rwa [show convD (Element.IdenticalWhite k) = Element.IdenticalWhite k from by
        simp [convD, hk]]
  case KeyCDE k =>
    by_cases hk : k % 12 = 2
    · rw [show convD (Element.KeyCDE k) = Element.KeyD k from by
        simp [convD, hk]]
      rfl
    · rwa [show convD (Element.KeyCDE k) = Element.KeyCDE k from by
        simp [convD, hk]]
  all_goals exact h

/-- The B-C gap conversion keeps gap slots. -/
theorem isGapE_convGapBC (g k : Element) (h : isGapE g = true) :
    isGapE (convGapBC g k) = true := by
  cases k
  case IdenticalWhite key =>
    by_cases hc : key % 12 = 0
    · rw [show convGapBC g (Element.IdenticalWhite key) = Element.GapBC from by
        simp [convGapBC, hc]]
      rfl
    · rwa [show convGapBC g (Element.IdenticalWhite key) = g from by
        simp [convGapBC, hc]]
  all_goals exact h

/-- The E-F gap conversion keeps gap slots. -/
theorem isGapE_convGapEF (g k : Element) (h : isGapE g = true) :
    isGapE (convGapEF g k) = true := by
  cases k
  case IdenticalWhite key =>
    by_cases hc : key % 12 = 5
    · rw [show convGapEF g (Element.IdenticalWhite key) = Element.GapEF from by
        simp [convGapEF, hc]]
      rfl
    · rwa [show convGapEF g (Element.IdenticalWhite key) = g from by
        simp [convGapEF, hc]]
  case KeyFGAB key =>
    by_cases hc : key % 12 = 5
    · rw [show convGapEF g (Element.KeyFGAB key) = Element.GapEF from by
        simp [convGapEF, hc]]
      rfl
    · rwa [show convGapEF g (Element.KeyFGAB key) = g from by
        simp [convGapEF, hc]]
  all_goals exact h

/-- The B-C gap conversion keeps pair compatibility. -/
theorem compat_convGapBC (g k : Element) (h : compatGK g k = true) :
    compatGK (convGapBC g k) k = true := by
  cases k
  case IdenticalWhite key =>
    by_cases hc : key % 12 = 0
    · rw [show convGapBC g (Element.IdenticalWhite key) = Element.GapBC from by
        simp [convGapBC, hc]]
      simp [compatGK, keyNum, hc, okBeforeC]
    · rwa [show convGapBC g (Element.IdenticalWhite key) = g from by
        simp [convGapBC, hc]]
  all_goals exact h

/-- The E-F gap conversion keeps pair compatibility. -/
theorem compat_convGapEF (g k : Element) (h : compatGK g k = true) :
    compatGK (convGapEF g k) k = true := by
  cases k
  case IdenticalWhite key =>
    by_cases hc : key % 12 = 5
    · rw [show convGapEF g (Element.IdenticalWhite key) = Element.GapEF from by
        simp [convGapEF, hc]]
      simp [compatGK, keyNum, hc, okBeforeF]
    · rwa [show convGapEF g (Element.IdenticalWhite key) = g from by
        simp [convGapEF, hc]]
  case KeyFGAB key =>
    by_cases hc : key % 12 = 5
    · rw [show convGapEF g (Element.KeyFGAB key) = Element.GapEF from by
        simp [convGapEF, hc]]
      simp [compatGK, keyNum, hc, okBeforeF]
    · rwa [show convGapEF g (Element.KeyFGAB key) = g from by
        simp [convGapEF, hc]]
  all_goals exact h

/-- The C,D,E conversion leaves no uniform C,D,E key behind. -/
theorem pIdWCde_convCde (e : Element) : pIdWCde (convCde e) = false := by
  cases e
  case IdenticalWhite k =>
    by_cases hk : k % 12 = 0 ∨ k % 12 = 2 ∨ k % 12 = 4
    · rw [show convCde (Element.IdenticalWhite k) = Element.KeyCDE k from by
        simp [convCde, hk]]
      rfl
    · rw [show convCde (Element.IdenticalWhite k) = Element.IdenticalWhite k from by
        simp [convCde, hk]]
      simpa [pIdWCde] using hk
  all_goals rfl

/-- Gap slots are never uniform C,D,E keys. -/
theorem isGapE_not_pIdWCde {e : Element} (h : isGapE e = true) :
    pIdWCde e = false := by
  cases e <;> simp_all [isGapE, pIdWCde]

/-- A key-conversion pass that erases a predicate leaves count zero on a
well-shaped chunk list. -/
theorem countP_zero_mapGapKey (f : Element → Element) (p : Element → Bool)
    (hf : ∀ e, p (f e) = false)
    (hg : ∀ e, isGapE e = true → p e = false) :
    ∀ es : List Element, restOk es = true → (mapGapKey f es).countP p = 0
  | [g], h => by
      have h1 : mapGapKey f [g] = [g] := rfl
      have hpg : p g = false := hg g (pLastGap_gapE (by simpa [restOk] using h))
      rw [h1]
      simp [List.countP_cons, hpg]
  | [], _ => rfl
  | g :: k :: t, h => by
      obtain ⟨hgE, hk, hc, ht⟩ := restOk_cons h
      have ih := countP_zero_mapGapKey f p hf hg t ht
      show (g :: f k :: mapGapKey f t).countP p = 0
      simp [List.countP_cons, ih, hg g hgE, hf k]

/-- Elements carrying a key number are key slots. -/
theorem keyNum_some_isKeyE {e : Element} {v : Nat} (h : keyNum e = some v) :
    isKeyE e = true := by
  cases e <;> first | rfl | exact Option.noConfusion h

/-! ### Invariant preservation of the tiers -/

/-- The uniform gap bump keeps the invariant (given the width bound). -/
theorem inv_bumpGap (s : BaseState) (hInv : SolverInv s)
    (hcw : currentWidthTotal (bumpGap s) ≤ s.width) : SolverInv (bumpGap s) :=
  { cw_le := hcw, npos := hInv.npos, elen := hInv.elen, shape := hInv.shape,
    fgabCnt := hInv.fgabCnt, cdeCnt := hInv.cdeCnt, dCnt := hInv.dCnt,
    bcCnt := hInv.bcCnt, efCnt := hInv.efCnt, fgabAbs := hInv.fgabAbs,
    cdeAbs := hInv.cdeAbs, cdeDone := hInv.cdeDone, bcAbs := hInv.bcAbs,
    efAbs := hInv.efAbs, outAbs := hInv.outAbs, endAbs := hInv.endAbs,
    dAbs := hInv.dAbs }

/-- The uniform key bump keeps the invariant (given the width bound). -/
theorem inv_bumpKey (s : BaseState) (hInv : SolverInv s)
    (hcw : currentWidthTotal (bumpKey s) ≤ s.width) : SolverInv (bumpKey s) :=
  { cw_le := hcw, npos := hInv.npos, elen := hInv.elen, shape := hInv.shape,
    fgabCnt := hInv.fgabCnt, cdeCnt := hInv.cdeCnt, dCnt := hInv.dCnt,
    bcCnt := hInv.bcCnt, efCnt := hInv.efCnt, fgabAbs := hInv.fgabAbs,
    cdeAbs := hInv.cdeAbs, cdeDone := hInv.cdeDone, bcAbs := hInv.bcAbs,
    efAbs := hInv.efAbs, outAbs := hInv.outAbs, endAbs := hInv.endAbs,
    dAbs := hInv.dAbs }

/-- The F,G,A,B tier keeps the invariant. -/
theorem inv_applyFgab (s : BaseState) (hInv : SolverInv s)
    (hcw : currentWidthTotal (applyFgab s) ≤ s.width) :
    SolverInv (applyFgab s) := by
  obtain ⟨g0, k1, rest, hdec, hg0, hk1, hro⟩ := hInv.shape
  have hE := elements_applyFgab s g0 k1 rest hdec hro
  have hdrop : s.elements.drop 2 = rest := by
    rw [hdec]
    rfl
  have hdrop' : (applyFgab s).elements.drop 2 = mapGapKey convFgab rest := by
    rw [hE]
    rfl
  have hle : ∀ p : Element → Bool, (∀ e, p (convFgab e) = true → p e = true) →
      (applyFgab s).elements.countP p ≤ s.elements.countP p := by
    intro p hdown
    rw [hE, hdec]
    have h1 := countP_mapGapKey_le convFgab p hdown rest
    have h2 : (if p (convFgab k1) = true then 1 else 0) ≤
        (if p k1 = true then 1 else 0) := by
      by_cases hfk : p (convFgab k1) = true
      · rw [if_pos hfk, if_pos (hdown k1 hfk)]
      · rw [if_neg hfk]
        omega
    simp only [List.countP_cons]
    omega
  have hled : ∀ p : Element → Bool, (∀ e, p (convFgab e) = true → p e = true) →
      ((applyFgab s).elements.drop 2).countP p ≤ (s.elements.drop 2).countP p := by
    intro p hdown
    rw [hdrop', hdrop]
    exact countP_mapGapKey_le convFgab p hdown rest
  have helen : (applyFgab s).elements.length = 2 * s.nr_of_white_keys + 1 := by
    have h0 := hInv.elen
    rw [hdec] at h0
    rw [hE]
    simp only [List.length_cons, length_mapGapKey] at h0 ⊢
    omega
  exact
    { cw_le := hcw
      npos := hInv.npos
      elen := helen
      shape := ⟨g0, convFgab k1, mapGapKey convFgab rest, hE, hg0,
        isKeyE_convFgab k1 hk1,
        restOk_mapGapKey convFgab keyNum_convFgab isKeyE_convFgab rest hro⟩
      fgabCnt := le_trans
        (hle pIdWFgab (convFgab_down pIdWFgab
          (by intro k hk; simp [pIdWFgab] at hk))) hInv.fgabCnt
      cdeCnt := le_trans
        (hle pIdWCde (convFgab_down pIdWCde
          (by intro k hk; simp [pIdWCde] at hk))) hInv.cdeCnt
      dCnt := le_trans
        (hled pDun (convFgab_down pDun
          (by intro k hk; simp [pDun, dMatch] at hk))) hInv.dCnt
      bcCnt := le_trans
        (hled pIdWC (convFgab_down pIdWC
          (by intro k hk; simp [pIdWC] at hk))) hInv.bcCnt
      efCnt := le_trans
        (hled pFkey (convFgab_down pFkey
          (by intro k hk; simpa [pFkey] using hk))) hInv.efCnt
      fgabAbs := fun h => Bool.noConfusion h
      cdeAbs := fun h => by
        have h1 := hle pKeyCde (convFgab_down pKeyCde
          (by intro k hk; simp [pKeyCde] at hk))
        have h0 := hInv.cdeAbs h
        omega
      cdeDone := fun h => by
        have h1 := hle pIdWCde (convFgab_down pIdWCde
          (by intro k hk; simp [pIdWCde] at hk))
        have h0 := hInv.cdeDone h
        omega
      bcAbs := fun h => by
        have h1 := hle pGapBC (convFgab_down pGapBC
          (by intro k hk; simp [pGapBC] at hk))
        have h0 := hInv.bcAbs h
        omega
      efAbs := fun h => by
        have h1 := hle pGapEF (convFgab_down pGapEF
          (by intro k hk; simp [pGapEF] at hk))
        have h0 := hInv.efAbs h
        omega
      outAbs := fun h => by
        have h1 := hle pOutG (convFgab_down pOutG
          (by intro k hk; simp [pOutG] at hk))
        have h0 := hInv.outAbs h
        omega
      endAbs := fun h => by
        have h1 := hle pEnlK (convFgab_down pEnlK
          (by intro k hk; simp [pEnlK] at hk))
        have h0 := hInv.endAbs h
        omega
      dAbs := fun h1 h2 => by
        have h3 := hle pKeyD (convFgab_down pKeyD
          (by intro k hk; simp [pKeyD] at hk))
        have h0 := hInv.dAbs h1 h2
        omega }

/-- The C,D,E tier keeps the invariant and erases all uniform C,D,E keys. -/
theorem inv_applyCde (s : BaseState) (hInv : SolverInv s)
    (hcw : currentWidthTotal (applyCde s) ≤ s.width) :
    SolverInv (applyCde s) := by
  obtain ⟨g0, k1, rest, hdec, hg0, hk1, hro⟩ := hInv.shape
  have hE := elements_applyCde s g0 k1 rest hdec hro
  have hdrop : s.elements.drop 2 = rest := by
    rw [hdec]
    rfl
  have hdrop' : (applyCde s).elements.drop 2 = mapGapKey convCde rest := by
    rw [hE]
    rfl
  have hle : ∀ p : Element → Bool, (∀ e, p (convCde e) = true → p e = true) →
      (applyCde s).elements.countP p ≤ s.elements.countP p := by
    intro p hdown
    rw [hE, hdec]
    have h1 := countP_mapGapKey_le convCde p hdown rest
    have h2 : (if p (convCde k1) = true then 1 else 0) ≤
        (if p k1 = true then 1 else 0) := by
      by_cases hfk : p (convCde k1) = true
      · rw [if_pos hfk, if_pos (hdown k1 hfk)]
      · rw [if_neg hfk]
        omega
    simp only [List.countP_cons]
    omega
  have hled : ∀ p : Element → Bool, (∀ e, p (convCde e) = true → p e = true) →
      ((applyCde s).elements.drop 2).countP p ≤ (s.elements.drop 2).countP p := by
    intro p hdown
    rw [hdrop', hdrop]
    exact countP_mapGapKey_le convCde p hdown rest
  have helen : (applyCde s).elements.length = 2 * s.nr_of_white_keys + 1 := by
    have h0 := hInv.elen
    rw [hdec] at h0
    rw [hE]
    simp only [List.length_cons, length_mapGapKey] at h0 ⊢
    omega
  have hzero : (applyCde s).elements.countP pIdWCde = 0 := by
    rw [hE]
    have hz := countP_zero_mapGapKey convCde pIdWCde pIdWCde_convCde
      (fun e he => isGapE_not_pIdWCde he) rest hro
    simp [List.countP_cons, hz, pIdWCde_convCde k1,
      isGapE_not_pIdWCde (pLastGap_gapE hg0)]
  exact
    { cw_le := hcw
      npos := hInv.npos
      elen := helen
      shape := ⟨g0, convCde k1, mapGapKey convCde rest, hE, hg0,
        isKeyE_convCde k1 hk1,
        restOk_mapGapKey convCde keyNum_convCde isKeyE_convCde rest hro⟩
      fgabCnt := le_trans
        (hle pIdWFgab (convCde_down pIdWFgab
          (by intro k hk; simp [pIdWFgab] at hk))) hInv.fgabCnt
      cdeCnt := le_trans
        (hle pIdWCde (convCde_down pIdWCde
          (by intro k hk; simp [pIdWCde] at hk))) hInv.cdeCnt
      dCnt := le_trans
        (hled pDun (convCde_down pDun
          (by intro k hk; simpa [pDun, dMatch] using hk))) hInv.dCnt
      bcCnt := le_trans
        (hled pIdWC (convCde_down pIdWC
          (by intro k hk; simp [pIdWC] at hk))) hInv.bcCnt
      efCnt := le_trans
        (hled pFkey (convCde_down pFkey
          (by intro k hk; simp [pFkey] at hk))) hInv.efCnt
      fgabAbs := fun h => by
        have h1 := hle pKeyFgab (convCde_down pKeyFgab
          (by intro k hk; simp [pKeyFgab] at hk))
        have h0 := hInv.fgabAbs h
        omega
      cdeAbs := fun h => Bool.noConfusion h
      cdeDone := fun _ => hzero
      bcAbs := fun h => by
        have h1 := hle pGapBC (convCde_down pGapBC
          (by intro k hk; simp [pGapBC] at hk))
        have h0 := hInv.bcAbs h
        omega
      efAbs := fun h => by
        have h1 := hle pGapEF (convCde_down pGapEF
          (by intro k hk; simp [pGapEF] at hk))
        have h0 := hInv.efAbs h
        omega
      outAbs := fun h => by
        have h1 := hle pOutG (convCde_down pOutG
          (by intro k hk; simp [pOutG] at hk))
        have h0 := hInv.outAbs h
        omega
      endAbs := fun h => by
        have h1 := hle pEnlK (convCde_down pEnlK
          (by intro k hk; simp [pEnlK] at hk))
        have h0 := hInv.endAbs h
        omega
      dAbs := fun h1 h2 => by
        have h3 := hle pKeyD (convCde_down pKeyD
          (by intro k hk; simp [pKeyD] at hk))
        have h0 := hInv.dAbs h1 h2
        omega }

/-- The B-C gap tier keeps the invariant. -/
theorem inv_applyBc (s : BaseState) (hInv : SolverInv s)
    (hcw : currentWidthTotal (applyBc s) ≤ s.width) :
    SolverInv (applyBc s) := by
  obtain ⟨g0, k1, rest, hdec, hg0, hk1, hro⟩ := hInv.shape
  have hE := elements_applyBc s g0 k1 rest hdec
  have hdrop : s.elements.drop 2 = rest := by
    rw [hdec]
    rfl
  have hdrop' : (applyBc s).elements.drop 2 = mapGapByKey convGapBC rest := by
    rw [hE]
    rfl
  have hle : ∀ p : Element → Bool, (∀ g k, p (convGapBC g k) = true → p g = true) →
      (applyBc s).elements.countP p ≤ s.elements.countP p := by
    intro p hdown
    rw [hE, hdec]
    have h1 := countP_mapGapByKey_le convGapBC p hdown rest
    simp only [List.countP_cons]
    omega
  have hled : ∀ p : Element → Bool, (∀ g k, p (convGapBC g k) = true → p g = true) →
      ((applyBc s).elements.drop 2).countP p ≤ (s.elements.drop 2).countP p := by
    intro p hdown
    rw [hdrop', hdrop]
    exact countP_mapGapByKey_le convGapBC p hdown rest
  have helen : (applyBc s).elements.length = 2 * s.nr_of_white_keys + 1 := by
    have h0 := hInv.elen
    rw [hdec] at h0
    rw [hE]
    simp only [List.length_cons, length_mapGapByKey] at h0 ⊢
    omega
  exact
    { cw_le := hcw
      npos := hInv.npos
      elen := helen
      shape := ⟨g0, k1, mapGapByKey convGapBC rest, hE, hg0, hk1,
        restOk_mapGapByKey convGapBC isGapE_convGapBC compat_convGapBC rest hro⟩
      fgabCnt := le_trans (hle pIdWFgab (convGapBC_down pIdWFgab rfl)) hInv.fgabCnt
      cdeCnt := le_trans (hle pIdWCde (convGapBC_down pIdWCde rfl)) hInv.cdeCnt
      dCnt := le_trans (hled pDun (convGapBC_down pDun rfl)) hInv.dCnt
      bcCnt := le_trans (hled pIdWC (convGapBC_down pIdWC rfl)) hInv.bcCnt
      efCnt := le_trans (hled pFkey (convGapBC_down pFkey rfl)) hInv.efCnt
      fgabAbs := fun h => by
        have h1 := hle pKeyFgab (convGapBC_down pKeyFgab rfl)
        have h0 := hInv.fgabAbs h
        omega
      cdeAbs := fun h => by
        have h1 := hle pKeyCde (convGapBC_down pKeyCde rfl)
        have h0 := hInv.cdeAbs h
        omega
      cdeDone := fun h => by
        have h1 := hle pIdWCde (convGapBC_down pIdWCde rfl)
        have h0 := hInv.cdeDone h
        omega
      bcAbs := fun h => Bool.noConfusion h
      efAbs := fun h => by
        have h1 := hle pGapEF (convGapBC_down pGapEF rfl)
        have h0 := hInv.efAbs h
        omega
      outAbs := fun h => by
        have h1 := hle pOutG (convGapBC_down pOutG rfl)
        have h0 := hInv.outAbs h
        omega
      endAbs := fun h => by
        have h1 := hle pEnlK (convGapBC_down pEnlK rfl)
        have h0 := hInv.endAbs h
        omega
      dAbs := fun h1 h2 => by
        have h3 := hle pKeyD (convGapBC_down pKeyD rfl)
        have h0 := hInv.dAbs h1 h2
        omega }

/-- The E-F gap tier keeps the invariant. -/
theorem inv_applyEf (s : BaseState) (hInv : SolverInv s)
    (hcw : currentWidthTotal (applyEf s) ≤ s.width) :
    SolverInv (applyEf s) := by
  obtain ⟨g0, k1, rest, hdec, hg0, hk1, hro⟩ := hInv.shape
  have hE := elements_applyEf s g0 k1 rest hdec
  have hdrop : s.elements.drop 2 = rest := by
    rw [hdec]
    rfl
  have hdrop' : (applyEf s).elements.drop 2 = mapGapByKey convGapEF rest := by
    rw [hE]
    rfl
  have hle : ∀ p : Element → Bool, (∀ g k, p (convGapEF g k) = true → p g = true) →
      (applyEf s).elements.countP p ≤ s.elements.countP p := by
    intro p hdown
    rw [hE, hdec]
    have h1 := countP_mapGapByKey_le convGapEF p hdown rest
    simp only [List.countP_cons]
    omega
  have hled : ∀ p : Element → Bool, (∀ g k, p (convGapEF g k) = true → p g = true) →
      ((applyEf s).elements.drop 2).countP p ≤ (s.elements.drop 2).countP p := by
    intro p hdown
    rw [hdrop', hdrop]
    exact countP_mapGapByKey_le convGapEF p hdown rest
  have helen : (applyEf s).elements.length = 2 * s.nr_of_white_keys + 1 := by
    have h0 := hInv.elen
    rw [hdec] at h0
    rw [hE]
    simp only [List.length_cons, length_mapGapByKey] at h0 ⊢
    omega
  exact
    { cw_le := hcw
      npos := hInv.npos
      elen := helen
      shape := ⟨g0, k1, mapGapByKey convGapEF rest, hE, hg0, hk1,
        restOk_mapGapByKey convGapEF isGapE_convGapEF compat_convGapEF rest hro⟩
      fgabCnt := le_trans (hle pIdWFgab (convGapEF_down pIdWFgab rfl)) hInv.fgabCnt
      cdeCnt := le_trans (hle pIdWCde (convGapEF_down pIdWCde rfl)) hInv.cdeCnt
      dCnt := le_trans (hled pDun (convGapEF_down pDun rfl)) hInv.dCnt
      bcCnt := le_trans (hled pIdWC (convGapEF_down pIdWC rfl)) hInv.bcCnt
      efCnt := le_trans (hled pFkey (convGapEF_down pFkey rfl)) hInv.efCnt
      fgabAbs := fun h => by
        have h1 := hle pKeyFgab (convGapEF_down pKeyFgab rfl)
        have h0 := hInv.fgabAbs h
        omega
      cdeAbs := fun h => by
        have h1 := hle pKeyCde (convGapEF_down pKeyCde rfl)
        have h0 := hInv.cdeAbs h
        omega
      cdeDone := fun h => by
        have h1 := hle pIdWCde (convGapEF_down pIdWCde rfl)
        have h0 := hInv.cdeDone h
        omega
      bcAbs := fun h => by
        have h1 := hle pGapBC (convGapEF_down pGapBC rfl)
        have h0 := hInv.bcAbs h
        omega
      efAbs := fun h => Bool.noConfusion h
      outAbs := fun h => by
        have h1 := hle pOutG (convGapEF_down pOutG rfl)
        have h0 := hInv.outAbs h
        omega
      endAbs := fun h => by
        have h1 := hle pEnlK (convGapEF_down pEnlK rfl)
        have h0 := hInv.endAbs h
        omega
      dAbs := fun h1 h2 => by
        have h3 := hle pKeyD (convGapEF_down pKeyD rfl)
        have h0 := hInv.dAbs h1 h2
        omega }

/-- The D tier keeps the invariant. -/
theorem inv_applyD (s : BaseState) (hInv : SolverInv s)
    (hcw : currentWidthTotal (applyD s) ≤ s.width) :
    SolverInv (applyD s) := by
  obtain ⟨g0, k1, rest, hdec, hg0, hk1, hro⟩ := hInv.shape
  have hE := elements_applyD s g0 k1 rest hdec
  have hdrop : s.elements.drop 2 = rest := by
    rw [hdec]
    rfl
  have hdrop' : (applyD s).elements.drop 2 = mapGapKey convD rest := by
    rw [hE]
    rfl
  have hle : ∀ p : Element → Bool, (∀ e, p (convD e) = true → p e = true) →
      (applyD s).elements.countP p ≤ s.elements.countP p := by
    intro p hdown
    rw [hE, hdec]
    have h1 := countP_mapGapKey_le convD p hdown rest
    simp only [List.countP_cons]
    omega
  have hled : ∀ p : Element → Bool, (∀ e, p (convD e) = true → p e = true) →
      ((applyD s).elements.drop 2).countP p ≤ (s.elements.drop 2).countP p := by
    intro p hdown
    rw [hdrop', hdrop]
    exact countP_mapGapKey_le convD p hdown rest
  have helen : (applyD s).elements.length = 2 * s.nr_of_white_keys + 1 := by
    have h0 := hInv.elen
    rw [hdec] at h0
    rw [hE]
    simp only [List.length_cons, length_mapGapKey] at h0 ⊢
    omega
  exact
    { cw_le := hcw
      npos := hInv.npos
      elen := helen
      shape := ⟨g0, k1, mapGapKey convD rest, hE, hg0, hk1,
        restOk_mapGapKey convD keyNum_convD isKeyE_convD rest hro⟩
      fgabCnt := le_trans
        (hle pIdWFgab (convD_down pIdWFgab (fun k => rfl))) hInv.fgabCnt
      cdeCnt := le_trans
        (hle pIdWCde (convD_down pIdWCde (fun k => rfl))) hInv.cdeCnt
      dCnt := le_trans (hled pDun (convD_down pDun (fun k => rfl))) hInv.dCnt
      bcCnt := le_trans (hled pIdWC (convD_down pIdWC (fun k => rfl))) hInv.bcCnt
      efCnt := le_trans (hled pFkey (convD_down pFkey (fun k => rfl))) hInv.efCnt
      fgabAbs := fun h => by
        have h1 := hle pKeyFgab (convD_down pKeyFgab (fun k => rfl))
        have h0 := hInv.fgabAbs h
        omega
      cdeAbs := fun h => by
        have h1 := hle pKeyCde (convD_down pKeyCde (fun k => rfl))
        have h0 := hInv.cdeAbs h
        omega
      cdeDone := fun h => by
        have h1 := hle pIdWCde (convD_down pIdWCde (fun k => rfl))
        have h0 := hInv.cdeDone h
        omega
      bcAbs := fun h => by
        have h1 := hle pGapBC (convD_down pGapBC (fun k => rfl))
        have h0 := hInv.bcAbs h
        omega
      efAbs := fun h => by
        have h1 := hle pGapEF (convD_down pGapEF (fun k => rfl))
        have h0 := hInv.efAbs h
        omega
      outAbs := fun h => by
        have h1 := hle pOutG (convD_down pOutG (fun k => rfl))
        have h0 := hInv.outAbs h
        omega
      endAbs := fun h => by
        have h1 := hle pEnlK (convD_down pEnlK (fun k => rfl))
        have h0 := hInv.endAbs h
        omega
      dAbs := fun h1 _ => Bool.noConfusion h1 }

/-- The alternating-D tier keeps the invariant. -/
theorem inv_applyAltD (s : BaseState) (d : Nat) (hInv : SolverInv s)
    (hcw : currentWidthTotal (applyAltD s d) ≤ s.width) :
    SolverInv (applyAltD s d) := by
  obtain ⟨g0, k1, rest, hdec, hg0, hk1, hro⟩ := hInv.shape
  have hE := elements_applyAltD s d g0 k1 rest hdec
  have hdrop : s.elements.drop 2 = rest := by
    rw [hdec]
    rfl
  have hdrop' : (applyAltD s d).elements.drop 2 =
      altDGo (decide (d = s.nr_of_d / 2)) rest := by
    rw [hE]
    rfl
  have hle : ∀ p : Element → Bool, (∀ key, p (Element.KeyD key) = false) →
      (applyAltD s d).elements.countP p ≤ s.elements.countP p := by
    intro p hp
    rw [hE, hdec]
    have h1 := countP_altDGo_le p hp (decide (d = s.nr_of_d / 2)) rest
    simp only [List.countP_cons]
    omega
  have hled : ∀ p : Element → Bool, (∀ key, p (Element.KeyD key) = false) →
      ((applyAltD s d).elements.drop 2).countP p ≤
        (s.elements.drop 2).countP p := by
    intro p hp
    rw [hdrop', hdrop]
    exact countP_altDGo_le p hp (decide (d = s.nr_of_d / 2)) rest
  have helen : (applyAltD s d).elements.length = 2 * s.nr_of_white_keys + 1 := by
    have h0 := hInv.elen
    rw [hdec] at h0
    rw [hE]
    simp only [List.length_cons] at h0 ⊢
    rw [length_altDGo]
    omega
  exact
    { cw_le := hcw
      npos := hInv.npos
      elen := helen
      shape := ⟨g0, k1, altDGo (decide (d = s.nr_of_d / 2)) rest, hE, hg0, hk1,
        restOk_altDGo (decide (d = s.nr_of_d / 2)) rest hro⟩
      fgabCnt := le_trans (hle pIdWFgab (fun k => rfl)) hInv.fgabCnt
      cdeCnt := le_trans (hle pIdWCde (fun k => rfl)) hInv.cdeCnt
      dCnt := le_trans (hled pDun (fun k => rfl)) hInv.dCnt
      bcCnt := le_trans (hled pIdWC (fun k => rfl)) hInv.bcCnt
      efCnt := le_trans (hled pFkey (fun k => rfl)) hInv.efCnt
      fgabAbs := fun h => by
        have h1 := hle pKeyFgab (fun k => rfl)
        have h0 := hInv.fgabAbs h
        omega
      cdeAbs := fun h => by
        have h1 := hle pKeyCde (fun k => rfl)
        have h0 := hInv.cdeAbs h
        omega
      cdeDone := fun h => by
        have h1 := hle pIdWCde (fun k => rfl)
        have h0 := hInv.cdeDone h
        omega
      bcAbs := fun h => by
        have h1 := hle pGapBC (fun k => rfl)
        have h0 := hInv.bcAbs h
        omega
      efAbs := fun h => by
        have h1 := hle pGapEF (fun k => rfl)
        have h0 := hInv.efAbs h
        omega
      outAbs := fun h => by
        have h1 := hle pOutG (fun k => rfl)
        have h0 := hInv.outAbs h
        omega
      endAbs := fun h => by
        have h1 := hle pEnlK (fun k => rfl)
        have h0 := hInv.endAbs h
        omega
      dAbs := fun _ h2 => Bool.noConfusion h2 }

/-- The outer-gap tier keeps the invariant. -/
theorem inv_applyOuterGaps (s : BaseState) (d : Nat) (hInv : SolverInv s)
    (hcw : currentWidthTotal (applyOuterGaps s d) ≤ s.width) :
    SolverInv (applyOuterGaps s d) := by
  obtain ⟨g0, k1, rest, hdec, hg0, hk1, hro⟩ := hInv.shape
  have hpos : 0 < rest.length := List.length_pos.mpr (restOk_ne_nil hro)
  have hE0 : (applyOuterGaps s d).elements =
      (if d % 2 = 0 then
        ((s.elements.set 0 Element.OutterGap).set
          ((s.elements.set 0 Element.OutterGap).length - 1) Element.OutterGap)
      else s.elements.set 0 Element.OutterGap) := rfl
  have hset0 : s.elements.set 0 Element.OutterGap =
      Element.OutterGap :: k1 :: rest := by
    rw [hdec]
    rfl
  have hset1 : (s.elements.set 0 Element.OutterGap).set
      ((s.elements.set 0 Element.OutterGap).length - 1) Element.OutterGap =
      Element.OutterGap :: k1 :: rest.set (rest.length - 1) Element.OutterGap := by
    rw [hset0]
    have hidx : (Element.OutterGap :: k1 :: rest).length - 1 =
        (rest.length - 1) + 1 + 1 := by
      simp only [List.length_cons]
      omega
    rw [hidx, List.set_cons_succ, List.set_cons_succ]
  have hE : (applyOuterGaps s d).elements =
      Element.OutterGap :: k1 ::
        (if d % 2 = 0 then rest.set (rest.length - 1) Element.OutterGap
         else rest) := by
    rw [hE0]
    by_cases hpar : d % 2 = 0
    · rw [if_pos hpar, if_pos hpar, hset1]
    · rw [if_neg hpar, if_neg hpar, hset0]
  have hro' : restOk (if d % 2 = 0 then
      rest.set (rest.length - 1) Element.OutterGap else rest) = true := by
    by_cases hpar : d % 2 = 0
    · rw [if_pos hpar]
      exact restOk_set_last rest hro
    · rw [if_neg hpar]
      exact hro
  have hlen' : (if d % 2 = 0 then
      rest.set (rest.length - 1) Element.OutterGap else rest).length =
      rest.length := by
    by_cases hpar : d % 2 = 0
    · rw [if_pos hpar, List.length_set]
    · rw [if_neg hpar]
  have hcnt' : ∀ p : Element → Bool, p Element.OutterGap = false →
      (if d % 2 = 0 then
        rest.set (rest.length - 1) Element.OutterGap else rest).countP p ≤
        rest.countP p := by
    intro p hp
    by_cases hpar : d % 2 = 0
    · rw [if_pos hpar]
      exact countP_set_le p rest (rest.length - 1) Element.OutterGap hp
    · rw [if_neg hpar]
  have hdrop : s.elements.drop 2 = rest := by
    rw [hdec]
    rfl
  have hdrop' : (applyOuterGaps s d).elements.drop 2 =
      (if d % 2 = 0 then rest.set (rest.length - 1) Element.OutterGap
       else rest) := by
    rw [hE]
    rfl
  have hle : ∀ p : Element → Bool, p Element.OutterGap = false →
      (applyOuterGaps s d).elements.countP p ≤ s.elements.countP p := by
    intro p hp
    rw [hE, hdec]
    have h1 := hcnt' p hp
    have hz : (if p Element.OutterGap = true then 1 else 0) = 0 := by
      rw [hp]
      rfl
    simp only [List.countP_cons]
    omega
  have hled : ∀ p : Element → Bool, p Element.OutterGap = false →
      ((applyOuterGaps s d).elements.drop 2).countP p ≤
        (s.elements.drop 2).countP p := by
    intro p hp
    rw [hdrop', hdrop]
    exact hcnt' p hp
  have helen : (applyOuterGaps s d).elements.length =
      2 * s.nr_of_white_keys + 1 := by
    have h0 := hInv.elen
    rw [hdec] at h0
    rw [hE]
    simp only [List.length_cons, hlen'] at h0 ⊢
    omega
  exact
    { cw_le := hcw
      npos := hInv.npos
      elen := helen
      shape := ⟨Element.OutterGap, k1,
        (if d % 2 = 0 then rest.set (rest.length - 1) Element.OutterGap
         else rest), hE, rfl, hk1, hro'⟩
      fgabCnt := le_trans (hle pIdWFgab rfl) hInv.fgabCnt
      cdeCnt := le_trans (hle pIdWCde rfl) hInv.cdeCnt
      dCnt := le_trans (hled pDun rfl) hInv.dCnt
      bcCnt := le_trans (hled pIdWC rfl) hInv.bcCnt
      efCnt := le_trans (hled pFkey rfl) hInv.efCnt
      fgabAbs := fun h => by
        have h1 := hle pKeyFgab rfl
        have h0 := hInv.fgabAbs h
        omega
      cdeAbs := fun h => by
        have h1 := hle pKeyCde rfl
        have h0 := hInv.cdeAbs h
        omega
      cdeDone := fun h => by
        have h1 := hle pIdWCde rfl
        have h0 := hInv.cdeDone h
        omega
      bcAbs := fun h => by
        have h1 := hle pGapBC rfl
        have h0 := hInv.bcAbs h
        omega
      efAbs := fun h => by
        have h1 := hle pGapEF rfl
        have h0 := hInv.efAbs h
        omega
      outAbs := fun h => Bool.noConfusion h
      endAbs := fun h => by
        have h1 := hle pEnlK rfl
        have h0 := hInv.endAbs h
        omega
      dAbs := fun h1 h2 => by
        have h3 := hle pKeyD rfl
        have h0 := hInv.dAbs h1 h2
        omega }

/-- The end-key tier keeps the invariant. -/
theorem inv_applyEndKeys (s s' : BaseState) (hInv : SolverInv s)
    (hfl : s.end_keys_enlarged = false) (h : applyEndKeys s = some s')
    (hcw : currentWidthTotal s' ≤ s.width) : SolverInv s' := by
  obtain ⟨e1, p1, e2, p2, hg1, hc1, hg2, hc2, hs'⟩ := applyEndKeys_inv h
  obtain ⟨g0, k1, rest, hdec, hg0, hk1, hro⟩ := hInv.shape
  have habs := hInv.endAbs hfl
  have he1m : e1 ∈ s.elements := List.get?_mem hg1
  have he1 : pEnlK e1 = false := countP_zero_mem habs he1m
  obtain ⟨⟨key1, hkn1, hp11⟩, hp12⟩ := endLeftConv_inv hc1 he1
  have hpos : 0 < rest.length := List.length_pos.mpr (restOk_ne_nil hro)
  have hL : s.elements.length = rest.length + 2 := by
    rw [hdec]
    simp
  have h2le : 2 ≤ rest.length := by
    by_contra hlt
    have hidx1 : s.elements.length - 2 = 1 := by omega
    rw [hidx1, hdec] at hg2
    have he2eq : some p1.1 = some e2 := hg2
    injection he2eq with he2eq'
    rw [← he2eq', hp11] at hc2
    exact Option.noConfusion hc2
  obtain ⟨m, hm⟩ : ∃ m, rest.length = m + 2 := ⟨rest.length - 2, by omega⟩
  have hidx : s.elements.length - 2 = m + 2 := by omega
  rw [hidx, hdec] at hg2
  have hg2' : rest.get? m = some e2 := hg2
  have he2m : e2 ∈ s.elements := by
    rw [hdec]
    exact List.mem_cons_of_mem _ (List.mem_cons_of_mem _ (List.get?_mem hg2'))
  have he2 : pEnlK e2 = false := countP_zero_mem habs he2m
  obtain ⟨⟨key2, hkn2, hp21⟩, hp22⟩ := endRightConv_inv hc2 he2
  have hE : s'.elements = g0 :: p1.1 :: rest.set m p2.1 := by
    rw [hs', hidx, hdec]
    rfl
  have hro'' : restOk (rest.set m p2.1) = true :=
    restOk_set_key rest m e2 p2.1 hro hg2' (keyNum_some_isKeyE hkn2)
      (by rw [hp21]; rfl) (by rw [hp21, hkn2]; rfl)
  have hdrop : s.elements.drop 2 = rest := by
    rw [hdec]
    rfl
  have hdrop' : s'.elements.drop 2 = rest.set m p2.1 := by
    rw [hE]
    rfl
  have hle : ∀ p : Element → Bool, p p1.1 = false → p p2.1 = false →
      s'.elements.countP p ≤ s.elements.countP p := by
    intro p h1 h2
    rw [hE, hdec]
    have h3 := countP_set_le p rest m p2.1 h2
    have hz : (if p p1.1 = true then 1 else 0) = 0 := by
      rw [h1]
      rfl
    simp only [List.countP_cons]
    omega
  have hled : ∀ p : Element → Bool, p p2.1 = false →
      (s'.elements.drop 2).countP p ≤ (s.elements.drop 2).countP p := by
    intro p h2
    rw [hdrop', hdrop]
    exact countP_set_le p rest m p2.1 h2
  have helen : s'.elements.length = 2 * s.nr_of_white_keys + 1 := by
    have h0 := hInv.elen
    rw [hdec] at h0
    rw [hE]
    simp only [List.length_cons, List.length_set] at h0 ⊢
    omega
  have hflags : s'.end_keys_enlarged = true ∧
      s'.fgab_keys_enlarged = s.fgab_keys_enlarged ∧
      s'.cde_keys_enlarged = s.cde_keys_enlarged ∧
      s'.bc_gaps_enlarged = s.bc_gaps_enlarged ∧
      s'.ef_gaps_enlarged = s.ef_gaps_enlarged ∧
      s'.outter_gaps_enlarged = s.outter_gaps_enlarged ∧
      s'.d_key_enlarged = s.d_key_enlarged ∧
      s'.alternating_d_key_enlarged = s.alternating_d_key_enlarged := by
    rw [hs']
    exact ⟨rfl, rfl, rfl, rfl, rfl, rfl, rfl, rfl⟩
  have hwidth : s'.width = s.width := by
    rw [hs']
  have hnr : s'.nr_of_white_keys = s.nr_of_white_keys ∧
      s'.nr_of_f = s.nr_of_f ∧ s'.nr_of_g = s.nr_of_g ∧
      s'.nr_of_a = s.nr_of_a ∧ s'.nr_of_b = s.nr_of_b ∧
      s'.nr_of_c = s.nr_of_c ∧ s'.nr_of_d = s.nr_of_d ∧
      s'.nr_of_e = s.nr_of_e ∧ s'.nr_of_bc_gaps = s.nr_of_bc_gaps ∧
      s'.nr_of_ef_gaps = s.nr_of_ef_gaps := by
    rw [hs']
    exact ⟨rfl, rfl, rfl, rfl, rfl, rfl, rfl, rfl, rfl, rfl⟩
  refine
    { cw_le := by rw [hwidth]; exact hcw
      npos := by rw [hnr.1]; exact hInv.npos
      elen := by rw [hnr.1]; exact helen
      shape := ⟨g0, p1.1, rest.set m p2.1, hE, hg0, by rw [hp11]; rfl, hro''⟩
      fgabCnt := ?_
      cdeCnt := ?_
      dCnt := ?_
      bcCnt := ?_
      efCnt := ?_
      fgabAbs := ?_
      cdeAbs := ?_
      cdeDone := ?_
      bcAbs := ?_
      efAbs := ?_
      outAbs := ?_
      endAbs := ?_
      dAbs := ?_ }
  · rw [hnr.2.1, hnr.2.2.1, hnr.2.2.2.1, hnr.2.2.2.2.1]
    exact le_trans (hle pIdWFgab (by rw [hp11]; rfl) (by rw [hp21]; rfl))
      hInv.fgabCnt
  · rw [hnr.2.2.2.2.2.1, hnr.2.2.2.2.2.2.1, hnr.2.2.2.2.2.2.2.1]
    exact le_trans (hle pIdWCde (by rw [hp11]; rfl) (by rw [hp21]; rfl))
      hInv.cdeCnt
  · rw [hnr.2.2.2.2.2.2.1]
    exact le_trans (hled pDun (by rw [hp21]; rfl)) hInv.dCnt
  · rw [hnr.2.2.2.2.2.2.2.2.1]
    exact le_trans (hled pIdWC (by rw [hp21]; rfl)) hInv.bcCnt
  · rw [hnr.2.2.2.2.2.2.2.2.2]
    exact le_trans (hled pFkey (by rw [hp21]; rfl)) hInv.efCnt
  · intro hf
    rw [hflags.2.1] at hf
    have h1 := hle pKeyFgab (by rw [hp11]; rfl) (by rw [hp21]; rfl)
    have h0 := hInv.fgabAbs hf
    omega
  · intro hf
    rw [hflags.2.2.1] at hf
    have h1 := hle pKeyCde (by rw [hp11]; rfl) (by rw [hp21]; rfl)
    have h0 := hInv.cdeAbs hf
    omega
  · intro hf
    rw [hflags.2.2.1] at hf
    have h1 := hle pIdWCde (by rw [hp11]; rfl) (by rw [hp21]; rfl)
    have h0 := hInv.cdeDone hf
    omega
  · intro hf
    rw [hflags.2.2.2.1] at hf
    have h1 := hle pGapBC (by rw [hp11]; rfl) (by rw [hp21]; rfl)
    have h0 := hInv.bcAbs hf
    omega
  · intro hf
    rw [hflags.2.2.2.2.1] at hf
    have h1 := hle pGapEF (by rw [hp11]; rfl) (by rw [hp21]; rfl)
    have h0 := hInv.efAbs hf
    omega
  · intro hf
    rw [hflags.2.2.2.2.2.1] at hf
    have h1 := hle pOutG (by rw [hp11]; rfl) (by rw [hp21]; rfl)
    have h0 := hInv.outAbs hf
    omega
  · intro hf
    rw [hflags.1] at hf
    exact Bool.noConfusion hf
  · intro hf1 hf2
    rw [hflags.2.2.2.2.2.2.1] at hf1
    rw [hflags.2.2.2.2.2.2.2] at hf2
    have h1 := hle pKeyD (by rw [hp11]; rfl) (by rw [hp21]; rfl)
    have h0 := hInv.dAbs hf1 hf2
    omega

/-- Inversion for an over-wide abort: it only fires when the accumulated
width already exceeds the target. -/
theorem stepB_overwide {last : Nat} {s s0 : BaseState}
    (h : stepB last s = .overwide s0) :
    s.width < currentWidthTotal s := by
  unfold stepB at h
  by_cases h1 : s.width < currentWidthTotal s
  · exact h1
  · rw [if_neg h1] at h
    by_cases h2 : s.width - currentWidthTotal s = 0
    · rw [if_pos h2] at h
      exact StepRes.noConfusion h
    · rw [if_neg h2] at h
      by_cases h3 : s.width - currentWidthTotal s = last
      · rw [if_pos h3] at h
        exact StepRes.noConfusion h
      · rw [if_neg h3] at h
        by_cases h4 : s.width - currentWidthTotal s = s.nr_of_white_keys + 1
        · rw [if_pos h4] at h
          exact StepRes.noConfusion h
        · rw [if_neg h4] at h
          by_cases h5 : s.width - currentWidthTotal s = s.nr_of_white_keys
          · rw [if_pos h5] at h
            exact StepRes.noConfusion h
          · rw [if_neg h5] at h
            by_cases h6 : s.nr_of_white_keys + 1 ≤ s.width - currentWidthTotal s ∧ ((s.width - currentWidthTotal s - s.nr_of_white_keys - 1) % s.nr_of_cde ≤ 4 ∨ (s.width - currentWidthTotal s - s.nr_of_white_keys - 1) % s.nr_of_fgab ≤ 4)
            · rw [if_pos h6] at h
              exact StepRes.noConfusion h
            · rw [if_neg h6] at h
              by_cases h7 : s.nr_of_white_keys ≤ s.width - currentWidthTotal s ∧ ((s.width - currentWidthTotal s - s.nr_of_white_keys) % s.nr_of_cde ≤ 4 ∨ (s.width - currentWidthTotal s - s.nr_of_white_keys) % s.nr_of_fgab ≤ 4)
              · rw [if_pos h7] at h
                exact StepRes.noConfusion h
              · rw [if_neg h7] at h
                by_cases h8 : s.nr_of_f + s.nr_of_g + s.nr_of_a + s.nr_of_b ≤ s.width - currentWidthTotal s ∧ s.fgab_keys_enlarged = false
                · rw [if_pos h8] at h
                  exact StepRes.noConfusion h
                · rw [if_neg h8] at h
                  by_cases h9 : s.nr_of_c + s.nr_of_d + s.nr_of_e ≤ s.width - currentWidthTotal s ∧ s.cde_keys_enlarged = false
                  · rw [if_pos h9] at h
                    exact StepRes.noConfusion h
                  · rw [if_neg h9] at h
                    by_cases h10 : s.nr_of_bc_gaps ≤ s.width - currentWidthTotal s ∧ s.bc_gaps_enlarged = false
                    · rw [if_pos h10] at h
                      exact StepRes.noConfusion h
                    · rw [if_neg h10] at h
                      by_cases h11 : s.nr_of_ef_gaps ≤ s.width - currentWidthTotal s ∧ s.ef_gaps_enlarged = false
                      · rw [if_pos h11] at h
                        exact StepRes.noConfusion h
                      · rw [if_neg h11] at h
                        by_cases h12 : s.nr_of_d ≤ s.width - currentWidthTotal s ∧ s.d_key_enlarged = false ∧ s.alternating_d_key_enlarged = false
                        · rw [if_pos h12] at h
                          exact StepRes.noConfusion h
                        · rw [if_neg h12] at h
                          by_cases h13 : s.width - currentWidthTotal s ≤ 4 ∧ s.outter_gaps_enlarged = false
                          · rw [if_pos h13] at h
                            exact StepRes.noConfusion h
                          · rw [if_neg h13] at h
                            by_cases h14 : s.width - currentWidthTotal s = 2 ∧ s.end_keys_enlarged = false
                            · rw [if_pos h14] at h
                              rcases hm : applyEndKeys s with _ | s1 <;> rw [hm] at h <;> exact StepRes.noConfusion h
                            · rw [if_neg h14] at h
                              by_cases h15 : s.nr_of_d / 2 ≤ s.width - currentWidthTotal s ∧ s.d_key_enlarged = false ∧ s.alternating_d_key_enlarged = false
                              · rw [if_pos h15] at h
                                exact StepRes.noConfusion h
                              · rw [if_neg h15] at h
                                exact StepRes.noConfusion h

/-- Prepending a tier to a trace does not change the over-wide flag. -/
theorem isOverwide_cons (t : Tier) (o : SolveOut) :
    isOverwide (SolveOut.cons t o) = isOverwide o := by
  cases o <;> rfl

/-- A solver step taken from an invariant state keeps the invariant: every
tier adds at most the current shortfall to the accumulated width. -/
theorem stepB_next_inv {last : Nat} {s s' : BaseState} {d : Nat} {t : Tier}
    (hInv : SolverInv s) (h : stepB last s = .next s' d t) : SolverInv s' := by
  obtain ⟨hcw0, hd, hdne, hbr⟩ := stepB_next_cases h
  obtain ⟨g0, k1, rest, hdec, hg0, hk1, hro⟩ := hInv.shape
  have hlenr : rest.length + 2 = 2 * s.nr_of_white_keys + 1 := by
    have h0 := hInv.elen
    rw [hdec] at h0
    simpa using h0
  have hgapCnt : s.elements.countP pIdGap ≤ s.nr_of_white_keys + 1 := by
    have hone : (if pIdGap g0 = true then 1 else 0) ≤ 1 := by split <;> omega
    have hz : (if pIdGap k1 = true then 1 else 0) = 0 := by
      rw [show pIdGap k1 = false from by cases k1 <;> simp_all [isKeyE, pIdGap]]
      rfl
    have hcg := countP_restOk_gap pIdGap
      (fun e he => by cases e <;> simp_all [pIdGap, isGapE]) rest hro
    rw [hdec]
    simp only [List.countP_cons]
    omega
  have hkeyCnt : s.elements.countP pIdW ≤ s.nr_of_white_keys := by
    have hone : (if pIdW k1 = true then 1 else 0) ≤ 1 := by split <;> omega
    have hz : (if pIdW g0 = true then 1 else 0) = 0 := by
      rw [show pIdW g0 = false from by
        have := pLastGap_gapE hg0
        cases g0 <;> simp_all [isGapE, pIdW]]
      rfl
    have hck := countP_restOk_key pIdW
      (fun e he => by cases e <;> simp_all [pIdW, isKeyE]) rest hro
    rw [hdec]
    simp only [List.countP_cons]
    omega
  rcases hbr with ⟨ht, hdd, rfl⟩ | ⟨ht, hdd, rfl⟩ | ⟨ht, hdd, rfl⟩ |
    ⟨ht, hdd, rfl⟩ | ⟨ht, hdd, hfl, rfl⟩ | ⟨ht, hdd, hfl, rfl⟩ |
    ⟨ht, hdd, hfl, rfl⟩ | ⟨ht, hdd, hfl, rfl⟩ | ⟨ht, hdd, hf1, hf2, rfl⟩ |
    ⟨ht, hdd, hfl, rfl⟩ | ⟨ht, hdd, hfl, hsome⟩ | ⟨ht, hdd, hf1, hf2, rfl⟩ |
    ⟨ht, rfl⟩
  · exact inv_bumpGap s hInv (by have := cw_bumpGap s; omega)
  · exact inv_bumpKey s hInv (by have := cw_bumpKey s; omega)
  · exact inv_bumpGap s hInv (by have := cw_bumpGap s; omega)
  · exact inv_bumpKey s hInv (by have := cw_bumpKey s; omega)
  · exact inv_applyFgab s hInv (by
      have hacc := cw_applyFgab s hInv hfl
      have hcnt := hInv.fgabCnt
      omega)
  · exact inv_applyCde s hInv (by
      have hacc := cw_applyCde s hInv hfl
      have hcnt := hInv.cdeCnt
      omega)
  · exact inv_applyBc s hInv (by
      have hacc := cw_applyBc s hInv hfl
      have hcnt := hInv.bcCnt
      omega)
  · exact inv_applyEf s hInv (by
      have hacc := cw_applyEf s hInv hfl
      have hcnt := hInv.efCnt
      omega)
  · exact inv_applyD s hInv (by
      have hacc := cw_applyD s hInv hf1 hf2
      have hcnt := hInv.dCnt
      omega)
  · exact inv_applyOuterGaps s d hInv (by
      have hacc := cw_applyOuterGaps s d hInv hfl
      by_cases hpar : d % 2 = 0
      · rw [if_pos hpar] at hacc
        omega
      · rw [if_neg hpar] at hacc
        omega)
  · exact inv_applyEndKeys s s' hInv hfl hsome (by
      have hacc := cw_applyEndKeys s s' hInv hfl hsome
      omega)
  · exact inv_applyAltD s d hInv (by
      have hacc := cw_applyAltD s d hInv hf1 hf2
      have hcl := altDCnt_le (decide (d = s.nr_of_d / 2)) (s.elements.drop 2)
      have hdc := hInv.dCnt
      by_cases hb : d = s.nr_of_d / 2
      · rw [decide_eq_true hb] at hacc hcl
        have hif : (if (true : Bool) = true then (0 : Nat) else 1) = 0 := rfl
        rw [hif] at hcl
        omega
      · rw [decide_eq_false hb] at hacc hcl
        have hif : (if (false : Bool) = true then (0 : Nat) else 1) = 1 := rfl
        rw [hif] at hcl
        omega)
  · exact hInv

/-- The solver loop never aborts over-wide from an invariant state. -/
theorem solveLoop_no_overwide :
    ∀ (fuel last : Nat) (s : BaseState), SolverInv s →
      isOverwide (solveLoop fuel last s) = false
  | 0, _, _, _ => rfl
  | fuel + 1, last, s, hInv => by
      unfold solveLoop
      cases hst : stepB last s with
      | done s0 => rfl
      | stalled s0 => rfl
      | panicked s0 => rfl
      | overwide s0 =>
          have h1 := stepB_overwide hst
          have h2 := hInv.cw_le
          omega
      | next s1 d1 t1 =>
          simp only []
          rw [isOverwide_cons]
          exact solveLoop_no_overwide fuel d1 s1 (stepB_next_inv hInv hst)

/-! ### Counter facts of the seeding pass -/

/-- The C counter counts exactly the C-class keys seen. -/
theorem countStep_nr_c (a : CountAcc) (k : Nat) :
    (countStep a k).nr_of_c =
      a.nr_of_c + (if decide (k % 12 = 0) = true then 1 else 0) := by
  have h12 : k % 12 = 0 ∨ k % 12 = 1 ∨ k % 12 = 2 ∨ k % 12 = 3 ∨ k % 12 = 4 ∨
      k % 12 = 5 ∨ k % 12 = 6 ∨ k % 12 = 7 ∨ k % 12 = 8 ∨ k % 12 = 9 ∨
      k % 12 = 10 ∨ k % 12 = 11 := by omega
  rcases h12 with h|h|h|h|h|h|h|h|h|h|h|h <;> simp [countStep, h]

/-- The D counter counts exactly the D-class keys seen. -/
theorem countStep_nr_d (a : CountAcc) (k : Nat) :
    (countStep a k).nr_of_d =
      a.nr_of_d + (if decide (k % 12 = 2) = true then 1 else 0) := by
  have h12 : k % 12 = 0 ∨ k % 12 = 1 ∨ k % 12 = 2 ∨ k % 12 = 3 ∨ k % 12 = 4 ∨
      k % 12 = 5 ∨ k % 12 = 6 ∨ k % 12 = 7 ∨ k % 12 = 8 ∨ k % 12 = 9 ∨
      k % 12 = 10 ∨ k % 12 = 11 := by omega
  rcases h12 with h|h|h|h|h|h|h|h|h|h|h|h <;> simp [countStep, h]

/-- The E counter counts exactly the E-class keys seen. -/
theorem countStep_nr_e (a : CountAcc) (k : Nat) :
    (countStep a k).nr_of_e =
      a.nr_of_e + (if decide (k % 12 = 4) = true then 1 else 0) := by
  have h12 : k % 12 = 0 ∨ k % 12 = 1 ∨ k % 12 = 2 ∨ k % 12 = 3 ∨ k % 12 = 4 ∨
      k % 12 = 5 ∨ k % 12 = 6 ∨ k % 12 = 7 ∨ k % 12 = 8 ∨ k % 12 = 9 ∨
      k % 12 = 10 ∨ k % 12 = 11 := by omega
  rcases h12 with h|h|h|h|h|h|h|h|h|h|h|h <;> simp [countStep, h]

/-- The F counter counts exactly the F-class keys seen. -/
theorem countStep_nr_f (a : CountAcc) (k : Nat) :
    (countStep a k).nr_of_f =
      a.nr_of_f + (if decide (k % 12 = 5) = true then 1 else 0) := by
  have h12 : k % 12 = 0 ∨ k % 12 = 1 ∨ k % 12 = 2 ∨ k % 12 = 3 ∨ k % 12 = 4 ∨
      k % 12 = 5 ∨ k % 12 = 6 ∨ k % 12 = 7 ∨ k % 12 = 8 ∨ k % 12 = 9 ∨
      k % 12 = 10 ∨ k % 12 = 11 := by omega
  rcases h12 with h|h|h|h|h|h|h|h|h|h|h|h <;> simp [countStep, h]

/-- The G counter counts exactly the G-class keys seen. -/
theorem countStep_nr_g (a : CountAcc) (k : Nat) :
    (countStep a k).nr_of_g =
      a.nr_of_g + (if decide (k % 12 = 7) = true then 1 else 0) := by
  have h12 : k % 12 = 0 ∨ k % 12 = 1 ∨ k % 12 = 2 ∨ k % 12 = 3 ∨ k % 12 = 4 ∨
      k % 12 = 5 ∨ k % 12 = 6 ∨ k % 12 = 7 ∨ k % 12 = 8 ∨ k % 12 = 9 ∨
      k % 12 = 10 ∨ k % 12 = 11 := by omega
  rcases h12 with h|h|h|h|h|h|h|h|h|h|h|h <;> simp [countStep, h]

/-- The A counter counts exactly the A-class keys seen. -/
theorem countStep_nr_a (a : CountAcc) (k : Nat) :
    (countStep a k).nr_of_a =
      a.nr_of_a + (if decide (k % 12 = 9) = true then 1 else 0) := by
  have h12 : k % 12 = 0 ∨ k % 12 = 1 ∨ k % 12 = 2 ∨ k % 12 = 3 ∨ k % 12 = 4 ∨
      k % 12 = 5 ∨ k % 12 = 6 ∨ k % 12 = 7 ∨ k % 12 = 8 ∨ k % 12 = 9 ∨
      k % 12 = 10 ∨ k % 12 = 11 := by omega
  rcases h12 with h|h|h|h|h|h|h|h|h|h|h|h <;> simp [countStep, h]

/-- The B counter counts exactly the B-class keys seen. -/
theorem countStep_nr_b (a : CountAcc) (k : Nat) :
    (countStep a k).nr_of_b =
      a.nr_of_b + (if decide (k % 12 = 11) = true then 1 else 0) := by
  have h12 : k % 12 = 0 ∨ k % 12 = 1 ∨ k % 12 = 2 ∨ k % 12 = 3 ∨ k % 12 = 4 ∨
      k % 12 = 5 ∨ k % 12 = 6 ∨ k % 12 = 7 ∨ k % 12 = 8 ∨ k % 12 = 9 ∨
      k % 12 = 10 ∨ k % 12 = 11 := by omega
  rcases h12 with h|h|h|h|h|h|h|h|h|h|h|h <;> simp [countStep, h]

/-- A counter that is bumped per step by a predicate count accumulates the
`countP` of the whole list over the fold. -/
theorem foldl_counter (f : CountAcc → Nat) (p : Nat → Bool)
    (hstep : ∀ a k, f (countStep a k) = f a + (if p k = true then 1 else 0)) :
    ∀ (ks : List Nat) (a : CountAcc),
      f (ks.foldl countStep a) = f a + ks.countP p
  | [], a => by simp
  | k :: t, a => by
      have ih := foldl_counter f p hstep t (countStep a k)
      simp only [List.foldl_cons, List.countP_cons, ih, hstep]
      omega

/-- A predicate implied by a disjunction of two others counts below their
sum. -/
theorem countP_le_two {α : Type} (p q1 q2 : α → Bool)
    (h : ∀ x, p x = true → q1 x = true ∨ q2 x = true) :
    ∀ ks : List α, ks.countP p ≤ ks.countP q1 + ks.countP q2
  | [] => Nat.le_refl 0
  | k :: t => by
      have ih := countP_le_two p q1 q2 h t
      simp only [List.countP_cons]
      by_cases hp : p k = true
      · rcases h k hp with hq | hq
        · have a0 : (if p k = true then (1 : Nat) else 0) = 1 := by simp [hp]
          have a1 : (if q1 k = true then (1 : Nat) else 0) = 1 := by simp [hq]
          omega
        · have a0 : (if p k = true then (1 : Nat) else 0) = 1 := by simp [hp]
          have a2 : (if q2 k = true then (1 : Nat) else 0) = 1 := by simp [hq]
          omega
      · have a0 : (if p k = true then (1 : Nat) else 0) = 0 := by simp [hp]
        omega

/-- A count of the four-class F,G,A,B key predicate is below the sum of the
four single-class counts. -/
theorem countP_or4 (ks : List Nat) :
    ks.countP (fun k =>
        decide (k % 12 = 5 ∨ k % 12 = 7 ∨ k % 12 = 9 ∨ k % 12 = 11)) ≤
      ks.countP (fun k => decide (k % 12 = 5)) +
      ks.countP (fun k => decide (k % 12 = 7)) +
      ks.countP (fun k => decide (k % 12 = 9)) +
      ks.countP (fun k => decide (k % 12 = 11)) := by
  have h1 := countP_le_two
    (fun k => decide (k % 12 = 5 ∨ k % 12 = 7 ∨ k % 12 = 9 ∨ k % 12 = 11))
    (fun k => decide (k % 12 = 5 ∨ k % 12 = 7))
    (fun k => decide (k % 12 = 9 ∨ k % 12 = 11))
    (fun x hx => by
      rcases of_decide_eq_true hx with h | h | h | h
      · exact Or.inl (decide_eq_true (Or.inl h))
      · exact Or.inl (decide_eq_true (Or.inr h))
      · exact Or.inr (decide_eq_true (Or.inl h))
      · exact Or.inr (decide_eq_true (Or.inr h))) ks
  have h2 := countP_le_two
    (fun k => decide (k % 12 = 5 ∨ k % 12 = 7))
    (fun k => decide (k % 12 = 5)) (fun k => decide (k % 12 = 7))
    (fun x hx => by
      rcases of_decide_eq_true hx with h | h
      · exact Or.inl (decide_eq_true h)
      · exact Or.inr (decide_eq_true h)) ks
  have h3 := countP_le_two
    (fun k => decide (k % 12 = 9 ∨ k % 12 = 11))
    (fun k => decide (k % 12 = 9)) (fun k => decide (k % 12 = 11))
    (fun x hx => by
      rcases of_decide_eq_true hx with h | h
      · exact Or.inl (decide_eq_true h)
      · exact Or.inr (decide_eq_true h)) ks
  omega

/-- A count of the three-class C,D,E key predicate is below the sum of the
three single-class counts. -/
theorem countP_or3 (ks : List Nat) :
    ks.countP (fun k => decide (k % 12 = 0 ∨ k % 12 = 2 ∨ k % 12 = 4)) ≤
      ks.countP (fun k => decide (k % 12 = 0)) +
      ks.countP (fun k => decide (k % 12 = 2)) +
      ks.countP (fun k => decide (k % 12 = 4)) := by
  have h1 := countP_le_two
    (fun k => decide (k % 12 = 0 ∨ k % 12 = 2 ∨ k % 12 = 4))
    (fun k => decide (k % 12 = 0 ∨ k % 12 = 2))
    (fun k => decide (k % 12 = 4))
    (fun x hx => by
      rcases of_decide_eq_true hx with h | h | h
      · exact Or.inl (decide_eq_true (Or.inl h))
      · exact Or.inl (decide_eq_true (Or.inr h))
      · exact Or.inr (decide_eq_true h)) ks
  have h2 := countP_le_two
    (fun k => decide (k % 12 = 0 ∨ k % 12 = 2))
    (fun k => decide (k % 12 = 0)) (fun k => decide (k % 12 = 2))
    (fun x hx => by
      rcases of_decide_eq_true hx with h | h
      · exact Or.inl (decide_eq_true h)
      · exact Or.inr (decide_eq_true h)) ks
  omega

/-- The B-C possibility flag, once set, stays set. -/
theorem countStep_pb_mono (a : CountAcc) (k : Nat)
    (h : a.possible_bc_gap = true) : (countStep a k).possible_bc_gap = true := by
  have h12 : k % 12 = 0 ∨ k % 12 = 1 ∨ k % 12 = 2 ∨ k % 12 = 3 ∨ k % 12 = 4 ∨
      k % 12 = 5 ∨ k % 12 = 6 ∨ k % 12 = 7 ∨ k % 12 = 8 ∨ k % 12 = 9 ∨
      k % 12 = 10 ∨ k % 12 = 11 := by omega
  rcases h12 with hc|hc|hc|hc|hc|hc|hc|hc|hc|hc|hc|hc <;> simp [countStep, hc, h]

/-- A B-class key sets the B-C possibility flag. -/
theorem countStep_pb_set (a : CountAcc) (k : Nat) (h : k % 12 = 11) :
    (countStep a k).possible_bc_gap = true := by
  simp [countStep, h]

/-- Keys that are not C-class leave the B-C gap counter unchanged. -/
theorem countStep_bc_other (a : CountAcc) (k : Nat) (h : ¬ k % 12 = 0) :
    (countStep a k).nr_of_bc_gaps = a.nr_of_bc_gaps := by
  have h12 : k % 12 = 1 ∨ k % 12 = 2 ∨ k % 12 = 3 ∨ k % 12 = 4 ∨
      k % 12 = 5 ∨ k % 12 = 6 ∨ k % 12 = 7 ∨ k % 12 = 8 ∨ k % 12 = 9 ∨
      k % 12 = 10 ∨ k % 12 = 11 := by omega
  rcases h12 with hc|hc|hc|hc|hc|hc|hc|hc|hc|hc|hc <;> simp [countStep, hc]

/-- A C-class key with the B-C flag set bumps the B-C gap counter. -/
theorem countStep_bc_c (a : CountAcc) (k : Nat) (h : k % 12 = 0)
    (hpb : a.possible_bc_gap = true) :
    (countStep a k).nr_of_bc_gaps = a.nr_of_bc_gaps + 1 := by
  simp [countStep, h, hpb]

/-- The B-C possibility flag persists through the fold. -/
theorem foldl_pb_mono : ∀ (ks : List Nat) (a : CountAcc),
    a.possible_bc_gap = true → (ks.foldl countStep a).possible_bc_gap = true
  | [], _, h => h
  | k :: t, a, h => foldl_pb_mono t (countStep a k) (countStep_pb_mono a k h)

/-- Any B-class key in the list leaves the B-C possibility flag set. -/
theorem foldl_pb_of_mem (ks : List Nat) :
    ∀ a : CountAcc, (∃ x ∈ ks, x % 12 = 11) →
      (ks.foldl countStep a).possible_bc_gap = true := by
  induction ks with
  | nil =>
      intro a hex
      obtain ⟨x, hx, _⟩ := hex
      exact absurd hx (List.not_mem_nil x)
  | cons k t ih =>
      intro a hex
      obtain ⟨x, hx, hB⟩ := hex
      rcases List.mem_cons.mp hx with rfl | hxt
      · exact foldl_pb_mono t _ (countStep_pb_set a x hB)
      · exact ih _ ⟨x, hxt, hB⟩

/-- Over a contiguous range the B-C gap counter dominates the number of
C-class keys strictly inside the range: every such C has the B right before
it inside the range, which has set the possibility flag. -/
theorem bc_count_le (l : Nat) : ∀ M : Nat,
    (List.range' (l + 1) (M - 1)).countP (fun k => decide (k % 12 = 0)) ≤
      ((List.range' l M).foldl countStep {}).nr_of_bc_gaps := by
  intro M
  induction M with
  | zero => simp
  | succ M' ih =>
      rcases Nat.eq_zero_or_pos M' with rfl | hpos
      · simp
      · obtain ⟨m2, hm2⟩ : ∃ m2, M' = m2 + 1 := ⟨M' - 1, by omega⟩
        have hsplit : List.range' l (M' + 1) = List.range' l M' ++ [l + M'] := by
          have h := @List.range'_concat 1 l M'
          simpa using h
        have hsplit2 : List.range' (l + 1) M' =
            List.range' (l + 1) (M' - 1) ++ [l + M'] := by
          rw [hm2]
          have h := @List.range'_concat 1 (l + 1) m2
          have harith : l + 1 + 1 * m2 = l + (m2 + 1) := by omega
          rw [harith] at h
          rw [show m2 + 1 - 1 = m2 from rfl]
          exact h
        rw [show M' + 1 - 1 = M' from by omega, hsplit, hsplit2,
          List.foldl_append, List.countP_append]
        simp only [List.foldl_cons, List.foldl_nil, List.countP_cons,
          List.countP_nil]
        by_cases hC : (l + M') % 12 = 0
        · have hB : (l + M' - 1) % 12 = 11 := by omega
          have hBmem : (l + M' - 1) ∈ List.range' l M' := by
            rw [List.mem_range'_1]
            omega
          have hpb := foldl_pb_of_mem (List.range' l M') {} ⟨_, hBmem, hB⟩
          have hstep := countStep_bc_c ((List.range' l M').foldl countStep {})
            (l + M') hC hpb
          have hone : (if decide ((l + M') % 12 = 0) = true then 1 else 0) = 1 := by
            simp [hC]
          omega
        · have hstep := countStep_bc_other ((List.range' l M').foldl countStep {})
            (l + M') hC
          have hzero : (if decide ((l + M') % 12 = 0) = true then 1 else 0) = 0 := by
            simp [hC]
          omega

/-- The E-F possibility flag, once set, stays set. -/
theorem countStep_pe_mono (a : CountAcc) (k : Nat)
    (h : a.possible_ef_gap = true) : (countStep a k).possible_ef_gap = true := by
  have h12 : k % 12 = 0 ∨ k % 12 = 1 ∨ k % 12 = 2 ∨ k % 12 = 3 ∨ k % 12 = 4 ∨
      k % 12 = 5 ∨ k % 12 = 6 ∨ k % 12 = 7 ∨ k % 12 = 8 ∨ k % 12 = 9 ∨
      k % 12 = 10 ∨ k % 12 = 11 := by omega
  rcases h12 with hc|hc|hc|hc|hc|hc|hc|hc|hc|hc|hc|hc <;> simp [countStep, hc, h]

/-- An E-class key sets the E-F possibility flag. -/
theorem countStep_pe_set (a : CountAcc) (k : Nat) (h : k % 12 = 4) :
    (countStep a k).possible_ef_gap = true := by
  simp [countStep, h]

/-- Keys that are not F-class leave the E-F gap counter unchanged. -/
theorem countStep_ef_other (a : CountAcc) (k : Nat) (h : ¬ k % 12 = 5) :
    (countStep a k).nr_of_ef_gaps = a.nr_of_ef_gaps := by
  have h12 : k % 12 = 0 ∨ k % 12 = 1 ∨ k % 12 = 2 ∨ k % 12 = 3 ∨ k % 12 = 4 ∨
      k % 12 = 6 ∨ k % 12 = 7 ∨ k % 12 = 8 ∨ k % 12 = 9 ∨
      k % 12 = 10 ∨ k % 12 = 11 := by omega
  rcases h12 with hc|hc|hc|hc|hc|hc|hc|hc|hc|hc|hc <;> simp [countStep, hc]

/-- An F-class key with the E-F flag set bumps the E-F gap counter. -/
theorem countStep_ef_f (a : CountAcc) (k : Nat) (h : k % 12 = 5)
    (hpe : a.possible_ef_gap = true) :
    (countStep a k).nr_of_ef_gaps = a.nr_of_ef_gaps + 1 := by
  simp [countStep, h, hpe]

/-- The E-F possibility flag persists through the fold. -/
theorem foldl_pe_mono : ∀ (ks : List Nat) (a : CountAcc),
    a.possible_ef_gap = true → (ks.foldl countStep a).possible_ef_gap = true
  | [], _, h => h
  | k :: t, a, h => foldl_pe_mono t (countStep a k) (countStep_pe_mono a k h)

/-- Any E-class key in the list leaves the E-F possibility flag set. -/
theorem foldl_pe_of_mem (ks : List Nat) :
    ∀ a : CountAcc, (∃ x ∈ ks, x % 12 = 4) →
      (ks.foldl countStep a).possible_ef_gap = true := by
  induction ks with
  | nil =>
      intro a hex
      obtain ⟨x, hx, _⟩ := hex
      exact absurd hx (List.not_mem_nil x)
  | cons k t ih =>
      intro a hex
      obtain ⟨x, hx, hE⟩ := hex
      rcases List.mem_cons.mp hx with rfl | hxt
      · exact foldl_pe_mono t _ (countStep_pe_set a x hE)
      · exact ih _ ⟨x, hxt, hE⟩

/-- Over a contiguous range the E-F gap counter dominates the number of
F-class keys strictly inside the range. -/
theorem ef_count_le (l : Nat) : ∀ M : Nat,
    (List.range' (l + 1) (M - 1)).countP (fun k => decide (k % 12 = 5)) ≤
      ((List.range' l M).foldl countStep {}).nr_of_ef_gaps := by
  intro M
  induction M with
  | zero => simp
  | succ M' ih =>
      rcases Nat.eq_zero_or_pos M' with rfl | hpos
      · simp
      · obtain ⟨m2, hm2⟩ : ∃ m2, M' = m2 + 1 := ⟨M' - 1, by omega⟩
        have hsplit : List.range' l (M' + 1) = List.range' l M' ++ [l + M'] := by
          have h := @List.range'_concat 1 l M'
          simpa using h
        have hsplit2 : List.range' (l + 1) M' =
            List.range' (l + 1) (M' - 1) ++ [l + M'] := by
          rw [hm2]
          have h := @List.range'_concat 1 (l + 1) m2
          have harith : l + 1 + 1 * m2 = l + (m2 + 1) := by omega
          rw [harith] at h
          rw [show m2 + 1 - 1 = m2 from rfl]
          exact h
        rw [show M' + 1 - 1 = M' from by omega, hsplit, hsplit2,
          List.foldl_append, List.countP_append]
        simp only [List.foldl_cons, List.foldl_nil, List.countP_cons,
          List.countP_nil]
        by_cases hF : (l + M') % 12 = 5
        · have hE : (l + M' - 1) % 12 = 4 := by omega
          have hEmem : (l + M' - 1) ∈ List.range' l M' := by
            rw [List.mem_range'_1]
            omega
          have hpe := foldl_pe_of_mem (List.range' l M') {} ⟨_, hEmem, hE⟩
          have hstep := countStep_ef_f ((List.range' l M').foldl countStep {})
            (l + M') hF hpe
          have hone : (if decide ((l + M') % 12 = 5) = true then 1 else 0) = 1 := by
            simp [hF]
          omega
        · have hstep := countStep_ef_other ((List.range' l M').foldl countStep {})
            (l + M') hF
          have hzero : (if decide ((l + M') % 12 = 5) = true then 1 else 0) = 0 := by
            simp [hF]
          omega

/-! ### Structure of the seeded element list -/

/-- Every element of the seeded list is a uniform gap or a uniform key. -/
theorem seed_mem : ∀ (ws : List Nat) (e : Element),
    e ∈ (Element.IdenticalGap ::
      ws.flatMap (fun k => [Element.IdenticalWhite k, Element.IdenticalGap])) →
    e = Element.IdenticalGap ∨ ∃ k, e = Element.IdenticalWhite k
  | [], e, h => by
      rcases List.mem_cons.mp h with rfl | h'
      · exact Or.inl rfl
      · exact absurd h' (List.not_mem_nil e)
  | k :: t, e, h => by
      rcases List.mem_cons.mp h with rfl | h'
      · exact Or.inl rfl
      · have h'' : e ∈ Element.IdenticalWhite k :: Element.IdenticalGap ::
            t.flatMap (fun k => [Element.IdenticalWhite k, Element.IdenticalGap]) :=
          h'
        rcases List.mem_cons.mp h'' with rfl | h3
        · exact Or.inr ⟨k, rfl⟩
        · rcases List.mem_cons.mp h3 with rfl | h4
          · exact Or.inl rfl
          · exact seed_mem t e (List.mem_cons_of_mem _ h4)

/-- Counting a gap-refusing predicate over the seeded list counts it over the
keys. -/
theorem seedCountKeys (p : Element → Bool) (hp : p Element.IdenticalGap = false) :
    ∀ ws : List Nat,
      (Element.IdenticalGap ::
        ws.flatMap (fun k =>
          [Element.IdenticalWhite k, Element.IdenticalGap])).countP p =
      ws.countP (fun k => p (Element.IdenticalWhite k))
  | [] => by simp [List.countP_cons, hp]
  | k :: t => by
      have ih := seedCountKeys p hp t
      show (Element.IdenticalGap :: Element.IdenticalWhite k ::
        Element.IdenticalGap ::
          t.flatMap (fun k =>
            [Element.IdenticalWhite k, Element.IdenticalGap])).countP p = _
      simp only [List.countP_cons] at ih ⊢
      have hz : (if p Element.IdenticalGap = true then 1 else 0) = 0 := by
        rw [hp]
        rfl
      omega

/-- The seeded tail after the first key is a well-shaped chunk list. -/
theorem seed_restOk : ∀ ws : List Nat,
    restOk (Element.IdenticalGap ::
      ws.flatMap (fun k =>
        [Element.IdenticalWhite k, Element.IdenticalGap])) = true
  | [] => rfl
  | k :: t => by
      have ih := seed_restOk t
      show restOk (Element.IdenticalGap :: Element.IdenticalWhite k ::
        Element.IdenticalGap ::
          t.flatMap (fun k =>
            [Element.IdenticalWhite k, Element.IdenticalGap])) = true
      simp only [restOk, Bool.and_eq_true]
      refine ⟨⟨⟨rfl, rfl⟩, ?_⟩, ih⟩
      unfold compatGK keyNum
      simp [okBeforeC, okBeforeF]

/-- Length of the seeded pair list. -/
theorem flatMap_pair_length : ∀ ws : List Nat,
    (ws.flatMap
      (fun k => [Element.IdenticalWhite k, Element.IdenticalGap])).length =
        2 * ws.length
  | [] => rfl
  | k :: t => by
      have ih := flatMap_pair_length t
      simp only [List.flatMap_cons, List.length_append, List.length_cons,
        List.length_nil, List.length_flatMap] at ih ⊢
      omega

/-! ### The seeded state satisfies the loop invariant -/

/-- The seeded counters equal per-class counts over the scanned range. -/
theorem countersOf_field (f : CountAcc → Nat) (p : Nat → Bool)
    (hstep : ∀ a k, f (countStep a k) = f a + (if p k = true then 1 else 0))
    (h0 : f {} = 0) (l r : Nat) :
    f (countersOf l r) = (List.range' l (r + 1 - l)).countP p := by
  have h1 := foldl_counter f p hstep (List.range' l (r + 1 - l)) {}
  show f ((List.range' l (r + 1 - l)).foldl countStep {}) = _
  omega

/-- The seeded width never exceeds the target (the floor construction of the
uniform widths). -/
theorem seed_cw_le (l r w : Nat) :
    currentWidthTotal (basePre (kbOf l r w)) ≤ (basePre (kbOf l r w)).width := by
  have hsum := currentWidthTotal_basePre (kbOf l r w)
  have hn : (basePre (kbOf l r w)).nr_of_white_keys =
      (whiteKeys (kbOf l r w)).length := rfl
  have hgap : (basePre (kbOf l r w)).identical_gap =
      gminOf (kbOf l r w) ((whiteKeys (kbOf l r w)).length) := rfl
  have hkey : (basePre (kbOf l r w)).identical_key =
      kwminOf (kbOf l r w) ((whiteKeys (kbOf l r w)).length) := rfl
  have hwidth : (basePre (kbOf l r w)).width = w := rfl
  set n := (whiteKeys (kbOf l r w)).length with hndef
  set Gv := keyGap10um (kbOf l r w) with hGdef
  set Kv := (kbOf l r w).white_key_wide_width_10um with hKdef
  have hGpos : 0 < Gv := by
    rw [hGdef]
    unfold keyGap10um kbOf KeyboardBuilder.new
    norm_num
  have hTpos : 0 < (Kv + Gv) * n + Gv := by omega
  have hb := seed_floor_bounds Kv Gv w n hTpos
  have hg0 : gminOf (kbOf l r w) n = Gv * w / ((Kv + Gv) * n + Gv) := by
    rw [hGdef, hKdef]
    rfl
  have hk00 : kw0Of (kbOf l r w) n = Kv * w / ((Kv + Gv) * n + Gv) := by
    rw [hGdef, hKdef]
    rfl
  have hb1 := hb.1
  rw [← hg0, ← hk00] at hb1
  set k0 := kw0Of (kbOf l r w) n with hk0def
  set g0 := gminOf (kbOf l r w) n with hg0def
  have hkmin : kwminOf (kbOf l r w) n =
      (if n * (k0 + 1) + (n + 1) * g0 ≤ w then k0 + 1 else k0) := by
    rw [hk0def, hg0def]
    rfl
  rw [hsum, hn, hkey, hgap, hkmin, hwidth]
  by_cases hguard : n * (k0 + 1) + (n + 1) * g0 ≤ w
  · rw [if_pos hguard]
    omega
  · rw [if_neg hguard]
    omega

/-- The state seeded by `Base::calculate` from a validated configuration
satisfies the solver-loop invariant. -/
theorem basePre_inv (l r w : Nat) (hv : validConfig l r w = true) :
    SolverInv (basePre (kbOf l r w)) := by
  have hv' := hv
  simp only [validConfig, Bool.and_eq_true, decide_eq_true_eq] at hv'
  obtain ⟨⟨⟨⟨⟨⟨hlr, hl127⟩, hr127⟩, hspan⟩, hwl⟩, hwr⟩, hw⟩ := hv'
  have hrange : List.range' l (r + 1 - l) = l :: List.range' (l + 1) (r - l) := by
    rw [show r + 1 - l = (r - l) + 1 from by omega]
    exact List.range'_succ l (r - l) 1
  have hwhites : whiteKeys (kbOf l r w) =
      l :: (List.range' (l + 1) (r - l)).filter (fun k => isWhite k) := by
    show (List.range' l (r + 1 - l)).filter (fun k => isWhite k) = _
    rw [hrange, List.filter_cons, if_pos hwl]
  set tws := (List.range' (l + 1) (r - l)).filter (fun k => isWhite k) with htws
  have hE : (basePre (kbOf l r w)).elements =
      Element.IdenticalGap ::
        (whiteKeys (kbOf l r w)).flatMap
          (fun k => [Element.IdenticalWhite k, Element.IdenticalGap]) := rfl
  have hN : (basePre (kbOf l r w)).nr_of_white_keys =
      (whiteKeys (kbOf l r w)).length := rfl
  have hNlen : (whiteKeys (kbOf l r w)).length = tws.length + 1 := by
    rw [hwhites]
    rfl
  have hdrop : (basePre (kbOf l r w)).elements.drop 2 =
      Element.IdenticalGap ::
        tws.flatMap (fun k => [Element.IdenticalWhite k, Element.IdenticalGap]) := by
    rw [hE, hwhites]
    rfl
  have hsubW : List.Sublist (whiteKeys (kbOf l r w)) (List.range' l (r + 1 - l)) :=
    List.filter_sublist _
  have hsubT : List.Sublist tws (List.range' (l + 1) (r - l)) := by
    rw [htws]
    exact List.filter_sublist _
  have hfC : (basePre (kbOf l r w)).nr_of_c =
      (List.range' l (r + 1 - l)).countP (fun k => decide (k % 12 = 0)) :=
    countersOf_field (fun a => a.nr_of_c) (fun k => decide (k % 12 = 0))
      countStep_nr_c rfl l r
  have hfD : (basePre (kbOf l r w)).nr_of_d =
      (List.range' l (r + 1 - l)).countP (fun k => decide (k % 12 = 2)) :=
    countersOf_field (fun a => a.nr_of_d) (fun k => decide (k % 12 = 2))
      countStep_nr_d rfl l r
  have hfE : (basePre (kbOf l r w)).nr_of_e =
      (List.range' l (r + 1 - l)).countP (fun k => decide (k % 12 = 4)) :=
    countersOf_field (fun a => a.nr_of_e) (fun k => decide (k % 12 = 4))
      countStep_nr_e rfl l r
  have hfF : (basePre (kbOf l r w)).nr_of_f =
      (List.range' l (r + 1 - l)).countP (fun k => decide (k % 12 = 5)) :=
    countersOf_field (fun a => a.nr_of_f) (fun k => decide (k % 12 = 5))
      countStep_nr_f rfl l r
  have hfG : (basePre (kbOf l r w)).nr_of_g =
      (List.range' l (r + 1 - l)).countP (fun k => decide (k % 12 = 7)) :=
    countersOf_field (fun a => a.nr_of_g) (fun k => decide (k % 12 = 7))
      countStep_nr_g rfl l r
  have hfA : (basePre (kbOf l r w)).nr_of_a =
      (List.range' l (r + 1 - l)).countP (fun k => decide (k % 12 = 9)) :=
    countersOf_field (fun a => a.nr_of_a) (fun k => decide (k % 12 = 9))
      countStep_nr_a rfl l r
  have hfB : (basePre (kbOf l r w)).nr_of_b =
      (List.range' l (r + 1 - l)).countP (fun k => decide (k % 12 = 11)) :=
    countersOf_field (fun a => a.nr_of_b) (fun k => decide (k % 12 = 11))
      countStep_nr_b rfl l r
  have hfBC : (basePre (kbOf l r w)).nr_of_bc_gaps =
      ((List.range' l (r + 1 - l)).foldl countStep {}).nr_of_bc_gaps := rfl
  have hfEF : (basePre (kbOf l r w)).nr_of_ef_gaps =
      ((List.range' l (r + 1 - l)).foldl countStep {}).nr_of_ef_gaps := rfl
  have habs : ∀ p : Element → Bool, p Element.IdenticalGap = false →
      (∀ k, p (Element.IdenticalWhite k) = false) →
      (basePre (kbOf l r w)).elements.countP p = 0 := by
    intro p hg hk
    rw [hE, List.countP_eq_zero]
    intro e he
    rcases seed_mem (whiteKeys (kbOf l r w)) e he with rfl | ⟨k, rfl⟩
    · simp [hg]
    · simp [hk]
  have hfgab1 : (basePre (kbOf l r w)).elements.countP pIdWFgab =
      (whiteKeys (kbOf l r w)).countP
        (fun k => decide (k % 12 = 5 ∨ k % 12 = 7 ∨ k % 12 = 9 ∨ k % 12 = 11)) :=
    seedCountKeys pIdWFgab rfl (whiteKeys (kbOf l r w))
  have hcde1 : (basePre (kbOf l r w)).elements.countP pIdWCde =
      (whiteKeys (kbOf l r w)).countP
        (fun k => decide (k % 12 = 0 ∨ k % 12 = 2 ∨ k % 12 = 4)) :=
    seedCountKeys pIdWCde rfl (whiteKeys (kbOf l r w))
  have hd1 : ((basePre (kbOf l r w)).elements.drop 2).countP pDun =
      tws.countP (fun k => decide (k % 12 = 2)) := by
    rw [hdrop, seedCountKeys pDun rfl tws]
    refine List.countP_congr (fun x hx => ?_)
    by_cases h : x % 12 = 2 <;> simp [pDun, dMatch, h]
  have hbc1 : ((basePre (kbOf l r w)).elements.drop 2).countP pIdWC =
      tws.countP (fun k => decide (k % 12 = 0)) := by
    rw [hdrop]
    exact seedCountKeys pIdWC rfl tws
  have hef1 : ((basePre (kbOf l r w)).elements.drop 2).countP pFkey =
      tws.countP (fun k => decide (k % 12 = 5)) := by
    rw [hdrop]
    exact seedCountKeys pFkey rfl tws
  have hd3 : (List.range' (l + 1) (r - l)).countP (fun k => decide (k % 12 = 2)) ≤
      (List.range' l (r + 1 - l)).countP (fun k => decide (k % 12 = 2)) := by
    rw [hrange]
    simp only [List.countP_cons]
    omega
  have hbc3 : (List.range' (l + 1) (r - l)).countP (fun k => decide (k % 12 = 0)) ≤
      ((List.range' l (r + 1 - l)).foldl countStep {}).nr_of_bc_gaps := by
    have h := bc_count_le l (r + 1 - l)
    rw [show r + 1 - l - 1 = r - l from by omega] at h
    exact h
  have hef3 : (List.range' (l + 1) (r - l)).countP (fun k => decide (k % 12 = 5)) ≤
      ((List.range' l (r + 1 - l)).foldl countStep {}).nr_of_ef_gaps := by
    have h := ef_count_le l (r + 1 - l)
    rw [show r + 1 - l - 1 = r - l from by omega] at h
    exact h
  exact
    { cw_le := seed_cw_le l r w
      npos := by
        rw [hN, hNlen]
        omega
      elen := by
        rw [hE, hN]
        simp only [List.length_cons, flatMap_pair_length]
      shape := ⟨Element.IdenticalGap, Element.IdenticalWhite l,
        Element.IdenticalGap ::
          tws.flatMap (fun k => [Element.IdenticalWhite k, Element.IdenticalGap]),
        by rw [hE, hwhites]; rfl, rfl, rfl, seed_restOk tws⟩
      fgabCnt := by
        have h2 := List.Sublist.countP_le
          (fun k => decide (k % 12 = 5 ∨ k % 12 = 7 ∨ k % 12 = 9 ∨ k % 12 = 11))
          hsubW
        have h3 := countP_or4 (List.range' l (r + 1 - l))
        omega
      cdeCnt := by
        have h2 := List.Sublist.countP_le
          (fun k => decide (k % 12 = 0 ∨ k % 12 = 2 ∨ k % 12 = 4)) hsubW
        have h3 := countP_or3 (List.range' l (r + 1 - l))
        omega
      dCnt := by
        have h2 := List.Sublist.countP_le (fun k => decide (k % 12 = 2)) hsubT
        omega
      bcCnt := by
        have h2 := List.Sublist.countP_le (fun k => decide (k % 12 = 0)) hsubT
        omega
      efCnt := by
        have h2 := List.Sublist.countP_le (fun k => decide (k % 12 = 5)) hsubT
        omega
      fgabAbs := fun _ => habs pKeyFgab rfl (fun _ => rfl)
      cdeAbs := fun _ => habs pKeyCde rfl (fun _ => rfl)
      cdeDone := fun h => Bool.noConfusion h
      bcAbs := fun _ => habs pGapBC rfl (fun _ => rfl)
      efAbs := fun _ => habs pGapEF rfl (fun _ => rfl)
      outAbs := fun _ => habs pOutG rfl (fun _ => rfl)
      endAbs := fun _ => habs pEnlK rfl (fun _ => rfl)
      dAbs := fun _ _ => habs pKeyD rfl (fun _ => rfl) }

/-- C10.  Throughout the delta-resolution loop of `Base::find_solution`
started from a validated seeded configuration, the accumulated width of all
elements never exceeds the target width (every heuristic tier adds at most
the current delta), so the loop never reaches the over-wide abort that
models the defensive panic of `Base::current_width`. -/
theorem c10_solver_width_safe (l r w fuel last : Nat)
    (hv : validConfig l r w = true) :
    isOverwide (solveLoop fuel last (basePre (kbOf l r w))) = false :=
  solveLoop_no_overwide fuel last (basePre (kbOf l r w)) (basePre_inv l r w hv)

/-- Witness for C10 at the 88-key width-800 configuration. -/
theorem c10_solver_width_safe_witness :
    validConfig 21 108 800 = true ∧
    isOverwide (solveLoop 50 0 (basePre (kbOf 21 108 800))) = false :=
  ⟨by decide, c10_solver_width_safe 21 108 800 50 0 (by decide)⟩
end PK
